import Mathlib

/-!
# umem: a user-space allocator over one mmap-ed arena

Shallow embedding of `src/umem.c`.

* Addresses, `size_t` values and pointers are natural numbers below `2^64`;
  every `size_t` addition and subtraction is reduced modulo `2^64`.
* The address space is a map from the byte address of an 8-byte word to the
  value of that word, together with the list of regions mapped so far.
  A `BlockHeader` at address `b` (LP64 layout, `sizeof = 24`) is the three
  words `b` (`size`), `b + 8` (`next`) and `b + 16` (`free`, an `int` in the
  low four bytes of the word, little endian; the high four bytes are padding).
* A load or store outside every mapped region, or at an address that is not a
  multiple of 8, is a `fault` (the process is killed); a loop that runs out of
  fuel is a `timeout`.  Everything else returns `ok`.
* The file-scope statics of `umem.c` and the function-scope static `next` of
  `find_next_fit` are the fields of `State`.
-/

namespace Umem

/-! ## Outcomes -/

/-- Outcome of running a piece of the program: a value, a memory fault, or
fuel exhausted inside a loop. -/
inductive Res (α : Type) where
  | ok (a : α) : Res α
  | fault : Res α
  | timeout : Res α
deriving DecidableEq

/-- Sequencing of outcomes: the first fault or timeout wins. -/
def Res.bind {α β : Type} (x : Res α) (f : α → Res β) : Res β :=
  match x with
  | Res.ok a => f a
  | Res.fault => Res.fault
  | Res.timeout => Res.timeout

instance : Monad Res where
  pure := Res.ok
  bind := Res.bind

/-! ## Machine arithmetic -/

/-- Modulus of `size_t` and of pointers. -/
def SIZE_MOD : Nat := 2 ^ 64

/-- Addition on `size_t`. -/
def add64 (a b : Nat) : Nat := (a + b) % SIZE_MOD

/-- Subtraction on `size_t` (wraps below zero). -/
def sub64 (a b : Nat) : Nat := (a % SIZE_MOD + (SIZE_MOD - b % SIZE_MOD)) % SIZE_MOD

/-- Bitwise complement on `size_t`: the value of `~x` after conversion to
`size_t`. -/
def not64 (x : Nat) : Nat := SIZE_MOD - 1 - x % SIZE_MOD

/-- Macro `#define ALIGNMENT 8`. -/
def ALIGNMENT : Nat := 8

/-- Macro `#define ALIGN(size) (((size) + (ALIGNMENT-1)) & ~(ALIGNMENT-1))`. -/
def ALIGN (size : Nat) : Nat := add64 size (ALIGNMENT - 1) &&& not64 (ALIGNMENT - 1)

/-- Value of `sizeof(BlockHeader)` on LP64: `size_t size; BlockHeader *next; int free;`
plus four bytes of padding. -/
def sizeof_BlockHeader : Nat := 24

/-- Macro `#define BLOCK_SIZE ALIGN(sizeof(BlockHeader))`. -/
def BLOCK_SIZE : Nat := ALIGN sizeof_BlockHeader

/-- Value of `sizeof(fake_heap)`, for `static uint8_t fake_heap[1024 * 1024]`. -/
def sizeof_fake_heap : Nat := 1024 * 1024

/-- Macro `#define BEST_FIT (1)` (test_umem.c, line 6). -/
def BEST_FIT : Int := 1
/-- Macro `#define WORST_FIT (2)` (test_umem.c, line 7). -/
def WORST_FIT : Int := 2
/-- Macro `#define FIRST_FIT (3)` (test_umem.c, line 8). -/
def FIRST_FIT : Int := 3
/-- Macro `#define NEXT_FIT (4)` (test_umem.c, line 9). -/
def NEXT_FIT : Int := 4

/-! ## State -/

/-- The operating system as seen by `umeminit`. -/
structure OS where
  /-- Value returned by `getpagesize()`. -/
  getpagesize : Nat
  /-- Answer to the `k`-th mapping request of a given non-zero length: the
  address of a fresh zero-filled region, or `none` for `MAP_FAILED`. -/
  mmap_answer : Nat → Nat → Option Nat

/-- Process state: memory, mapped regions, and the statics of `umem.c`. -/
structure State where
  /-- The 8-byte word stored at a byte address. -/
  mem : Nat → Nat
  /-- Regions `(address, length)` mapped so far; nothing is ever unmapped. -/
  mapped : List (Nat × Nat)
  /-- Lengths passed to `mmap` so far, oldest first. -/
  mmap_requests : List Nat
  /-- Static `BlockHeader *heap_list`. -/
  heap_list : Nat
  /-- Static `BlockHeader *next_fit_ptr`. -/
  next_fit_ptr : Nat
  /-- Static `int allocation_algorithm`. -/
  allocation_algorithm : Int
  /-- Static `int allocator_initialized`. -/
  allocator_initialized : Int
  /-- Static `size_t size_of_region`. -/
  size_of_region : Nat
  /-- Static `void *memory_region`. -/
  memory_region : Nat
  /-- Static `BlockHeader *next` local to `find_next_fit`. -/
  next : Nat

/-- State of a freshly started process: nothing mapped, statics at their
initialisers. -/
def State.start : State :=
  { mem := fun _ => 0, mapped := [], mmap_requests := [],
    heap_list := 0, next_fit_ptr := 0, allocation_algorithm := FIRST_FIT,
    allocator_initialized := 0, size_of_region := 0, memory_region := 0,
    next := 0 }

/-! ## Memory access -/

/-- Whether the `n` bytes at `a` lie inside one mapped region. -/
def State.is_mapped (st : State) (a n : Nat) : Bool :=
  st.mapped.any fun r => decide (r.1 ≤ a ∧ a + n ≤ r.1 + r.2)

/-- Whether an 8-byte access at `a` is served. -/
def State.valid (st : State) (a : Nat) : Bool :=
  decide (a % 8 = 0) && st.is_mapped a 8

/-- Load of an 8-byte word. -/
def load64 (st : State) (a : Nat) : Res Nat :=
  if st.valid a then Res.ok (st.mem a) else Res.fault

/-- The state with the word at `a` replaced by `v` (reduced to 64 bits). -/
def State.write (st : State) (a v : Nat) : State :=
  { st with mem := fun x => if x = a then v % SIZE_MOD else st.mem x }

/-- Store of an 8-byte word. -/
def store64 (st : State) (a v : Nat) : Res State :=
  if st.valid a then Res.ok (st.write a v) else Res.fault

/-- Load of `b->size`. -/
def rd_size (st : State) (b : Nat) : Res Nat := load64 st b

/-- Load of `b->next`. -/
def rd_next (st : State) (b : Nat) : Res Nat := load64 st (b + 8)

/-- Load of `b->free`: the low four bytes of the word at `b + 16`. -/
def rd_free (st : State) (b : Nat) : Res Nat := do
  let w ← load64 st (b + 16)
  pure (w % 2 ^ 32)

/-- Store to `b->size`. -/
def wr_size (st : State) (b v : Nat) : Res State := store64 st b v

/-- Store to `b->next`. -/
def wr_next (st : State) (b v : Nat) : Res State := store64 st (b + 8) v

/-- Store to `b->free`: replaces the low four bytes of the word at `b + 16`
and keeps the padding. -/
def wr_free (st : State) (b v : Nat) : Res State := do
  let w ← load64 st (b + 16)
  store64 st (b + 16) (w / 2 ^ 32 * 2 ^ 32 + v % 2 ^ 32)

/-- The test `b->free && b->size >= size` (the size is read only when the
flag is set). -/
def fits (st : State) (b size : Nat) : Res Bool := do
  let f ← rd_free st b
  if f = 0 then pure false
  else do
    let s ← rd_size st b
    pure (decide (s ≥ size))

/-! ## umeminit -/

/-- Function `static void reset_globals()`. -/
def reset_globals (st : State) : State :=
  { st with heap_list := 0, next_fit_ptr := 0, allocator_initialized := 0,
            size_of_region := 0, memory_region := 0 }

/-- The call `mmap(NULL, length, PROT_READ | PROT_WRITE, MAP_PRIVATE, fd, 0)`
on `/dev/zero`.  The request is logged.  A request of length 0 fails (`EINVAL`);
otherwise the operating system answers, and on success the new region is
mapped and reads as zero. -/
def mmap (os : OS) (st : State) (length : Nat) : State × Option Nat :=
  let st1 := { st with mmap_requests := st.mmap_requests ++ [length] }
  if length = 0 then (st1, none)
  else
    match os.mmap_answer st.mmap_requests.length length with
    | none => (st1, none)
    | some area =>
      ({ st1 with
          mem := fun x => if area ≤ x ∧ x < area + length then 0 else st.mem x,
          mapped := (area, length) :: st.mapped }, some area)

/-- The rounding of line 55:
`(sizeOfRegion + (page_size - 1)) & ~(page_size - 1)` on `size_t`. -/
def page_round (page_size sizeOfRegion : Nat) : Nat :=
  add64 sizeOfRegion (sub64 page_size 1) &&& not64 (sub64 page_size 1)

/-- Function `int umeminit(size_t sizeOfRegion, int allocationAlgo)`. -/
def umeminit (os : OS) (st : State) (sizeOfRegion : Nat) (allocationAlgo : Int) :
    Res (State × Int) :=
  let st := reset_globals st
  if sizeOfRegion < BLOCK_SIZE then Res.ok (st, -1)
  else
    let st := { st with allocation_algorithm := allocationAlgo }
    let page_size := os.getpagesize
    let sizeOfRegion := page_round page_size sizeOfRegion
    match mmap os st sizeOfRegion with
    | (st, none) => Res.ok (st, -1)
    | (st, some mapped_area) => do
      let st := { st with heap_list := mapped_area }
      let st ← wr_size st st.heap_list (sub64 sizeOfRegion BLOCK_SIZE)
      let st ← wr_next st st.heap_list 0
      let st ← wr_free st st.heap_list 1
      let st := { st with next_fit_ptr := st.heap_list }
      let st := { st with size_of_region := sizeOfRegion }
      let st := { st with allocator_initialized := 1 }
      pure (st, 0)

/-! ## Placement search -/

/-- The loop of `find_best_fit`, from `current` with the best block so far. -/
def find_best_fit_loop : Nat → State → Nat → Nat → Nat → Res Nat
  | 0, _, _, _, _ => Res.timeout
  | fuel + 1, st, size, current, best_fit =>
    if current = 0 then Res.ok best_fit
    else do
      let ok ← fits st current size
      if ok then
        if best_fit = 0 then
          let nxt ← rd_next st current
          find_best_fit_loop fuel st size nxt current
        else do
          let cs ← rd_size st current
          let bs ← rd_size st best_fit
          let nxt ← rd_next st current
          find_best_fit_loop fuel st size nxt (if cs < bs then current else best_fit)
      else do
        let nxt ← rd_next st current
        find_best_fit_loop fuel st size nxt best_fit

/-- Function `static BlockHeader *find_best_fit(size_t size)`. -/
def find_best_fit (fuel : Nat) (st : State) (size : Nat) : Res Nat :=
  find_best_fit_loop fuel st size st.heap_list 0

/-- The loop of `find_worst_fit`, from `current` with the worst block so far. -/
def find_worst_fit_loop : Nat → State → Nat → Nat → Nat → Res Nat
  | 0, _, _, _, _ => Res.timeout
  | fuel + 1, st, size, current, worst_fit =>
    if current = 0 then Res.ok worst_fit
    else do
      let ok ← fits st current size
      if ok then
        if worst_fit = 0 then
          let nxt ← rd_next st current
          find_worst_fit_loop fuel st size nxt current
        else do
          let cs ← rd_size st current
          let ws ← rd_size st worst_fit
          let nxt ← rd_next st current
          find_worst_fit_loop fuel st size nxt (if cs > ws then current else worst_fit)
      else do
        let nxt ← rd_next st current
        find_worst_fit_loop fuel st size nxt worst_fit

/-- Function `static BlockHeader *find_worst_fit(size_t size)`. -/
def find_worst_fit (fuel : Nat) (st : State) (size : Nat) : Res Nat :=
  find_worst_fit_loop fuel st size st.heap_list 0

/-- The loop of `find_first_fit`, from `current`. -/
def find_first_fit_loop : Nat → State → Nat → Nat → Res Nat
  | 0, _, _, _ => Res.timeout
  | fuel + 1, st, size, current =>
    if current = 0 then Res.ok 0
    else do
      let ok ← fits st current size
      if ok then pure current
      else do
        let nxt ← rd_next st current
        find_first_fit_loop fuel st size nxt

/-- Function `static BlockHeader *find_first_fit(size_t size)`. -/
def find_first_fit (fuel : Nat) (st : State) (size : Nat) : Res Nat :=
  find_first_fit_loop fuel st size st.heap_list

/-- The loop of `find_next_fit`: `next` is the current value of the static,
`start` its value on entry.  Returns the block found (0 for `NULL`) and the
value the static is left with. -/
def find_next_fit_loop : Nat → State → Nat → Nat → Nat → Res (Nat × Nat)
  | 0, _, _, _, _ => Res.timeout
  | fuel + 1, st, size, start, next =>
    if next = 0 then Res.ok (0, next)
    else do
      let ok ← fits st next size
      if ok then pure (next, next)
      else do
        let nxt ← rd_next st next
        let nxt := if nxt = 0 then st.heap_list else nxt
        if nxt = start then pure (0, nxt)
        else find_next_fit_loop fuel st size start nxt

/-- Function `static BlockHeader *find_next_fit(size_t size)`; the static `next` is
updated in the state. -/
def find_next_fit (fuel : Nat) (st : State) (size : Nat) : Res (State × Nat) := do
  let start := st.next
  let next := if st.next = 0 then st.heap_list else st.next
  let (block, next) ← find_next_fit_loop fuel st size start next
  pure ({ st with next := next }, block)

/-! ## Splitting, allocation -/

/-- Function `static void split_block(BlockHeader *block, size_t size)`. -/
def split_block (st : State) (block size : Nat) : Res State := do
  let bsize ← rd_size st block
  let remaining_size := sub64 (sub64 bsize size) sizeof_BlockHeader
  if remaining_size > sizeof_BlockHeader then
    let new_block := add64 (add64 block sizeof_BlockHeader) size
    let st ← wr_size st new_block remaining_size
    let st ← wr_free st new_block 1
    let bnext ← rd_next st block
    let st ← wr_next st new_block bnext
    let st ← wr_size st block size
    let st ← wr_free st block 0
    let bnext ← rd_next st block
    let st ← wr_next st new_block bnext
    wr_next st block new_block
  else pure st

/-- Function `void *umalloc(size_t size)`; 0 is `NULL`. -/
def umalloc (fuel : Nat) (st : State) (size : Nat) : Res (State × Nat) :=
  if st.heap_list = 0 ∨ size = 0 then Res.ok (st, 0)
  else
    let size := ALIGN size
    let found : Option (Res (State × Nat)) :=
      if st.allocation_algorithm = BEST_FIT then
        some (do let b ← find_best_fit fuel st size; pure (st, b))
      else if st.allocation_algorithm = WORST_FIT then
        some (do let b ← find_worst_fit fuel st size; pure (st, b))
      else if st.allocation_algorithm = FIRST_FIT then
        some (do let b ← find_first_fit fuel st size; pure (st, b))
      else if st.allocation_algorithm = NEXT_FIT then
        some (find_next_fit fuel st size)
      else none
    match found with
    | none => Res.ok (st, 0)
    | some search => do
      let (st, block) ← search
      if block = 0 then pure (st, 0)
      else do
        let bsize ← rd_size st block
        let st ← if bsize ≥ add64 size BLOCK_SIZE then split_block st block size else pure st
        let st ← wr_free st block 0
        pure (st, add64 block BLOCK_SIZE)

/-! ## Release, coalescing -/

/-- The predecessor scan of `coalesce`: `while (cur != NULL && cur != block)`.
Returns the final `prev`. -/
def coalesce_scan : Nat → State → Nat → Nat → Nat → Res Nat
  | 0, _, _, _, _ => Res.timeout
  | fuel + 1, st, block, prev, cur =>
    if cur ≠ 0 ∧ cur ≠ block then do
      let nxt ← rd_next st cur
      coalesce_scan fuel st block cur nxt
    else Res.ok prev

/-- Function `static BlockHeader *coalesce(BlockHeader *block)`; returns the state
and the block it returns. -/
def coalesce (fuel : Nat) (st : State) (block : Nat) : Res (State × Nat) := do
  let bnext ← rd_next st block
  let nfree ← if bnext ≠ 0 then rd_free st bnext else pure 0
  let st ← if bnext ≠ 0 ∧ nfree ≠ 0 then do
      let bsize ← rd_size st block
      let nsize ← rd_size st bnext
      let st ← wr_size st block (add64 bsize (add64 sizeof_BlockHeader nsize))
      let nnext ← rd_next st bnext
      wr_next st block nnext
    else pure st
  let prev ← coalesce_scan fuel st block 0 st.heap_list
  let pfree ← if prev ≠ 0 then rd_free st prev else pure 0
  if prev ≠ 0 ∧ pfree ≠ 0 then do
    let psize ← rd_size st prev
    let bsize ← rd_size st block
    let st ← wr_size st prev (add64 psize (add64 sizeof_BlockHeader bsize))
    let bnext ← rd_next st block
    let st ← wr_next st prev bnext
    pure (st, prev)
  else pure (st, block)

/-- Function `int ufree(void *ptr)`. -/
def ufree (fuel : Nat) (st : State) (ptr : Nat) : Res (State × Int) :=
  if ptr = 0 ∨ ptr < st.heap_list ∨ ptr ≥ add64 st.heap_list sizeof_fake_heap then
    Res.ok (st, -1)
  else do
    let block := sub64 ptr BLOCK_SIZE
    let st ← wr_free st block 1
    let (st, _) ← coalesce fuel st block
    pure (st, 0)

/-! ## Diagnostics -/

/-- One line of `umemdump`: address, `size`, `free`. -/
structure Line where
  addr : Nat
  size : Nat
  free : Nat
deriving DecidableEq

/-- The loop of `umemdump`, from `current`. -/
def umemdump_loop : Nat → State → Nat → Res (List Line)
  | 0, _, _ => Res.timeout
  | fuel + 1, st, current =>
    if current = 0 then Res.ok []
    else do
      let s ← rd_size st current
      let f ← rd_free st current
      let nxt ← rd_next st current
      let rest ← umemdump_loop fuel st nxt
      pure ({ addr := current, size := s, free := f } :: rest)

/-- Function `void umemdump()`: the lines printed, head to tail. -/
def umemdump (fuel : Nat) (st : State) : Res (List Line) :=
  umemdump_loop fuel st st.heap_list

/-- Bytes accounted for by a dump: header plus payload of every line. -/
def dump_bytes (d : List Line) : Nat :=
  (d.map fun l => sizeof_BlockHeader + l.size).sum

/-- Whether a dump shows two consecutive lines that are both free. -/
def adjacent_free : List Line → Bool
  | a :: b :: rest => (decide (a.free ≠ 0) && decide (b.free ≠ 0)) || adjacent_free (b :: rest)
  | _ => false

/-- Loop budget handed to every call in the concrete runs below; each of them
returns well within it. -/
def run_fuel : Nat := 16

/-- A host with 4096-byte pages whose `k`-th mapping request is answered with
the page-aligned address `4096000 + k * 2^28`. -/
def host : OS :=
  { getpagesize := 4096, mmap_answer := fun k _ => some (4096000 + k * 2 ^ 28) }

/-! ## The test program (`test_umem.c`) -/

/-- Function `test_initialization` (test_umem.c, lines 56-61): the state and
whether `assert(result == 0)` holds. -/
def test_initialization (os : OS) (st : State) : Res (State × Bool) := do
  let (st, result) ← umeminit os st (1024 * 1024) FIRST_FIT
  pure (st, decide (result = 0))

/-- One iteration of the loop of `test_allocation_strategies` (test_umem.c,
lines 18-52) for the strategy value `strategy`: the state and the lines its
`umemdump()` prints. -/
def test_allocation_round (os : OS) (fuel : Nat) (st : State) (strategy : Int) :
    Res (State × List Line) := do
  let (st, init_result) ← umeminit os st (1024 * 1024) strategy
  if init_result ≠ 0 then pure (st, [])
  else do
    let (st, ptr1) ← umalloc fuel st 1000
    let (st, ptr2) ← umalloc fuel st 500
    let (st, ptr3) ← umalloc fuel st 2000
    let (st, ptr4) ← umalloc fuel st 300
    let (st, _) ← ufree fuel st ptr2
    let (st, _) ← ufree fuel st ptr4
    let (st, ptr5) ← umalloc fuel st 800
    let dump ← umemdump fuel st
    let (st, _) ← ufree fuel st ptr1
    let (st, _) ← ufree fuel st ptr3
    let (st, _) ← ufree fuel st ptr5
    pure (st, dump)

/-- Function `test_allocation_strategies` (test_umem.c, lines 11-54): the
rounds for `BEST_FIT`, `WORST_FIT`, `FIRST_FIT`, `NEXT_FIT`, in this order. -/
def test_allocation_strategies (os : OS) (fuel : Nat) (st : State) :
    Res (State × List (List Line)) := do
  let (st, d1) ← test_allocation_round os fuel st BEST_FIT
  let (st, d2) ← test_allocation_round os fuel st WORST_FIT
  let (st, d3) ← test_allocation_round os fuel st FIRST_FIT
  let (st, d4) ← test_allocation_round os fuel st NEXT_FIT
  pure (st, [d1, d2, d3, d4])

/-- Function `test_freeing_memory` (test_umem.c, lines 63-93): the state,
whether the three `assert(ptr != NULL)` hold, the statuses of the three
`ufree` calls, and the lines of its three `umemdump()` calls. -/
def test_freeing_memory (fuel : Nat) (st : State) :
    Res (State × Bool × List Int × List (List Line)) := do
  let (st, ptr1) ← umalloc fuel st 100
  let (st, ptr2) ← umalloc fuel st 200
  let (st, ptr3) ← umalloc fuel st 300
  let asserts := decide (ptr1 ≠ 0) && decide (ptr2 ≠ 0) && decide (ptr3 ≠ 0)
  let dump1 ← umemdump fuel st
  let (st, r1) ← ufree fuel st ptr1
  let (st, r3) ← ufree fuel st ptr3
  let dump2 ← umemdump fuel st
  let (st, r2) ← ufree fuel st ptr2
  let dump3 ← umemdump fuel st
  pure (st, asserts, [r1, r3, r2], [dump1, dump2, dump3])

/-- Function `main` of test_umem.c (lines 95-103), from a fresh process: the
final state, whether every assertion held, the statuses of the releases of
`test_freeing_memory`, and its last dump. -/
def test_main (os : OS) (fuel : Nat) : Res (State × Bool × List Int × List Line) := do
  let (st, a1) ← test_initialization os State.start
  let (st, _) ← test_allocation_strategies os fuel st
  let (st, a2, rs, dumps) ← test_freeing_memory fuel st
  pure (st, a1 && a2, rs, dumps.getLastD [])

/-- A dump with every address replaced by its offset from `base`. -/
def rebase (base : Nat) (d : List Line) : List Line :=
  d.map fun l => { addr := l.addr - base, size := l.size, free := l.free }

/-! ## Directories as lists -/

/-- Memory holds the directory `L` from header address `b`: following `next`
from `b` visits exactly the blocks of `L`, each readable with the listed
`size` and `free`, and ends at `NULL`. -/
def Chain (st : State) : Nat → List Line → Prop
  | b, [] => b = 0
  | b, l :: rest =>
    b ≠ 0 ∧ l.addr = b ∧ rd_size st b = Res.ok l.size ∧ rd_free st b = Res.ok l.free ∧
      ∃ n, rd_next st b = Res.ok n ∧ Chain st n rest

/-- A dumped block satisfies a request of `s` bytes: it is free and its size
is at least `s`. -/
def Line.satisfies (l : Line) (s : Nat) : Prop := l.free ≠ 0 ∧ s ≤ l.size

/-- The state a run ends in (the start state if the run did not return). -/
def state_of {α : Type} (r : Res (State × α)) : State :=
  match r with
  | Res.ok (st, _) => st
  | _ => State.start

/-- A 4096-byte arena with free holes of 104 and 1000 bytes between allocated
blocks: blocks of 8, 104, 8, 1000 and 2856 bytes are allocated, then the
second and the fourth are released. -/
def two_holes : State :=
  state_of (do
    let (st, _) ← umeminit host State.start 4096 FIRST_FIT
    let (st, _) ← umalloc run_fuel st 8
    let (st, h1) ← umalloc run_fuel st 100
    let (st, _) ← umalloc run_fuel st 8
    let (st, h2) ← umalloc run_fuel st 1000
    let (st, _) ← umalloc run_fuel st 2856
    let (st, _) ← ufree run_fuel st h1
    ufree run_fuel st h2)

/-- The directory of `two_holes`, head to tail. -/
def two_holes_dump : List Line :=
  [{ addr := 4096000, size := 8, free := 0 },
   { addr := 4096032, size := 104, free := 1 },
   { addr := 4096160, size := 8, free := 0 },
   { addr := 4096192, size := 1000, free := 1 },
   { addr := 4097216, size := 2856, free := 0 }]

/-! ## The two halves of `umalloc`, and what no call changes -/

/-- The `switch (allocation_algorithm)` of `umalloc` (lines 93-108): the search
of the active strategy with the state it leaves, or `none` for the `default`
branch. -/
def umalloc_search (fuel : Nat) (st : State) (size : Nat) : Option (Res (State × Nat)) :=
  if st.allocation_algorithm = BEST_FIT then
    some (do let b ← find_best_fit fuel st size; pure (st, b))
  else if st.allocation_algorithm = WORST_FIT then
    some (do let b ← find_worst_fit fuel st size; pure (st, b))
  else if st.allocation_algorithm = FIRST_FIT then
    some (do let b ← find_first_fit fuel st size; pure (st, b))
  else if st.allocation_algorithm = NEXT_FIT then
    some (find_next_fit fuel st size)
  else none

/-- Lines 110-119 of `umalloc`: what it does with the block the search
returned, for the aligned request `size`. -/
def umalloc_place (st : State) (block size : Nat) : Res (State × Nat) :=
  if block = 0 then pure (st, 0)
  else do
    let bsize ← rd_size st block
    let st ← if bsize ≥ add64 size BLOCK_SIZE then split_block st block size else pure st
    let st ← wr_free st block 0
    pure (st, add64 block BLOCK_SIZE)

/-- The statics that only `umeminit` assigns are the same in both states. -/
def Frame (a b : State) : Prop :=
  b.heap_list = a.heap_list ∧ b.allocator_initialized = a.allocator_initialized ∧
  b.allocation_algorithm = a.allocation_algorithm ∧ b.size_of_region = a.size_of_region ∧
  b.mapped = a.mapped ∧ b.mmap_requests = a.mmap_requests

/-- States reached from `st0` by any sequence of `umalloc` and `ufree` calls
that return (`umemdump` does not change the state). -/
inductive Steps (st0 : State) : State → Prop
  | refl : Steps st0 st0
  | alloc {st st' : State} (fuel n p : Nat) :
      Steps st0 st → umalloc fuel st n = Res.ok (st', p) → Steps st0 st'
  | release {st st' : State} (fuel ptr : Nat) (r : Int) :
      Steps st0 st → ufree fuel st ptr = Res.ok (st', r) → Steps st0 st'

/-- The state after `umeminit(4096, FIRST_FIT)` in a fresh process on `host`. -/
def initialized_4096 : State :=
  state_of (umeminit host State.start 4096 FIRST_FIT)

/-- The state after the store `b->free = v`. -/
def State.set_free (st : State) (b v : Nat) : State :=
  st.write (b + 16) (st.mem (b + 16) / 2 ^ 32 * 2 ^ 32 + v % 2 ^ 32)

/-- The stores of `split_block` (lines 203-211) in program order, for a new
header at `nb` with size `rem`. -/
def split_stores (st : State) (b r nb rem : Nat) : State :=
  let s1 := st.write nb rem
  let s2 := s1.set_free nb 1
  let s3 := s2.write (nb + 8) (s2.mem (b + 8))
  let s4 := s3.write b r
  let s5 := s4.set_free b 0
  let s6 := s5.write (nb + 8) (s5.mem (b + 8))
  s6.write (b + 8) nb

/-- The state after `umalloc(8)` on `initialized_4096`. -/
def allocated_8 : State :=
  state_of (umalloc run_fuel initialized_4096 8)

/-- Memory holds the blocks of `L` linked in this order from header address
`b`, the last of them with `next == t` (with `t = 0` this is `Chain`). -/
def ChainSeg (st : State) : Nat → List Line → Nat → Prop
  | b, [], t => b = t
  | b, l :: rest, t =>
    b ≠ 0 ∧ l.addr = b ∧ rd_size st b = Res.ok l.size ∧ rd_free st b = Res.ok l.free ∧
      ∃ n, rd_next st b = Res.ok n ∧ ChainSeg st n rest t

/-- The state of the NextFit run `umeminit(4096, NEXT_FIT)`, three allocations
of 8 bytes, release of the first and of the third: the directory is
(0, 8, free), (32, 8, used), (64, 4008, free) and the cursor of
`find_next_fit` is at the third block. -/
def cursor_at_tail : State :=
  state_of (do
    let (st, _) ← umeminit host State.start 4096 NEXT_FIT
    let (st, y) ← umalloc run_fuel st 8
    let (st, _) ← umalloc run_fuel st 8
    let (st, x) ← umalloc run_fuel st 8
    let (st, _) ← ufree run_fuel st y
    ufree run_fuel st x)

/-! ## The arena as a tiling -/

/-- The blocks of `L` tile the bytes from `a` to `e`: every header is at a
multiple of 8, is followed by its payload, and the next header (or `e`)
follows the payload. -/
def Tiles : Nat → List Line → Nat → Prop
  | a, [], e => a = e
  | a, l :: rest, e => l.addr = a ∧ a % 8 = 0 ∧ Tiles (a + 24 + l.size) rest e

/-- Address of the first block of `L`, or `t` when `L` is empty. -/
def headAddr (L : List Line) (t : Nat) : Nat :=
  match L with
  | [] => t
  | l :: _ => l.addr

/-- The header words in memory are those of the blocks of `L`, linked in this
order, the last of them with `next == t`. -/
def Fields (st : State) : List Line → Nat → Prop
  | [], _ => True
  | l :: rest, t =>
    st.mem l.addr = l.size ∧ st.mem (l.addr + 8) = headAddr rest t ∧
      st.mem (l.addr + 16) % 2 ^ 32 = l.free ∧ Fields st rest t

/-- The directory `L` of the state is a tiling of the arena of `R` bytes mapped
at `base`, which is the head of the list. -/
structure Arena (st : State) (base R : Nat) (L : List Line) : Prop where
  region : (base, R) ∈ st.mapped
  base_ne : base ≠ 0
  below : base + R < 2 ^ 64
  head : st.heap_list = base
  nonempty : L ≠ []
  tiles : Tiles base L (base + R)
  fields : Fields st L 0

/-- The pointer `q` is the payload of an allocated block of `L`. -/
def IsAlloc (L : List Line) (q : Nat) : Prop :=
  ∃ x ∈ L, x.free = 0 ∧ q = x.addr + 24

/-- States reached from `st0` by `umalloc` calls and `ufree` calls on live
pointers, together with the list of live pointers: a pointer is live from the
call that returned it until a `ufree` call on it returns 0. -/
inductive Reach (st0 : State) : State → List Nat → Prop
  | start : Reach st0 st0 []
  | alloc {st st' : State} {live : List Nat} (fuel n p : Nat) :
      Reach st0 st live → umalloc fuel st n = Res.ok (st', p) →
      Reach st0 st' (if p = 0 then live else p :: live)
  | release {st st' : State} {live : List Nat} (fuel p : Nat) (r : Int) :
      Reach st0 st live → p ∈ live → ufree fuel st p = Res.ok (st', r) →
      Reach st0 st' (if r = 0 then live.erase p else live)

/-- The first half of `coalesce` (lines 231-234): the merge with the
successor. -/
def coalesce_next (st : State) (block : Nat) : Res State := do
  let bnext ← rd_next st block
  let nfree ← if bnext ≠ 0 then rd_free st bnext else pure 0
  if bnext ≠ 0 ∧ nfree ≠ 0 then do
    let bsize ← rd_size st block
    let nsize ← rd_size st bnext
    let st ← wr_size st block (add64 bsize (add64 sizeof_BlockHeader nsize))
    let nnext ← rd_next st bnext
    wr_next st block nnext
  else pure st

/-- The second half of `coalesce` (lines 236-248): the scan for the
predecessor and the merge with it. -/
def coalesce_prev (fuel : Nat) (st : State) (block : Nat) : Res (State × Nat) := do
  let prev ← coalesce_scan fuel st block 0 st.heap_list
  let pfree ← if prev ≠ 0 then rd_free st prev else pure 0
  if prev ≠ 0 ∧ pfree ≠ 0 then do
    let psize ← rd_size st prev
    let bsize ← rd_size st block
    let st ← wr_size st prev (add64 psize (add64 sizeof_BlockHeader bsize))
    let bnext ← rd_next st block
    let st ← wr_next st prev bnext
    pure (st, prev)
  else pure (st, block)

/-! ## Support lemmas: outcomes and machine arithmetic -/

@[simp] theorem Res.ok_bind {α β : Type} (a : α) (f : α → Res β) :
    (Res.ok a >>= f) = f a := rfl

@[simp] theorem Res.pure_eq {α : Type} (a : α) : (pure a : Res α) = Res.ok a := rfl

theorem BLOCK_SIZE_eq : BLOCK_SIZE = 24 := by decide

/-- Masking with `2^64 - 2^k` clears the low `k` bits of a 64-bit value. -/
theorem land_mask (k x : Nat) (hk : k ≤ 64) (hx : x < 2 ^ 64) :
    x &&& (2 ^ 64 - 2 ^ k) = x / 2 ^ k * 2 ^ k := by
  apply Nat.eq_of_testBit_eq
  intro i
  have hpos : 0 < 2 ^ k := Nat.pow_pos (by decide)
  have hle : 2 ^ k ≤ 2 ^ 64 := Nat.pow_le_pow_right (by decide) hk
  have h1 : 2 ^ 64 - 2 ^ k = 2 ^ 64 - ((2 ^ k - 1) + 1) := by omega
  have hlt : 2 ^ k - 1 < 2 ^ 64 := by omega
  rw [Nat.testBit_and, h1, Nat.testBit_two_pow_sub_succ hlt, Nat.testBit_two_pow_sub_one,
    ← Nat.shiftLeft_eq, ← Nat.shiftRight_eq_div_pow, Nat.testBit_shiftLeft, Nat.testBit_shiftRight]
  by_cases hik : k ≤ i
  · have e : k + (i - k) = i := by omega
    rw [e]
    by_cases hi : i < 64
    · have : ¬ i < k := by omega
      simp [hik, hi, this]
    · have hx' : x.testBit i = false := by
        apply Nat.testBit_lt_two_pow
        exact lt_of_lt_of_le hx (Nat.pow_le_pow_right (by decide) (by omega))
      simp [hi, hx']
  · have : i < k := by omega
    simp [hik, this]

/-- The macro `ALIGN` in arithmetic form: add 7 modulo `2^64`, then round down
to a multiple of 8. -/
theorem ALIGN_eq (n : Nat) : ALIGN n = (n + 7) % 2 ^ 64 / 8 * 8 := by
  have h := land_mask 3 ((n + 7) % 2 ^ 64) (by decide) (Nat.mod_lt _ (by decide))
  have e : not64 (ALIGNMENT - 1) = 2 ^ 64 - 2 ^ 3 := by decide
  unfold ALIGN add64
  rw [e]
  simpa [ALIGNMENT, SIZE_MOD] using h

/-- The rounding of `umeminit` for a page size `2^k`: the round-up to a
multiple of the page size when that fits in 64 bits, and 0 when it wraps. -/
theorem page_round_eq (k c : Nat) (hk : k < 64) (hc : c < 2 ^ 64) :
    page_round (2 ^ k) c
      = if c + (2 ^ k - 1) < 2 ^ 64 then (c + (2 ^ k - 1)) / 2 ^ k * 2 ^ k else 0 := by
  have hpos : 0 < 2 ^ k := Nat.pow_pos (by decide)
  have hlt : 2 ^ k < 2 ^ 64 := Nat.pow_lt_pow_right (by decide) hk
  have hs : sub64 (2 ^ k) 1 = 2 ^ k - 1 := by
    unfold sub64 SIZE_MOD
    generalize 2 ^ k = p at *
    omega
  have hn : not64 (2 ^ k - 1) = 2 ^ 64 - 2 ^ k := by
    unfold not64 SIZE_MOD
    generalize 2 ^ k = p at *
    omega
  unfold page_round
  rw [hs, hn, land_mask k _ (le_of_lt hk) (by unfold add64 SIZE_MOD; exact Nat.mod_lt _ (by decide))]
  unfold add64 SIZE_MOD
  split
  · rename_i h
    rw [Nat.mod_eq_of_lt h]
  · rename_i h
    have : (c + (2 ^ k - 1)) % 2 ^ 64 < 2 ^ k := by
      generalize 2 ^ k = p at *
      omega
    rw [Nat.div_eq_of_lt this]
    simp

/-- Rounding up by division gives the least multiple of `p` that is at least `c`. -/
theorem round_up_least (p c : Nat) (hp : 0 < p) :
    ((c + (p - 1)) / p * p) % p = 0 ∧ c ≤ (c + (p - 1)) / p * p ∧
      ∀ m, m % p = 0 → c ≤ m → (c + (p - 1)) / p * p ≤ m := by
  refine ⟨Nat.mul_mod_left _ _, ?_, ?_⟩
  · have h1 := Nat.div_add_mod (c + (p - 1)) p
    have h2 := Nat.mod_lt (c + (p - 1)) hp
    have h3 : p * ((c + (p - 1)) / p) = (c + (p - 1)) / p * p := Nat.mul_comm _ _
    omega
  · intro m hm hcm
    obtain ⟨q, rfl⟩ := Nat.dvd_of_mod_eq_zero hm
    rw [Nat.mul_comm p q]
    apply Nat.mul_le_mul_right
    apply Nat.le_of_lt_succ
    rw [Nat.div_lt_iff_lt_mul hp]
    have : q.succ * p = p * q + p := by rw [Nat.succ_mul, Nat.mul_comm]
    omega

/-! ## Support lemmas: memory -/

theorem store64_ok (st : State) (a v : Nat) (h : st.valid a = true) :
    store64 st a v = Res.ok (st.write a v) := by
  unfold store64; rw [if_pos h]

theorem load64_ok (st : State) (a : Nat) (h : st.valid a = true) :
    load64 st a = Res.ok (st.mem a) := by
  unfold load64; rw [if_pos h]

theorem valid_of_region (st : State) (base len a : Nat) (hm : (base, len) ∈ st.mapped)
    (ha : a % 8 = 0) (hlo : base ≤ a) (hhi : a + 8 ≤ base + len) : st.valid a = true := by
  unfold State.valid State.is_mapped
  rw [Bool.and_eq_true]
  refine ⟨by simpa using ha, ?_⟩
  rw [List.any_eq_true]
  exact ⟨(base, len), hm, by simpa using ⟨hlo, hhi⟩⟩

@[simp] theorem write_mapped (st : State) (a v : Nat) : (st.write a v).mapped = st.mapped := rfl

@[simp] theorem write_heap_list (st : State) (a v : Nat) :
    (st.write a v).heap_list = st.heap_list := rfl

@[simp] theorem write_valid (st : State) (a v x : Nat) :
    (st.write a v).valid x = st.valid x := rfl

theorem write_mem_same (st : State) (a v : Nat) :
    (st.write a v).mem a = v % SIZE_MOD := by
  show (if a = a then v % SIZE_MOD else st.mem a) = v % SIZE_MOD
  rw [if_pos rfl]

theorem write_mem_other (st : State) (a v x : Nat) (h : x ≠ a) :
    (st.write a v).mem x = st.mem x := by
  show (if x = a then v % SIZE_MOD else st.mem x) = st.mem x
  rw [if_neg h]

/-! ## Support lemmas: umeminit -/

theorem mmap_answer_of_success (os : OS) (st : State) (len area : Nat)
    (h : (mmap os st len).2 = some area) :
    len ≠ 0 ∧ os.mmap_answer st.mmap_requests.length len = some area := by
  unfold mmap at h
  by_cases h0 : len = 0
  · simp [h0] at h
  · refine ⟨h0, ?_⟩
    simp only [h0, if_false] at h
    cases hm : os.mmap_answer st.mmap_requests.length len with
    | none => simp [hm] at h
    | some a => simp [hm] at h; simp [h]

theorem mmap_ok (os : OS) (st : State) (len area : Nat) (h0 : len ≠ 0)
    (h : os.mmap_answer st.mmap_requests.length len = some area) :
    mmap os st len =
      ({ st with
          mmap_requests := st.mmap_requests ++ [len],
          mem := fun x => if area ≤ x ∧ x < area + len then 0 else st.mem x,
          mapped := (area, len) :: st.mapped }, some area) := by
  unfold mmap
  simp only [h0, if_false, h]

theorem umeminit_tail (s0 : State) (R area : Nat) (hh : s0.heap_list = area)
    (hm : (area, R) ∈ s0.mapped) (hz : s0.mem (area + 16) = 0) (hal : area % 8 = 0)
    (hR24 : 24 ≤ R) (hR64 : R < 2 ^ 64) :
    ∃ st',
      (do
        let st ← wr_size s0 s0.heap_list (R - 24)
        let st ← wr_next st st.heap_list 0
        let st ← wr_free st st.heap_list 1
        let st := { st with next_fit_ptr := st.heap_list }
        let st := { st with size_of_region := R }
        let st := { st with allocator_initialized := 1 }
        (pure (st, (0 : Int)) : Res (State × Int))) = Res.ok (st', 0) ∧
      st'.heap_list = area ∧ st'.next_fit_ptr = area ∧
      st'.allocation_algorithm = s0.allocation_algorithm ∧
      st'.allocator_initialized = 1 ∧ st'.size_of_region = R ∧ st'.next = s0.next ∧
      st'.mapped = s0.mapped ∧ st'.mmap_requests = s0.mmap_requests ∧
      st'.mem area = R - 24 ∧ st'.mem (area + 8) = 0 ∧ st'.mem (area + 16) = 1 := by
  have hv0 : s0.valid area = true :=
    valid_of_region s0 area R area hm hal (le_refl _) (by omega)
  have hv8 : s0.valid (area + 8) = true :=
    valid_of_region s0 area R (area + 8) hm (by omega) (by omega) (by omega)
  have hv16 : s0.valid (area + 16) = true :=
    valid_of_region s0 area R (area + 16) hm (by omega) (by omega) (by omega)
  have hmod : (R - 24) % SIZE_MOD = R - 24 := Nat.mod_eq_of_lt (by unfold SIZE_MOD; omega)
  subst hh
  simp only [wr_size, wr_next, wr_free, store64_ok, load64_ok, hv0, hv8, hv16, write_valid,
    write_heap_list, Res.ok_bind, Res.pure_eq]
  refine ⟨_, rfl, rfl, rfl, rfl, rfl, rfl, rfl, rfl, rfl, ?_, ?_, ?_⟩
  · show (((s0.write s0.heap_list (R - 24)).write (s0.heap_list + 8) 0).write
        (s0.heap_list + 16) _).mem s0.heap_list = R - 24
    rw [write_mem_other _ _ _ _ (by omega), write_mem_other _ _ _ _ (by omega),
      write_mem_same, hmod]
  · show (((s0.write s0.heap_list (R - 24)).write (s0.heap_list + 8) 0).write
        (s0.heap_list + 16) _).mem (s0.heap_list + 8) = 0
    rw [write_mem_other _ _ _ _ (by omega), write_mem_same]
    rfl
  · show (((s0.write s0.heap_list (R - 24)).write (s0.heap_list + 8) 0).write
        (s0.heap_list + 16) _).mem (s0.heap_list + 16) = 1
    rw [write_mem_same, write_mem_other _ _ _ _ (by omega),
      write_mem_other _ _ _ _ (by omega), hz]
    decide

/-- What `umeminit` leaves behind when its mapping request of `R ≥ 24` bytes
is answered with an 8-aligned address. -/
theorem umeminit_fresh (os : OS) (st : State) (c : Nat) (algo : Int) (R area : Nat)
    (hc : 24 ≤ c) (hR : page_round os.getpagesize c = R) (hR24 : 24 ≤ R) (hR64 : R < 2 ^ 64)
    (hans : os.mmap_answer st.mmap_requests.length R = some area)
    (hal : area % 8 = 0) :
    ∃ st', umeminit os st c algo = Res.ok (st', 0) ∧
      st'.heap_list = area ∧ st'.next_fit_ptr = area ∧ st'.allocation_algorithm = algo ∧
      st'.allocator_initialized = 1 ∧ st'.size_of_region = R ∧ st'.next = st.next ∧
      st'.mapped = (area, R) :: st.mapped ∧ st'.mmap_requests = st.mmap_requests ++ [R] ∧
      st'.mem area = R - 24 ∧ st'.mem (area + 8) = 0 ∧ st'.mem (area + 16) = 1 := by
  have hR0 : R ≠ 0 := by omega
  have hc' : ¬ c < BLOCK_SIZE := by rw [BLOCK_SIZE_eq]; omega
  have hsub : sub64 R BLOCK_SIZE = R - 24 := by
    rw [BLOCK_SIZE_eq]; unfold sub64 SIZE_MOD; omega
  have hmm := mmap_ok os { reset_globals st with allocation_algorithm := algo } R area hR0 hans
  unfold umeminit
  simp only [hc', if_false, hR, hmm, hsub]
  exact umeminit_tail _ R area rfl (List.mem_cons_self _ _)
    (by show (if area ≤ area + 16 ∧ area + 16 < area + R then 0 else _) = 0
        rw [if_pos ⟨by omega, by omega⟩]) hal hR24 hR64

/-- The dump of a directory whose head is a lone block. -/
theorem umemdump_single (st : State) (R area s f : Nat) (hnz : area ≠ 0)
    (hh : st.heap_list = area) (hm : (area, R) ∈ st.mapped) (hal : area % 8 = 0)
    (hR24 : 24 ≤ R) (hs : st.mem area = s) (hn : st.mem (area + 8) = 0)
    (hf : st.mem (area + 16) % 2 ^ 32 = f) (fuel : Nat) (hfuel : 2 ≤ fuel) :
    umemdump fuel st = Res.ok [{ addr := area, size := s, free := f }] := by
  have hv0 : st.valid area = true :=
    valid_of_region st area R area hm hal (le_refl _) (by omega)
  have hv8 : st.valid (area + 8) = true :=
    valid_of_region st area R (area + 8) hm (by omega) (by omega) (by omega)
  have hv16 : st.valid (area + 16) = true :=
    valid_of_region st area R (area + 16) hm (by omega) (by omega) (by omega)
  obtain ⟨n, rfl⟩ : ∃ n, fuel = n + 2 := ⟨fuel - 2, by omega⟩
  unfold umemdump
  rw [hh]
  simp only [umemdump_loop, hnz, if_false, rd_size, rd_free, rd_next, load64_ok, hv0, hv8, hv16,
    Res.ok_bind, Res.pure_eq, hs, hn, hf, if_true]

/-- On a directory whose head block does not satisfy the request and has no
successor, the loop of `find_next_fit` entered with a `start` different from
the head comes back to the same loop state forever: it times out for every
amount of fuel. -/
theorem find_next_fit_loop_spins (st : State) (size start : Nat) (hh : st.heap_list ≠ 0)
    (hs : st.heap_list ≠ start) (hfit : fits st st.heap_list size = Res.ok false)
    (hn : rd_next st st.heap_list = Res.ok 0) :
    ∀ fuel, find_next_fit_loop fuel st size start st.heap_list = Res.timeout := by
  intro fuel
  induction fuel with
  | zero => rfl
  | succ n ih =>
    unfold find_next_fit_loop
    simp only [hh, if_false, hfit, hn, Res.ok_bind, if_true, hs]
    exact ih

/-! ## The claims -/

/-- C1 (fails under NextFit): after `umeminit(4096, NEXT_FIT)`, two allocations of
8 bytes, their release, a third allocation of 8 bytes and its release, every
call having succeeded and every released pointer being live, the directory is
one block of size 8136, so header plus payload sum to 8160 bytes while the arena
capacity is 4096. The third allocation is served from the stale header the
static cursor of `find_next_fit` still points at. -/
theorem nextfit_stale_cursor_breaks_capacity_sum :
    (do
      let (st, r0) ← umeminit host State.start 4096 NEXT_FIT
      let (st, a) ← umalloc run_fuel st 8
      let (st, b) ← umalloc run_fuel st 8
      let (st, r1) ← ufree run_fuel st a
      let (st, r2) ← ufree run_fuel st b
      let (st, c) ← umalloc run_fuel st 8
      let (st, r3) ← ufree run_fuel st c
      let d ← umemdump run_fuel st
      pure ([r0, r1, r2, r3], [a, b, c], st.size_of_region, d, dump_bytes d))
    = Res.ok ([0, 0, 0, 0], [4096024, 4096056, 4096056], 4096,
        [{ addr := 4096000, size := 8136, free := 1 }], 8160) := by
  decide

/-- C2 (fails under NextFit): after `umeminit(4096, NEXT_FIT)`, allocations
a, b of 8 bytes, release of a and b, allocations c, d, e of 8 bytes, and release
of d, e, c (each pointer live when released, each release returning 0), the
directory read from the head is two blocks, both free. -/
theorem nextfit_release_leaves_adjacent_free_blocks :
    (do
      let (st, r0) ← umeminit host State.start 4096 NEXT_FIT
      let (st, a) ← umalloc run_fuel st 8
      let (st, b) ← umalloc run_fuel st 8
      let (st, r1) ← ufree run_fuel st a
      let (st, r2) ← ufree run_fuel st b
      let (st, c) ← umalloc run_fuel st 8
      let (st, d) ← umalloc run_fuel st 8
      let (st, e) ← umalloc run_fuel st 8
      let (st, r3) ← ufree run_fuel st d
      let (st, r4) ← ufree run_fuel st e
      let (st, r5) ← ufree run_fuel st c
      let dump ← umemdump run_fuel st
      pure ([r0, r1, r2, r3, r4, r5], [a, b, c, d, e], dump, adjacent_free dump))
    = Res.ok ([0, 0, 0, 0, 0, 0], [4096024, 4096056, 4096056, 4096088, 4096120],
        [{ addr := 4096000, size := 8168, free := 1 },
         { addr := 4096096, size := 3976, free := 1 }], true) := by
  decide

/-- C3 (fails when the rounding wraps): after `umeminit(4096, FIRST_FIT)` the
call `umalloc(2^64 - 1)` returns the non-null pointer `arena + 24`, and the
header that owns it, at `arena`, records a payload size of 0. -/
theorem umalloc_wrapped_request_gets_empty_payload :
    (do
      let (st, r0) ← umeminit host State.start 4096 FIRST_FIT
      let (st, p) ← umalloc run_fuel st (2 ^ 64 - 1)
      let size ← rd_size st (sub64 p BLOCK_SIZE)
      let dump ← umemdump run_fuel st
      pure (r0, ALIGN (2 ^ 64 - 1), p, size, dump))
    = Res.ok (0, 0, 4096024, 0,
        [{ addr := 4096000, size := 0, free := 0 },
         { addr := 4096024, size := 4048, free := 1 }]) := by
  decide

/-- C4 (fails under NextFit): after `umeminit(4096, NEXT_FIT)`, allocations a, b
of 8 bytes, release of a and b, then allocations of 8, 4000 and 24 bytes
(c, e, d) and release of e (live, returns 0), the directory holds a free block
of size 4049, which is not a multiple of 8. The header written for the
24-byte request at offset 48 shares its `free` word with the `size` word of the
stale header at offset 64 that the cursor had handed out for e. -/
theorem nextfit_stale_header_breaks_size_alignment :
    (do
      let (st, r0) ← umeminit host State.start 4096 NEXT_FIT
      let (st, a) ← umalloc run_fuel st 8
      let (st, b) ← umalloc run_fuel st 8
      let (st, r1) ← ufree run_fuel st a
      let (st, r2) ← ufree run_fuel st b
      let (st, c) ← umalloc run_fuel st 8
      let (st, e) ← umalloc run_fuel st 4000
      let (st, d) ← umalloc run_fuel st 24
      let (st, r3) ← ufree run_fuel st e
      let dump ← umemdump run_fuel st
      pure ([r0, r1, r2, r3], [a, b, c, e, d], dump, dump.map fun l => l.size % 8))
    = Res.ok ([0, 0, 0, 0], [4096024, 4096056, 4096056, 4096088, 4096024],
        [{ addr := 4096000, size := 24, free := 0 },
         { addr := 4096048, size := 4049, free := 1 }], [0, 1]) := by
  decide

/-- C5 (fails when the rounding wraps): after `umeminit(4096, FIRST_FIT)` the
directory is one free block of 4072 bytes, so no free block has a payload of
`2^64 - 1` bytes, yet `umalloc(2^64 - 1)` returns the non-null pointer
`arena + 24`. -/
theorem umalloc_wrapped_request_not_refused :
    (do
      let (st, r0) ← umeminit host State.start 4096 FIRST_FIT
      let before ← umemdump run_fuel st
      let (_, p) ← umalloc run_fuel st (2 ^ 64 - 1)
      pure (r0, before,
        before.any (fun l => decide (l.free ≠ 0) && decide (l.size ≥ 2 ^ 64 - 1)), p))
    = Res.ok (0, [{ addr := 4096000, size := 4072, free := 1 }], false, 4096024) := by
  decide

/-- C6 (fails beyond 1 MiB): after `umeminit(2097152, FIRST_FIT)`, allocations
of 1048576 and 8 bytes return `arena + 24` and `arena + 1048624`; releasing
the second, live, pointer returns -1 and its block at `arena + 1048600` is
still marked allocated. -/
theorem ufree_rejects_live_pointer_past_one_mebibyte :
    (do
      let (st, r0) ← umeminit host State.start 2097152 FIRST_FIT
      let (st, a) ← umalloc run_fuel st 1048576
      let (st, b) ← umalloc run_fuel st 8
      let (st, r1) ← ufree run_fuel st b
      let dump ← umemdump run_fuel st
      pure ([r0, r1], [a, b], st.size_of_region, dump))
    = Res.ok ([0, -1], [4096024, 5144624], 2097152,
        [{ addr := 4096000, size := 1048576, free := 0 },
         { addr := 5144600, size := 8, free := 0 },
         { addr := 5144632, size := 1048496, free := 1 }]) := by
  decide

/-- C7 (fails inside the first MiB past the arena): after
`umeminit(4096, FIRST_FIT)` the arena is `[arena, arena + 4096)`; the call
`ufree(arena + 4096)`, a pointer outside the arena, returns 0 and the head
block's size changes from 4072 to 4096. -/
theorem ufree_accepts_pointer_past_small_arena :
    (do
      let (st, r0) ← umeminit host State.start 4096 FIRST_FIT
      let before ← umemdump run_fuel st
      let (st1, r1) ← ufree run_fuel st (st.heap_list + st.size_of_region)
      let after ← umemdump run_fuel st1
      pure ([r0, r1], st.heap_list, st.size_of_region, before, after))
    = Res.ok ([0, 0], 4096000, 4096,
        [{ addr := 4096000, size := 4072, free := 1 }],
        [{ addr := 4096000, size := 4096, free := 1 }]) := by
  decide

/-- C8: for every requested capacity `c` with `24 ≤ c < 2^64` and every strategy
value, on a host whose page size is `2^k` (`3 ≤ k < 64`), if the mapping
request made by `umeminit` succeeds with a non-null page-aligned address
`area`, then `umeminit` returns 0 and the directory is exactly one block at
`area` with `free = 1`, `next = NULL` and `size = R - 24`, where `R` is the
least multiple of the page size that is at least `c`; the strategy, cursor,
region size and initialized flag are recorded. -/
theorem umeminit_leaves_single_free_block (os : OS) (st : State) (c : Nat) (algo : Int)
    (k area : Nat) (hk3 : 3 ≤ k) (hk : k < 64) (hp : os.getpagesize = 2 ^ k)
    (hc : 24 ≤ c) (hc64 : c < 2 ^ 64)
    (hmap : (mmap os st (page_round os.getpagesize c)).2 = some area)
    (hnz : area ≠ 0) (hal : area % os.getpagesize = 0) :
    ∃ st' R,
      (R % os.getpagesize = 0 ∧ c ≤ R ∧ ∀ m, m % os.getpagesize = 0 → c ≤ m → R ≤ m) ∧
      umeminit os st c algo = Res.ok (st', 0) ∧
      st'.heap_list = area ∧
      (∀ fuel, 2 ≤ fuel →
        umemdump fuel st' = Res.ok [{ addr := area, size := R - 24, free := 1 }]) ∧
      rd_next st' area = Res.ok 0 ∧
      st'.allocation_algorithm = algo ∧ st'.next_fit_ptr = area ∧
      st'.size_of_region = R ∧ st'.allocator_initialized = 1 := by
  have hpos : 0 < 2 ^ k := Nat.pow_pos (by decide)
  obtain ⟨hlen, hans⟩ := mmap_answer_of_success os st _ area hmap
  rw [hp] at hlen hans hal
  rw [hp]
  have hpr := page_round_eq k c hk hc64
  by_cases hfit : c + (2 ^ k - 1) < 2 ^ 64
  · rw [if_pos hfit] at hpr
    obtain ⟨h1, h2, h3⟩ := round_up_least (2 ^ k) c hpos
    have hle : (c + (2 ^ k - 1)) / 2 ^ k * 2 ^ k ≤ c + (2 ^ k - 1) := Nat.div_mul_le_self _ _
    have hal8 : area % 8 = 0 := by
      have h8 : (8 : Nat) ∣ 2 ^ k := by
        have : (2 : Nat) ^ 3 ∣ 2 ^ k := Nat.pow_dvd_pow 2 hk3
        simpa using this
      exact Nat.mod_eq_zero_of_dvd (dvd_trans h8 (Nat.dvd_of_mod_eq_zero hal))
    rw [hpr] at hans
    obtain ⟨st', hinit, hheap, hnf, halg, hini, hsz, -, hmapd, -, hm0, hm8, hm16⟩ :=
      umeminit_fresh os st c algo _ area hc (by rw [hp]; exact hpr) (by omega) (by omega)
        hans hal8
    have hmem : (area, (c + (2 ^ k - 1)) / 2 ^ k * 2 ^ k) ∈ st'.mapped := by
      rw [hmapd]; exact List.mem_cons_self _ _
    refine ⟨st', _, ⟨h1, h2, h3⟩, hinit, hheap, ?_, ?_, halg, hnf, hsz, hini⟩
    · intro fuel hfuel
      exact umemdump_single st' _ area _ _ hnz hheap hmem hal8 (by omega) hm0 hm8
        (by rw [hm16]; decide) fuel hfuel
    · unfold rd_next
      rw [load64_ok st' _ (valid_of_region st' area _ (area + 8) hmem (by omega) (by omega)
        (by omega)), hm8]
  · rw [if_neg hfit] at hpr
    exact absurd hpr hlen

/-- C8 at a concrete input: `umeminit(1048576, FIRST_FIT)` on the 4096-byte-page
host, as in `test_initialization`. -/
theorem umeminit_leaves_single_free_block_witness :
    ∃ st' R,
      (R % host.getpagesize = 0 ∧ 1048576 ≤ R ∧
        ∀ m, m % host.getpagesize = 0 → 1048576 ≤ m → R ≤ m) ∧
      umeminit host State.start 1048576 FIRST_FIT = Res.ok (st', 0) ∧
      st'.heap_list = 4096000 ∧
      (∀ fuel, 2 ≤ fuel →
        umemdump fuel st' = Res.ok [{ addr := 4096000, size := R - 24, free := 1 }]) ∧
      rd_next st' 4096000 = Res.ok 0 ∧
      st'.allocation_algorithm = FIRST_FIT ∧ st'.next_fit_ptr = 4096000 ∧
      st'.size_of_region = R ∧ st'.allocator_initialized = 1 :=
  umeminit_leaves_single_free_block host State.start 1048576 FIRST_FIT 12 4096000
    (by decide) (by decide) (by decide) (by decide) (by decide) (by decide) (by decide)
    (by decide)

/-- C9: for every capacity `c < 24` and every strategy value, from any state,
`umeminit` returns -1, issues no mapping request and maps nothing. -/
theorem umeminit_rejects_small_capacity (os : OS) (st : State) (c : Nat) (algo : Int)
    (hc : c < 24) :
    ∃ st', umeminit os st c algo = Res.ok (st', -1) ∧
      st'.mmap_requests = st.mmap_requests ∧ st'.mapped = st.mapped ∧ st'.mem = st.mem := by
  have hc' : c < BLOCK_SIZE := by rw [BLOCK_SIZE_eq]; exact hc
  refine ⟨reset_globals st, ?_, rfl, rfl, rfl⟩
  unfold umeminit
  exact if_pos hc'

/-- C9 at a concrete input: `umeminit(23, BEST_FIT)` in a fresh process. -/
theorem umeminit_rejects_small_capacity_witness :
    (23 : Nat) < 24 ∧
    ∃ st', umeminit host State.start 23 BEST_FIT = Res.ok (st', -1) ∧
      st'.mmap_requests = State.start.mmap_requests ∧ st'.mapped = State.start.mapped ∧
      st'.mem = State.start.mem :=
  ⟨by decide, umeminit_rejects_small_capacity host State.start 23 BEST_FIT (by decide)⟩

/-- C10 (fails on the first NextFit search): after `umeminit(4096, NEXT_FIT)` in a
fresh process, `umalloc(8192)` does not return: for every amount of fuel the
search loop of `find_next_fit` is still running when the fuel is used up. -/
theorem first_next_fit_search_never_returns (fuel : Nat) :
    (do
      let (st, _) ← umeminit host State.start 4096 NEXT_FIT
      let (_, p) ← umalloc fuel st 8192
      pure p) = Res.timeout := by
  obtain ⟨st', hinit, hheap, -, halg, -, -, hnext, hmapd, -, hm0, hm8, hm16⟩ :=
    umeminit_fresh host State.start 4096 NEXT_FIT 4096 4096000 (by decide) (by decide)
      (by decide) (by decide) (by decide) (by decide)
  have hmem : (4096000, 4096) ∈ st'.mapped := by
    rw [hmapd]; exact List.mem_cons_self _ _
  have hv0 : st'.valid 4096000 = true :=
    valid_of_region st' 4096000 4096 4096000 hmem (by decide) (by decide) (by decide)
  have hv8 : st'.valid (4096000 + 8) = true :=
    valid_of_region st' 4096000 4096 _ hmem (by decide) (by decide) (by decide)
  have hv16 : st'.valid (4096000 + 16) = true :=
    valid_of_region st' 4096000 4096 _ hmem (by decide) (by decide) (by decide)
  have hfit : fits st' st'.heap_list (ALIGN 8192) = Res.ok false := by
    rw [hheap]
    simp only [fits, rd_free, rd_size, load64_ok, hv0, hv16, hm0, hm16, Res.ok_bind,
      Res.pure_eq]
    decide
  have hn : rd_next st' st'.heap_list = Res.ok 0 := by
    rw [hheap]
    simp only [rd_next, load64_ok, hv8, hm8]
  have hstart : st'.next = 0 := hnext
  have hh0 : st'.heap_list ≠ 0 := by rw [hheap]; decide
  have hspin := find_next_fit_loop_spins st' (ALIGN 8192) 0 hh0 hh0 hfit hn fuel
  rw [hinit]
  have h1 : ¬ (st'.heap_list = 0 ∨ (8192 : Nat) = 0) := by
    rw [hheap]; decide
  have hb : ¬ NEXT_FIT = BEST_FIT := by decide
  have hw : ¬ NEXT_FIT = WORST_FIT := by decide
  have hf : ¬ NEXT_FIT = FIRST_FIT := by decide
  simp only [Res.ok_bind, umalloc, h1, if_false, halg, hb, hw, hf, if_true, find_next_fit,
    hstart, hspin]
  rfl

/-- C11 (fails under NextFit): after `umeminit(4096, NEXT_FIT)`, allocations a, b
of 8 bytes and their release, two consecutive calls `umalloc(2024)` with no
release in between return `arena + 56` and `arena + 24`. Both are non-null and
the payload regions `[56, 2080)` and `[24, 2048)` overlap: the first comes from
the stale header at offset 32 the cursor still points at, the second from the
head block that contains it. -/
theorem nextfit_consecutive_allocations_overlap :
    (do
      let (st, r0) ← umeminit host State.start 4096 NEXT_FIT
      let (st, a) ← umalloc run_fuel st 8
      let (st, b) ← umalloc run_fuel st 8
      let (st, r1) ← ufree run_fuel st a
      let (st, r2) ← ufree run_fuel st b
      let (st, p) ← umalloc run_fuel st 2024
      let (_, q) ← umalloc run_fuel st 2024
      pure ([r0, r1, r2], [a, b], p, q, decide (q < p + 2024 ∧ p < q + 2024)))
    = Res.ok ([0, 0, 0], [4096024, 4096056], 4096056, 4096024, true) := by
  decide

/-- C15 (fails beyond 1 MiB): after `umeminit(2097152, FIRST_FIT)` and
`umalloc(1048576)`, the call `p = umalloc(8)` returns `arena + 1048624`;
`ufree(p)` returns -1 and changes nothing, and the next `umalloc(8)` returns
`arena + 1048656`, not `p`. -/
theorem firstfit_reuse_fails_past_one_mebibyte :
    (do
      let (st, r0) ← umeminit host State.start 2097152 FIRST_FIT
      let (st, a) ← umalloc run_fuel st 1048576
      let (st, p) ← umalloc run_fuel st 8
      let (st, r1) ← ufree run_fuel st p
      let (_, q) ← umalloc run_fuel st 8
      pure ([r0, r1], a, p, q))
    = Res.ok ([0, -1], 4096024, 5144624, 5144656) := by
  decide

/-- C16 (fails in the test program): running `main` of test_umem.c, every
assertion holds and the three releases of `test_freeing_memory` return 0, so
every pointer allocated since the last `umeminit` (the `NEXT_FIT` round) has
been released; the arena capacity is 1048576, yet the final dump is one free
block of size 2093552 instead of 1048552. -/
theorem test_program_ends_with_oversized_block :
    (do
      let (st, asserts, statuses, dump) ← test_main host run_fuel
      pure (asserts, statuses, st.allocation_algorithm, st.size_of_region,
        rebase st.heap_list dump))
    = Res.ok (true, [0, 0, 0], NEXT_FIT, 1048576,
        [{ addr := 0, size := 2093552, free := 1 }]) := by
  decide

/-- C17: with page size 4096, after `umeminit(1048576, FIRST_FIT)` the calls
`umalloc(1000)`, `umalloc(500)`, `umalloc(2000)`, `umalloc(300)` return the
offsets 24, 1048, 1576, 3600 from the arena base (A, B, C, D); after
`ufree(B)` and `ufree(D)`, `umalloc(800)` returns offset 3600 (the block at
the position of D), and the directory is, as (header offset, size, free):
(0, 1000, 0), (1024, 504, 1), (1552, 2000, 0), (3576, 800, 0),
(4400, 1044152, 1). -/
theorem firstfit_scenario_snapshot :
    (do
      let (st, r0) ← umeminit host State.start 1048576 FIRST_FIT
      let (st, a) ← umalloc run_fuel st 1000
      let (st, b) ← umalloc run_fuel st 500
      let (st, c) ← umalloc run_fuel st 2000
      let (st, d) ← umalloc run_fuel st 300
      let (st, r1) ← ufree run_fuel st b
      let (st, r2) ← ufree run_fuel st d
      let (st, e) ← umalloc run_fuel st 800
      let dump ← umemdump run_fuel st
      pure (host.getpagesize, BLOCK_SIZE, [r0, r1, r2],
        [a, b, c, d, e].map (fun p => p - st.heap_list),
        rebase st.heap_list dump))
    = Res.ok (4096, 24, [0, 0, 0], [24, 1048, 1576, 3600, 3600],
        [{ addr := 0, size := 1000, free := 0 },
         { addr := 1024, size := 504, free := 1 },
         { addr := 1552, size := 2000, free := 0 },
         { addr := 3576, size := 800, free := 0 },
         { addr := 4400, size := 1044152, free := 1 }]) := by
  decide

/-! ## Support lemmas: directories -/

@[simp] theorem Res.fault_bind {α β : Type} (f : α → Res β) :
    (Res.fault >>= f) = Res.fault := rfl

@[simp] theorem Res.timeout_bind {α β : Type} (f : α → Res β) :
    (Res.timeout >>= f) = Res.timeout := rfl

/-- A sequenced run that returns: its first part returned too. -/
theorem Res.bind_eq_ok {α β : Type} {x : Res α} {f : α → Res β} {b : β}
    (h : (x >>= f) = Res.ok b) : ∃ a, x = Res.ok a ∧ f a = Res.ok b := by
  cases x with
  | ok a => exact ⟨a, rfl, h⟩
  | fault => rw [Res.fault_bind] at h; exact Res.noConfusion h
  | timeout => rw [Res.timeout_bind] at h; exact Res.noConfusion h

/-- A dump that returns `L` walked a chain holding `L`, in fewer steps than
its fuel. -/
theorem chain_of_dump : ∀ (fuel : Nat) (st : State) (cur : Nat) (L : List Line),
    umemdump_loop fuel st cur = Res.ok L → Chain st cur L ∧ L.length < fuel := by
  intro fuel
  induction fuel with
  | zero =>
    intro st cur L h
    exact Res.noConfusion h
  | succ n ih =>
    intro st cur L h
    unfold umemdump_loop at h
    by_cases hc : cur = 0
    · rw [if_pos hc] at h
      have hL : L = [] := by injection h with h; exact h.symm
      subst hL
      exact ⟨hc, Nat.succ_pos _⟩
    · rw [if_neg hc] at h
      obtain ⟨s, hs, h⟩ := Res.bind_eq_ok h
      obtain ⟨f, hf, h⟩ := Res.bind_eq_ok h
      obtain ⟨nx, hn, h⟩ := Res.bind_eq_ok h
      obtain ⟨rest, hrest, h⟩ := Res.bind_eq_ok h
      have hL : L = { addr := cur, size := s, free := f } :: rest := by
        injection h with h; exact h.symm
      subst hL
      obtain ⟨hch, hlen⟩ := ih st nx rest hrest
      exact ⟨⟨hc, rfl, hs, hf, nx, hn, hch⟩, Nat.succ_lt_succ hlen⟩

/-- The test of the search loops on a block whose fields are known. -/
theorem fits_of_fields (st : State) (b s sz fr : Nat) (hs : rd_size st b = Res.ok sz)
    (hf : rd_free st b = Res.ok fr) :
    fits st b s = Res.ok (decide (fr ≠ 0 ∧ s ≤ sz)) := by
  unfold fits
  rw [hf, Res.ok_bind]
  by_cases h0 : fr = 0
  · rw [if_pos h0]
    simp [h0]
  · rw [if_neg h0, hs, Res.ok_bind]
    simp [h0]

/-- FirstFit on a chain: the loop returns the first block that satisfies the
request, or `NULL` when none does. -/
theorem first_fit_chain (st : State) (s : Nat) : ∀ (L : List Line) (cur fuel : Nat),
    Chain st cur L → L.length < fuel →
    (∃ pre l post, L = pre ++ l :: post ∧ l.satisfies s ∧ (∀ x ∈ pre, ¬ x.satisfies s) ∧
        l.addr ≠ 0 ∧ find_first_fit_loop fuel st s cur = Res.ok l.addr) ∨
    ((∀ x ∈ L, ¬ x.satisfies s) ∧ find_first_fit_loop fuel st s cur = Res.ok 0) := by
  intro L
  induction L with
  | nil =>
    intro cur fuel hch hlen
    obtain ⟨n, rfl⟩ : ∃ n, fuel = n + 1 := ⟨fuel - 1, by simp at hlen; omega⟩
    right
    refine ⟨fun x hx => absurd hx (List.not_mem_nil x), ?_⟩
    have hc : cur = 0 := hch
    unfold find_first_fit_loop
    rw [if_pos hc]
  | cons l rest ih =>
    intro cur fuel hch hlen
    obtain ⟨n, rfl⟩ : ∃ n, fuel = n + 1 := ⟨fuel - 1, by simp at hlen; omega⟩
    obtain ⟨hc, hl, hs, hf, nx, hn, hrest⟩ := hch
    have hlen' : rest.length < n := by simp at hlen; omega
    have hfit := fits_of_fields st cur s l.size l.free hs hf
    unfold find_first_fit_loop
    rw [if_neg hc, hfit, Res.ok_bind]
    by_cases hsat : l.free ≠ 0 ∧ s ≤ l.size
    · left
      refine ⟨[], l, rest, rfl, hsat, fun x hx => absurd hx (List.not_mem_nil x), ?_, ?_⟩
      · rw [hl]; exact hc
      · rw [decide_eq_true hsat, if_pos rfl, hl]; rfl
    · rw [decide_eq_false hsat, hn]
      simp only [Res.ok_bind, Bool.false_eq_true, if_false]
      rcases ih nx n hrest hlen' with ⟨pre, l', post, hL, hsat', hpre, hne, hres⟩ | ⟨hnone, hres⟩
      · left
        refine ⟨l :: pre, l', post, by rw [hL]; rfl, hsat', ?_, hne, hres⟩
        intro x hx
        rcases List.mem_cons.mp hx with rfl | hx
        · exact hsat
        · exact hpre x hx
      · right
        refine ⟨?_, hres⟩
        intro x hx
        rcases List.mem_cons.mp hx with rfl | hx
        · exact hsat
        · exact hnone x hx
/-- BestFit on a chain, from any point of the scan: the loop returns either the
best block so far, when nothing in the rest of the chain is strictly smaller,
or the first block of least size among those of the rest that satisfy the
request. -/
theorem best_fit_chain (st : State) (s : Nat) : ∀ (L : List Line) (cur fuel best bs : Nat),
    Chain st cur L → L.length < fuel →
    (best = 0 ∨ (best ≠ 0 ∧ rd_size st best = Res.ok bs)) →
    ∃ r, find_best_fit_loop fuel st s cur best = Res.ok r ∧
      ((r = best ∧ ∀ x ∈ L, x.satisfies s → best ≠ 0 ∧ bs ≤ x.size) ∨
       (∃ pre l post, L = pre ++ l :: post ∧ r = l.addr ∧ l.addr ≠ 0 ∧ l.satisfies s ∧
          (∀ x ∈ L, x.satisfies s → l.size ≤ x.size) ∧
          (∀ x ∈ pre, x.satisfies s → l.size < x.size) ∧ (best ≠ 0 → l.size < bs))) := by
  intro L
  induction L with
  | nil =>
    intro cur fuel best bs hch hlen _
    obtain ⟨n, rfl⟩ : ∃ n, fuel = n + 1 := ⟨fuel - 1, by simp at hlen; omega⟩
    have hc : cur = 0 := hch
    refine ⟨best, ?_, Or.inl ⟨rfl, fun x hx => absurd hx (List.not_mem_nil x)⟩⟩
    unfold find_best_fit_loop
    rw [if_pos hc]
  | cons l rest ih =>
    intro cur fuel best bs hch hlen hbest
    obtain ⟨n, rfl⟩ : ∃ n, fuel = n + 1 := ⟨fuel - 1, by simp at hlen; omega⟩
    obtain ⟨hc, hl, hs, hf, nx, hn, hrest⟩ := hch
    have hlen' : rest.length < n := by simp at hlen; omega
    have hfit := fits_of_fields st cur s l.size l.free hs hf
    unfold find_best_fit_loop
    rw [if_neg hc, hfit, Res.ok_bind]
    by_cases hsat : l.free ≠ 0 ∧ s ≤ l.size
    · rw [decide_eq_true hsat, if_pos rfl]
      rcases hbest with hb0 | ⟨hbne, hbs⟩
      · -- first satisfying block: it becomes the best so far
        rw [if_pos hb0, hn, Res.ok_bind]
        obtain ⟨r, hr, hcase⟩ := ih nx n cur l.size hrest hlen' (Or.inr ⟨hc, hs⟩)
        refine ⟨r, hr, Or.inr ?_⟩
        rcases hcase with ⟨hrb, hall⟩ | ⟨pre, l', post, hL, hrl, hne, hsat', hmin, hpre, hlt⟩
        · refine ⟨[], l, rest, rfl, by rw [hrb, hl], by rw [hl]; exact hc, hsat, ?_, ?_, ?_⟩
          · intro x hx hxs
            rcases List.mem_cons.mp hx with rfl | hx
            · exact le_refl _
            · exact (hall x hx hxs).2
          · intro x hx; exact absurd hx (List.not_mem_nil x)
          · intro h; exact absurd hb0 h
        · have hlt' : l'.size < l.size := hlt hc
          refine ⟨l :: pre, l', post, by rw [hL]; rfl, hrl, hne, hsat', ?_, ?_, ?_⟩
          · intro x hx hxs
            rcases List.mem_cons.mp hx with rfl | hx
            · exact le_of_lt hlt'
            · exact hmin x hx hxs
          · intro x hx hxs
            rcases List.mem_cons.mp hx with rfl | hx
            · exact hlt'
            · exact hpre x hx hxs
          · intro h; exact absurd hb0 h
      · -- compare with the best so far
        rw [if_neg hbne, hs, Res.ok_bind, hbs, Res.ok_bind, hn, Res.ok_bind]
        by_cases hlt0 : l.size < bs
        · rw [if_pos hlt0]
          obtain ⟨r, hr, hcase⟩ := ih nx n cur l.size hrest hlen' (Or.inr ⟨hc, hs⟩)
          refine ⟨r, hr, Or.inr ?_⟩
          rcases hcase with ⟨hrb, hall⟩ | ⟨pre, l', post, hL, hrl, hne, hsat', hmin, hpre, hlt⟩
          · refine ⟨[], l, rest, rfl, by rw [hrb, hl], by rw [hl]; exact hc, hsat, ?_, ?_, ?_⟩
            · intro x hx hxs
              rcases List.mem_cons.mp hx with rfl | hx
              · exact le_refl _
              · exact (hall x hx hxs).2
            · intro x hx; exact absurd hx (List.not_mem_nil x)
            · intro _; exact hlt0
          · have hlt' : l'.size < l.size := hlt hc
            refine ⟨l :: pre, l', post, by rw [hL]; rfl, hrl, hne, hsat', ?_, ?_, ?_⟩
            · intro x hx hxs
              rcases List.mem_cons.mp hx with rfl | hx
              · exact le_of_lt hlt'
              · exact hmin x hx hxs
            · intro x hx hxs
              rcases List.mem_cons.mp hx with rfl | hx
              · exact hlt'
              · exact hpre x hx hxs
            · intro _; exact lt_trans hlt' hlt0
        · rw [if_neg hlt0]
          obtain ⟨r, hr, hcase⟩ := ih nx n best bs hrest hlen' (Or.inr ⟨hbne, hbs⟩)
          refine ⟨r, hr, ?_⟩
          rcases hcase with ⟨hrb, hall⟩ | ⟨pre, l', post, hL, hrl, hne, hsat', hmin, hpre, hlt⟩
          · left
            refine ⟨hrb, ?_⟩
            intro x hx hxs
            rcases List.mem_cons.mp hx with rfl | hx
            · exact ⟨hbne, Nat.le_of_not_lt hlt0⟩
            · exact hall x hx hxs
          · right
            have hlt' : l'.size < bs := hlt hbne
            have hlt'' : l'.size < l.size := lt_of_lt_of_le hlt' (Nat.le_of_not_lt hlt0)
            refine ⟨l :: pre, l', post, by rw [hL]; rfl, hrl, hne, hsat', ?_, ?_, fun _ => hlt'⟩
            · intro x hx hxs
              rcases List.mem_cons.mp hx with rfl | hx
              · exact le_of_lt hlt''
              · exact hmin x hx hxs
            · intro x hx hxs
              rcases List.mem_cons.mp hx with rfl | hx
              · exact hlt''
              · exact hpre x hx hxs
    · -- the block does not satisfy the request: it is skipped
      rw [decide_eq_false hsat, hn]
      simp only [Res.ok_bind, Bool.false_eq_true, if_false]
      obtain ⟨r, hr, hcase⟩ := ih nx n best bs hrest hlen' hbest
      refine ⟨r, hr, ?_⟩
      rcases hcase with ⟨hrb, hall⟩ | ⟨pre, l', post, hL, hrl, hne, hsat', hmin, hpre, hlt⟩
      · left
        refine ⟨hrb, ?_⟩
        intro x hx hxs
        rcases List.mem_cons.mp hx with rfl | hx
        · exact absurd hxs hsat
        · exact hall x hx hxs
      · right
        refine ⟨l :: pre, l', post, by rw [hL]; rfl, hrl, hne, hsat', ?_, ?_, hlt⟩
        · intro x hx hxs
          rcases List.mem_cons.mp hx with rfl | hx
          · exact absurd hxs hsat
          · exact hmin x hx hxs
        · intro x hx hxs
          rcases List.mem_cons.mp hx with rfl | hx
          · exact absurd hxs hsat
          · exact hpre x hx hxs
/-- WorstFit on a chain, from any point of the scan: the loop returns either the
worst block so far, when nothing in the rest of the chain is strictly larger,
or the first block of greatest size among those of the rest that satisfy the
request. -/
theorem worst_fit_chain (st : State) (s : Nat) : ∀ (L : List Line) (cur fuel best bs : Nat),
    Chain st cur L → L.length < fuel →
    (best = 0 ∨ (best ≠ 0 ∧ rd_size st best = Res.ok bs)) →
    ∃ r, find_worst_fit_loop fuel st s cur best = Res.ok r ∧
      ((r = best ∧ ∀ x ∈ L, x.satisfies s → best ≠ 0 ∧ x.size ≤ bs) ∨
       (∃ pre l post, L = pre ++ l :: post ∧ r = l.addr ∧ l.addr ≠ 0 ∧ l.satisfies s ∧
          (∀ x ∈ L, x.satisfies s → x.size ≤ l.size) ∧
          (∀ x ∈ pre, x.satisfies s → x.size < l.size) ∧ (best ≠ 0 → bs < l.size))) := by
  intro L
  induction L with
  | nil =>
    intro cur fuel best bs hch hlen _
    obtain ⟨n, rfl⟩ : ∃ n, fuel = n + 1 := ⟨fuel - 1, by simp at hlen; omega⟩
    have hc : cur = 0 := hch
    refine ⟨best, ?_, Or.inl ⟨rfl, fun x hx => absurd hx (List.not_mem_nil x)⟩⟩
    unfold find_worst_fit_loop
    rw [if_pos hc]
  | cons l rest ih =>
    intro cur fuel best bs hch hlen hbest
    obtain ⟨n, rfl⟩ : ∃ n, fuel = n + 1 := ⟨fuel - 1, by simp at hlen; omega⟩
    obtain ⟨hc, hl, hs, hf, nx, hn, hrest⟩ := hch
    have hlen' : rest.length < n := by simp at hlen; omega
    have hfit := fits_of_fields st cur s l.size l.free hs hf
    unfold find_worst_fit_loop
    rw [if_neg hc, hfit, Res.ok_bind]
    by_cases hsat : l.free ≠ 0 ∧ s ≤ l.size
    · rw [decide_eq_true hsat, if_pos rfl]
      rcases hbest with hb0 | ⟨hbne, hbs⟩
      · -- first satisfying block: it becomes the worst so far
        rw [if_pos hb0, hn, Res.ok_bind]
        obtain ⟨r, hr, hcase⟩ := ih nx n cur l.size hrest hlen' (Or.inr ⟨hc, hs⟩)
        refine ⟨r, hr, Or.inr ?_⟩
        rcases hcase with ⟨hrb, hall⟩ | ⟨pre, l', post, hL, hrl, hne, hsat', hmin, hpre, hlt⟩
        · refine ⟨[], l, rest, rfl, by rw [hrb, hl], by rw [hl]; exact hc, hsat, ?_, ?_, ?_⟩
          · intro x hx hxs
            rcases List.mem_cons.mp hx with rfl | hx
            · exact le_refl _
            · exact (hall x hx hxs).2
          · intro x hx; exact absurd hx (List.not_mem_nil x)
          · intro h; exact absurd hb0 h
        · have hlt' : l.size < l'.size := hlt hc
          refine ⟨l :: pre, l', post, by rw [hL]; rfl, hrl, hne, hsat', ?_, ?_, ?_⟩
          · intro x hx hxs
            rcases List.mem_cons.mp hx with rfl | hx
            · exact le_of_lt hlt'
            · exact hmin x hx hxs
          · intro x hx hxs
            rcases List.mem_cons.mp hx with rfl | hx
            · exact hlt'
            · exact hpre x hx hxs
          · intro h; exact absurd hb0 h
      · -- compare with the worst so far
        rw [if_neg hbne, hs, Res.ok_bind, hbs, Res.ok_bind, hn, Res.ok_bind]
        by_cases hlt0 : l.size > bs
        · rw [if_pos hlt0]
          obtain ⟨r, hr, hcase⟩ := ih nx n cur l.size hrest hlen' (Or.inr ⟨hc, hs⟩)
          refine ⟨r, hr, Or.inr ?_⟩
          rcases hcase with ⟨hrb, hall⟩ | ⟨pre, l', post, hL, hrl, hne, hsat', hmin, hpre, hlt⟩
          · refine ⟨[], l, rest, rfl, by rw [hrb, hl], by rw [hl]; exact hc, hsat, ?_, ?_, ?_⟩
            · intro x hx hxs
              rcases List.mem_cons.mp hx with rfl | hx
              · exact le_refl _
              · exact (hall x hx hxs).2
            · intro x hx; exact absurd hx (List.not_mem_nil x)
            · intro _; exact hlt0
          · have hlt' : l.size < l'.size := hlt hc
            refine ⟨l :: pre, l', post, by rw [hL]; rfl, hrl, hne, hsat', ?_, ?_, ?_⟩
            · intro x hx hxs
              rcases List.mem_cons.mp hx with rfl | hx
              · exact le_of_lt hlt'
              · exact hmin x hx hxs
            · intro x hx hxs
              rcases List.mem_cons.mp hx with rfl | hx
              · exact hlt'
              · exact hpre x hx hxs
            · intro _; exact lt_trans hlt0 hlt'
        · rw [if_neg hlt0]
          obtain ⟨r, hr, hcase⟩ := ih nx n best bs hrest hlen' (Or.inr ⟨hbne, hbs⟩)
          refine ⟨r, hr, ?_⟩
          rcases hcase with ⟨hrb, hall⟩ | ⟨pre, l', post, hL, hrl, hne, hsat', hmin, hpre, hlt⟩
          · left
            refine ⟨hrb, ?_⟩
            intro x hx hxs
            rcases List.mem_cons.mp hx with rfl | hx
            · exact ⟨hbne, Nat.le_of_not_lt hlt0⟩
            · exact hall x hx hxs
          · right
            have hlt' : bs < l'.size := hlt hbne
            have hlt'' : l.size < l'.size := lt_of_le_of_lt (Nat.le_of_not_lt hlt0) hlt'
            refine ⟨l :: pre, l', post, by rw [hL]; rfl, hrl, hne, hsat', ?_, ?_, fun _ => hlt'⟩
            · intro x hx hxs
              rcases List.mem_cons.mp hx with rfl | hx
              · exact le_of_lt hlt''
              · exact hmin x hx hxs
            · intro x hx hxs
              rcases List.mem_cons.mp hx with rfl | hx
              · exact hlt''
              · exact hpre x hx hxs
    · -- the block does not satisfy the request: it is skipped
      rw [decide_eq_false hsat, hn]
      simp only [Res.ok_bind, Bool.false_eq_true, if_false]
      obtain ⟨r, hr, hcase⟩ := ih nx n best bs hrest hlen' hbest
      refine ⟨r, hr, ?_⟩
      rcases hcase with ⟨hrb, hall⟩ | ⟨pre, l', post, hL, hrl, hne, hsat', hmin, hpre, hlt⟩
      · left
        refine ⟨hrb, ?_⟩
        intro x hx hxs
        rcases List.mem_cons.mp hx with rfl | hx
        · exact absurd hxs hsat
        · exact hall x hx hxs
      · right
        refine ⟨l :: pre, l', post, by rw [hL]; rfl, hrl, hne, hsat', ?_, ?_, hlt⟩
        · intro x hx hxs
          rcases List.mem_cons.mp hx with rfl | hx
          · exact absurd hxs hsat
          · exact hmin x hx hxs
        · intro x hx hxs
          rcases List.mem_cons.mp hx with rfl | hx
          · exact absurd hxs hsat
          · exact hpre x hx hxs
/-- C12: whenever the directory read from the head is the list `L` (the dump
returns `L`), for every request size `s` and every fuel at least that of the
dump, `find_first_fit` returns the address of the first block of `L`, head to
tail, that is free with size at least `s` (no block before it is), and it
returns `NULL` when no block of `L` is free with size at least `s`; the two
cases exclude each other, block addresses being non-null. -/
theorem find_first_fit_returns_first_satisfying_block (st : State) (fuel : Nat)
    (L : List Line) (s : Nat) (hdump : umemdump fuel st = Res.ok L)
    (fuel' : Nat) (hfuel : fuel ≤ fuel') :
    (∃ pre l post, L = pre ++ l :: post ∧ l.satisfies s ∧ (∀ x ∈ pre, ¬ x.satisfies s) ∧
        l.addr ≠ 0 ∧ find_first_fit fuel' st s = Res.ok l.addr) ∨
    ((∀ x ∈ L, ¬ x.satisfies s) ∧ find_first_fit fuel' st s = Res.ok 0) := by
  obtain ⟨hch, hlen⟩ := chain_of_dump fuel st st.heap_list L hdump
  exact first_fit_chain st s L st.heap_list fuel' hch (lt_of_lt_of_le hlen hfuel)

/-- C12 at a concrete input: the arena with holes of 104 and 1000 bytes and a
request of 50 bytes; the search returns the 104-byte hole at `arena + 32`. -/
theorem find_first_fit_returns_first_satisfying_block_witness :
    umemdump run_fuel two_holes = Res.ok two_holes_dump ∧
    find_first_fit run_fuel two_holes 50 = Res.ok 4096032 ∧
    ((∃ pre l post, two_holes_dump = pre ++ l :: post ∧ l.satisfies 50 ∧
        (∀ x ∈ pre, ¬ x.satisfies 50) ∧ l.addr ≠ 0 ∧
        find_first_fit run_fuel two_holes 50 = Res.ok l.addr) ∨
     ((∀ x ∈ two_holes_dump, ¬ x.satisfies 50) ∧
        find_first_fit run_fuel two_holes 50 = Res.ok 0)) :=
  ⟨by decide, by decide,
    find_first_fit_returns_first_satisfying_block two_holes run_fuel two_holes_dump 50
      (by decide) run_fuel (le_refl _)⟩

/-- C13: whenever the directory read from the head is the list `L`, for every
request size `s` and every fuel at least that of the dump, `find_best_fit`
returns the address of a block of `L` that is free with size at least `s`,
whose size is at most that of every such block and strictly less than that of
every such block before it in `L`; it returns `NULL` when no block of `L` is
free with size at least `s`. -/
theorem find_best_fit_returns_first_smallest_satisfying_block (st : State) (fuel : Nat)
    (L : List Line) (s : Nat) (hdump : umemdump fuel st = Res.ok L)
    (fuel' : Nat) (hfuel : fuel ≤ fuel') :
    (∃ pre l post, L = pre ++ l :: post ∧ l.satisfies s ∧
        (∀ x ∈ L, x.satisfies s → l.size ≤ x.size) ∧
        (∀ x ∈ pre, x.satisfies s → l.size < x.size) ∧
        l.addr ≠ 0 ∧ find_best_fit fuel' st s = Res.ok l.addr) ∨
    ((∀ x ∈ L, ¬ x.satisfies s) ∧ find_best_fit fuel' st s = Res.ok 0) := by
  obtain ⟨hch, hlen⟩ := chain_of_dump fuel st st.heap_list L hdump
  obtain ⟨r, hr, hcase⟩ := best_fit_chain st s L st.heap_list fuel' 0 0 hch
    (lt_of_lt_of_le hlen hfuel) (Or.inl rfl)
  unfold find_best_fit
  rcases hcase with ⟨hr0, hall⟩ | ⟨pre, l, post, hL, hrl, hne, hsat, hmin, hpre, -⟩
  · right
    refine ⟨fun x hx hxs => (hall x hx hxs).1 rfl, ?_⟩
    rw [hr, hr0]
  · left
    exact ⟨pre, l, post, hL, hsat, hmin, hpre, hne, by rw [hr, hrl]⟩

/-- C13 at a concrete input: the arena with holes of 104 and 1000 bytes and a
request of 50 bytes; the search returns the 104-byte hole at `arena + 32`. -/
theorem find_best_fit_returns_first_smallest_satisfying_block_witness :
    umemdump run_fuel two_holes = Res.ok two_holes_dump ∧
    find_best_fit run_fuel two_holes 50 = Res.ok 4096032 ∧
    ((∃ pre l post, two_holes_dump = pre ++ l :: post ∧ l.satisfies 50 ∧
        (∀ x ∈ two_holes_dump, x.satisfies 50 → l.size ≤ x.size) ∧
        (∀ x ∈ pre, x.satisfies 50 → l.size < x.size) ∧
        l.addr ≠ 0 ∧ find_best_fit run_fuel two_holes 50 = Res.ok l.addr) ∨
     ((∀ x ∈ two_holes_dump, ¬ x.satisfies 50) ∧
        find_best_fit run_fuel two_holes 50 = Res.ok 0)) :=
  ⟨by decide, by decide,
    find_best_fit_returns_first_smallest_satisfying_block two_holes run_fuel two_holes_dump 50
      (by decide) run_fuel (le_refl _)⟩

/-- C14: whenever the directory read from the head is the list `L`, for every
request size `s` and every fuel at least that of the dump, `find_worst_fit`
returns the address of a block of `L` that is free with size at least `s`,
such that no free block of `L` is strictly larger and every block before it
in `L` that is free with size at least `s` is strictly smaller; it returns
`NULL` when no block of `L` is free with size at least `s`. -/
theorem find_worst_fit_returns_first_largest_satisfying_block (st : State) (fuel : Nat)
    (L : List Line) (s : Nat) (hdump : umemdump fuel st = Res.ok L)
    (fuel' : Nat) (hfuel : fuel ≤ fuel') :
    (∃ pre l post, L = pre ++ l :: post ∧ l.satisfies s ∧
        (∀ x ∈ L, x.free ≠ 0 → x.size ≤ l.size) ∧
        (∀ x ∈ pre, x.satisfies s → x.size < l.size) ∧
        l.addr ≠ 0 ∧ find_worst_fit fuel' st s = Res.ok l.addr) ∨
    ((∀ x ∈ L, ¬ x.satisfies s) ∧ find_worst_fit fuel' st s = Res.ok 0) := by
  obtain ⟨hch, hlen⟩ := chain_of_dump fuel st st.heap_list L hdump
  obtain ⟨r, hr, hcase⟩ := worst_fit_chain st s L st.heap_list fuel' 0 0 hch
    (lt_of_lt_of_le hlen hfuel) (Or.inl rfl)
  unfold find_worst_fit
  rcases hcase with ⟨hr0, hall⟩ | ⟨pre, l, post, hL, hrl, hne, hsat, hmax, hpre, -⟩
  · right
    refine ⟨fun x hx hxs => (hall x hx hxs).1 rfl, ?_⟩
    rw [hr, hr0]
  · left
    refine ⟨pre, l, post, hL, hsat, ?_, hpre, hne, by rw [hr, hrl]⟩
    intro x hx hfree
    by_cases hxs : s ≤ x.size
    · exact hmax x hx ⟨hfree, hxs⟩
    · exact le_trans (le_of_lt (Nat.lt_of_not_le hxs)) hsat.2

/-- C14 at a concrete input: the arena with holes of 104 and 1000 bytes and a
request of 50 bytes; the search returns the 1000-byte hole at `arena + 192`. -/
theorem find_worst_fit_returns_first_largest_satisfying_block_witness :
    umemdump run_fuel two_holes = Res.ok two_holes_dump ∧
    find_worst_fit run_fuel two_holes 50 = Res.ok 4096192 ∧
    ((∃ pre l post, two_holes_dump = pre ++ l :: post ∧ l.satisfies 50 ∧
        (∀ x ∈ two_holes_dump, x.free ≠ 0 → x.size ≤ l.size) ∧
        (∀ x ∈ pre, x.satisfies 50 → x.size < l.size) ∧
        l.addr ≠ 0 ∧ find_worst_fit run_fuel two_holes 50 = Res.ok l.addr) ∨
     ((∀ x ∈ two_holes_dump, ¬ x.satisfies 50) ∧
        find_worst_fit run_fuel two_holes 50 = Res.ok 0)) :=
  ⟨by decide, by decide,
    find_worst_fit_returns_first_largest_satisfying_block two_holes run_fuel two_holes_dump 50
      (by decide) run_fuel (le_refl _)⟩
/-! ## Support lemmas: the two halves of `umalloc`, frames -/

/-- The function `umalloc` is its guard, then the search, then the placement. -/
theorem umalloc_eq (fuel : Nat) (st : State) (n : Nat) :
    umalloc fuel st n =
      if st.heap_list = 0 ∨ n = 0 then Res.ok (st, 0)
      else
        match umalloc_search fuel st (ALIGN n) with
        | none => Res.ok (st, 0)
        | some search => search >>= fun r => umalloc_place r.1 r.2 (ALIGN n) := rfl

theorem Frame.refl (a : State) : Frame a a := ⟨rfl, rfl, rfl, rfl, rfl, rfl⟩

theorem Frame.trans {a b c : State} (h1 : Frame a b) (h2 : Frame b c) : Frame a c :=
  ⟨h2.1.trans h1.1, h2.2.1.trans h1.2.1, h2.2.2.1.trans h1.2.2.1,
    h2.2.2.2.1.trans h1.2.2.2.1, h2.2.2.2.2.1.trans h1.2.2.2.2.1,
    h2.2.2.2.2.2.trans h1.2.2.2.2.2⟩

theorem store64_eq_ok {st st' : State} {a v : Nat} (h : store64 st a v = Res.ok st') :
    st.valid a = true ∧ st' = st.write a v := by
  unfold store64 at h
  by_cases hv : st.valid a = true
  · rw [if_pos hv] at h
    injection h with h
    exact ⟨hv, h.symm⟩
  · rw [if_neg hv] at h
    exact Res.noConfusion h

theorem load64_eq_ok {st : State} {a v : Nat} (h : load64 st a = Res.ok v) :
    st.valid a = true ∧ v = st.mem a := by
  unfold load64 at h
  by_cases hv : st.valid a = true
  · rw [if_pos hv] at h
    injection h with h
    exact ⟨hv, h.symm⟩
  · rw [if_neg hv] at h
    exact Res.noConfusion h

theorem store64_frame {st st' : State} {a v : Nat} (h : store64 st a v = Res.ok st') :
    Frame st st' := by
  obtain ⟨-, rfl⟩ := store64_eq_ok h
  exact ⟨rfl, rfl, rfl, rfl, rfl, rfl⟩

theorem wr_size_frame {st st' : State} {b v : Nat} (h : wr_size st b v = Res.ok st') :
    Frame st st' := store64_frame h

theorem wr_next_frame {st st' : State} {b v : Nat} (h : wr_next st b v = Res.ok st') :
    Frame st st' := store64_frame h

theorem wr_free_frame {st st' : State} {b v : Nat} (h : wr_free st b v = Res.ok st') :
    Frame st st' := by
  unfold wr_free at h
  obtain ⟨w, -, h⟩ := Res.bind_eq_ok h
  exact store64_frame h

theorem split_block_frame {st st' : State} {block size : Nat}
    (h : split_block st block size = Res.ok st') : Frame st st' := by
  unfold split_block at h
  obtain ⟨bsize, -, h⟩ := Res.bind_eq_ok h
  dsimp only at h
  split at h
  · obtain ⟨s1, h1, h⟩ := Res.bind_eq_ok h
    obtain ⟨s2, h2, h⟩ := Res.bind_eq_ok h
    obtain ⟨n1, -, h⟩ := Res.bind_eq_ok h
    obtain ⟨s3, h3, h⟩ := Res.bind_eq_ok h
    obtain ⟨s4, h4, h⟩ := Res.bind_eq_ok h
    obtain ⟨s5, h5, h⟩ := Res.bind_eq_ok h
    obtain ⟨n2, -, h⟩ := Res.bind_eq_ok h
    obtain ⟨s6, h6, h⟩ := Res.bind_eq_ok h
    exact (wr_size_frame h1).trans ((wr_free_frame h2).trans ((wr_next_frame h3).trans
      ((wr_size_frame h4).trans ((wr_free_frame h5).trans ((wr_next_frame h6).trans
        (wr_next_frame h))))))
  · injection h with h
    rw [← h]
    exact Frame.refl st

theorem umalloc_place_frame {st st' : State} {block size p : Nat}
    (h : umalloc_place st block size = Res.ok (st', p)) : Frame st st' := by
  unfold umalloc_place at h
  split at h
  · injection h with h
    injection h with h1 h2
    rw [← h1]
    exact Frame.refl st
  · obtain ⟨bsize, -, h⟩ := Res.bind_eq_ok h
    dsimp only at h
    split at h
    · obtain ⟨s1, h1, h⟩ := Res.bind_eq_ok h
      obtain ⟨s2, h2, h⟩ := Res.bind_eq_ok h
      injection h with h
      injection h with h3 h4
      rw [← h3]
      exact (split_block_frame h1).trans (wr_free_frame h2)
    · obtain ⟨s1, h1, h⟩ := Res.bind_eq_ok h
      obtain ⟨s2, h2, h⟩ := Res.bind_eq_ok h
      injection h1 with h1
      injection h with h
      injection h with h3 h4
      rw [← h3, h1]
      exact wr_free_frame h2

theorem find_next_fit_frame {fuel : Nat} {st st' : State} {size b : Nat}
    (h : find_next_fit fuel st size = Res.ok (st', b)) : Frame st st' := by
  unfold find_next_fit at h
  obtain ⟨r, -, h⟩ := Res.bind_eq_ok h
  injection h with h
  injection h with h1 h2
  rw [← h1]
  exact ⟨rfl, rfl, rfl, rfl, rfl, rfl⟩

theorem umalloc_search_frame {fuel : Nat} {st st' : State} {size b : Nat}
    {search : Res (State × Nat)} (hs : umalloc_search fuel st size = some search)
    (h : search = Res.ok (st', b)) : Frame st st' := by
  unfold umalloc_search at hs
  split at hs
  · injection hs with hs
    rw [← hs] at h
    obtain ⟨x, -, h⟩ := Res.bind_eq_ok h
    injection h with h
    injection h with h1 h2
    rw [← h1]
    exact Frame.refl st
  · split at hs
    · injection hs with hs
      rw [← hs] at h
      obtain ⟨x, -, h⟩ := Res.bind_eq_ok h
      injection h with h
      injection h with h1 h2
      rw [← h1]
      exact Frame.refl st
    · split at hs
      · injection hs with hs
        rw [← hs] at h
        obtain ⟨x, -, h⟩ := Res.bind_eq_ok h
        injection h with h
        injection h with h1 h2
        rw [← h1]
        exact Frame.refl st
      · split at hs
        · injection hs with hs
          rw [← hs] at h
          exact find_next_fit_frame h
        · exact Option.noConfusion hs

/-- No `umalloc` call changes the statics that `umeminit` assigns. -/
theorem umalloc_frame {fuel : Nat} {st st' : State} {n p : Nat}
    (h : umalloc fuel st n = Res.ok (st', p)) : Frame st st' := by
  rw [umalloc_eq] at h
  split at h
  · injection h with h
    injection h with h1 h2
    rw [← h1]
    exact Frame.refl st
  · split at h
    · injection h with h
      injection h with h1 h2
      rw [← h1]
      exact Frame.refl st
    · rename_i search hsearch
      obtain ⟨r, hr, h⟩ := Res.bind_eq_ok h
      exact (umalloc_search_frame hsearch hr).trans (umalloc_place_frame h)

/-- The second half of `coalesce`, from the predecessor found by the scan. -/
theorem coalesce_merge_prev_frame {st st' : State} {block prev pfree b : Nat}
    (h : (if prev ≠ 0 ∧ pfree ≠ 0 then do
            let psize ← rd_size st prev
            let bsize ← rd_size st block
            let st ← wr_size st prev (add64 psize (add64 sizeof_BlockHeader bsize))
            let bnext ← rd_next st block
            let st ← wr_next st prev bnext
            pure (st, prev)
          else (pure (st, block) : Res (State × Nat))) = Res.ok (st', b)) : Frame st st' := by
  split at h
  · obtain ⟨psize, -, h⟩ := Res.bind_eq_ok h
    obtain ⟨bsize, -, h⟩ := Res.bind_eq_ok h
    obtain ⟨s2, h2, h⟩ := Res.bind_eq_ok h
    obtain ⟨bn, -, h⟩ := Res.bind_eq_ok h
    obtain ⟨s3, h3, h⟩ := Res.bind_eq_ok h
    injection h with h
    injection h with h4 h5
    rw [← h4]
    exact (wr_size_frame h2).trans (wr_next_frame h3)
  · injection h with h
    injection h with h4 h5
    rw [← h4]
    exact Frame.refl st

/-- The part of `coalesce` after the merge with the successor. -/
theorem coalesce_tail_frame {fuel : Nat} {st st' : State} {block b : Nat}
    (h : (do
            let prev ← coalesce_scan fuel st block 0 st.heap_list
            let pfree ← if prev ≠ 0 then rd_free st prev else pure 0
            if prev ≠ 0 ∧ pfree ≠ 0 then do
              let psize ← rd_size st prev
              let bsize ← rd_size st block
              let st ← wr_size st prev (add64 psize (add64 sizeof_BlockHeader bsize))
              let bnext ← rd_next st block
              let st ← wr_next st prev bnext
              pure (st, prev)
            else (pure (st, block) : Res (State × Nat))) = Res.ok (st', b)) :
    Frame st st' := by
  obtain ⟨prev, -, h⟩ := Res.bind_eq_ok h
  dsimp only at h
  split at h
  · obtain ⟨pfree, -, h⟩ := Res.bind_eq_ok h
    exact coalesce_merge_prev_frame h
  · obtain ⟨pfree, -, h⟩ := Res.bind_eq_ok h
    exact coalesce_merge_prev_frame h

theorem coalesce_frame {fuel : Nat} {st st' : State} {block b : Nat}
    (h : coalesce fuel st block = Res.ok (st', b)) : Frame st st' := by
  unfold coalesce at h
  obtain ⟨bnext, -, h⟩ := Res.bind_eq_ok h
  dsimp only at h
  have key : ∀ nfree : Nat,
      (if bnext ≠ 0 ∧ nfree ≠ 0 then do
          let bsize ← rd_size st block
          let nsize ← rd_size st bnext
          let st ← wr_size st block (add64 bsize (add64 sizeof_BlockHeader nsize))
          let nnext ← rd_next st bnext
          let y ← wr_next st block nnext
          (do
            let prev ← coalesce_scan fuel y block 0 y.heap_list
            let pfree ← if prev ≠ 0 then rd_free y prev else pure 0
            if prev ≠ 0 ∧ pfree ≠ 0 then do
              let psize ← rd_size y prev
              let bsize ← rd_size y block
              let st ← wr_size y prev (add64 psize (add64 sizeof_BlockHeader bsize))
              let bnext ← rd_next st block
              let st ← wr_next st prev bnext
              pure (st, prev)
            else (pure (y, block) : Res (State × Nat)))
        else do
          let y ← (pure st : Res State)
          (do
            let prev ← coalesce_scan fuel y block 0 y.heap_list
            let pfree ← if prev ≠ 0 then rd_free y prev else pure 0
            if prev ≠ 0 ∧ pfree ≠ 0 then do
              let psize ← rd_size y prev
              let bsize ← rd_size y block
              let st ← wr_size y prev (add64 psize (add64 sizeof_BlockHeader bsize))
              let bnext ← rd_next st block
              let st ← wr_next st prev bnext
              pure (st, prev)
            else (pure (y, block) : Res (State × Nat)))) = Res.ok (st', b) →
      Frame st st' := by
    intro nfree h
    split at h
    · obtain ⟨bsize, -, h⟩ := Res.bind_eq_ok h
      obtain ⟨nsize, -, h⟩ := Res.bind_eq_ok h
      obtain ⟨s0, h0, h⟩ := Res.bind_eq_ok h
      obtain ⟨nnext, -, h⟩ := Res.bind_eq_ok h
      obtain ⟨s1, h1, h⟩ := Res.bind_eq_ok h
      exact (wr_size_frame h0).trans ((wr_next_frame h1).trans (coalesce_tail_frame h))
    · obtain ⟨s1, h1, h⟩ := Res.bind_eq_ok h
      injection h1 with h1
      rw [h1]
      exact coalesce_tail_frame h
  split at h
  · obtain ⟨nfree, -, h⟩ := Res.bind_eq_ok h
    exact key nfree h
  · obtain ⟨nfree, -, h⟩ := Res.bind_eq_ok h
    exact key nfree h

/-- No `ufree` call changes the statics that `umeminit` assigns. -/
theorem ufree_frame {fuel : Nat} {st st' : State} {ptr : Nat} {r : Int}
    (h : ufree fuel st ptr = Res.ok (st', r)) : Frame st st' := by
  unfold ufree at h
  split at h
  · injection h with h
    injection h with h1 h2
    rw [← h1]
    exact Frame.refl st
  · obtain ⟨s1, h1, h⟩ := Res.bind_eq_ok h
    obtain ⟨x, hx, h⟩ := Res.bind_eq_ok h
    injection h with h
    injection h with h2 h3
    rw [← h2]
    exact (wr_free_frame h1).trans (coalesce_frame hx)

theorem steps_frame {st0 st : State} (h : Steps st0 st) : Frame st0 st := by
  induction h with
  | refl => exact Frame.refl st0
  | alloc fuel n p _ hcall ih => exact ih.trans (umalloc_frame hcall)
  | release fuel ptr r _ hcall ih => exact ih.trans (ufree_frame hcall)
/-! ## Support lemmas: the outcomes of `umeminit` -/

theorem mmap_snd (os : OS) (s : State) (len : Nat) :
    (mmap os s len).2 = if len = 0 then none else os.mmap_answer s.mmap_requests.length len := by
  unfold mmap
  by_cases h0 : len = 0
  · simp only [h0, if_true]
  · simp only [h0, if_false]
    cases os.mmap_answer s.mmap_requests.length len <;> rfl

theorem mmap_statics (os : OS) (s : State) (len : Nat) :
    (mmap os s len).1.heap_list = s.heap_list ∧
    (mmap os s len).1.allocator_initialized = s.allocator_initialized ∧
    (mmap os s len).1.allocation_algorithm = s.allocation_algorithm ∧
    (mmap os s len).1.next = s.next := by
  unfold mmap
  by_cases h0 : len = 0
  · simp only [h0, if_true, and_self]
  · simp only [h0, if_false]
    cases os.mmap_answer s.mmap_requests.length len <;> exact ⟨rfl, rfl, rfl, rfl⟩


/-- The two ways `umeminit` returns: with -1 and the statics reset, or with 0
after a successful mapping, the strategy recorded and the flag set. -/
theorem umeminit_cases {os : OS} {st st' : State} {c : Nat} {algo r : Int}
    (h : umeminit os st c algo = Res.ok (st', r)) :
    (r = -1 ∧ st'.heap_list = 0 ∧ st'.allocator_initialized = 0 ∧ st'.next = st.next) ∨
    (r = 0 ∧ st'.allocation_algorithm = algo ∧ st'.allocator_initialized = 1 ∧
      (mmap os st (page_round os.getpagesize c)).2 = some st'.heap_list) := by
  obtain ⟨R, hR⟩ : ∃ R, page_round os.getpagesize c = R := ⟨_, rfl⟩
  rw [hR]
  unfold umeminit at h
  by_cases hc : c < BLOCK_SIZE
  · rw [if_pos hc] at h
    injection h with h
    injection h with h1 h2
    left
    rw [← h1, ← h2]
    exact ⟨rfl, rfl, rfl, rfl⟩
  · have hst := mmap_statics os { reset_globals st with allocation_algorithm := algo } R
    have hsnd := mmap_snd os { reset_globals st with allocation_algorithm := algo } R
    rcases hmm : mmap os { reset_globals st with allocation_algorithm := algo } R
      with ⟨stm, _ | area⟩
    · simp only [hc, if_false, hR, hmm] at h
      rw [hmm] at hst
      injection h with h
      injection h with h1 h2
      left
      rw [← h1, ← h2]
      exact ⟨rfl, hst.1, hst.2.1, hst.2.2.2⟩
    · simp only [hc, if_false, hR, hmm] at h
      rw [hmm] at hst hsnd
      obtain ⟨s1, h1, h⟩ := Res.bind_eq_ok h
      obtain ⟨s2, h2, h⟩ := Res.bind_eq_ok h
      obtain ⟨s3, h3, h⟩ := Res.bind_eq_ok h
      injection h with h
      injection h with h4 h5
      have hf := (wr_size_frame h1).trans ((wr_next_frame h2).trans (wr_free_frame h3))
      right
      rw [← h4, ← h5]
      refine ⟨rfl, ?_, rfl, ?_⟩
      · show s3.allocation_algorithm = algo
        rw [hf.2.2.1]
        exact hst.2.2.1
      · show (mmap os st R).2 = some s3.heap_list
        rw [hf.1, mmap_snd]
        exact hsnd.symm
/-- A capacity below one header makes `umeminit` return -1 right after the
reset of the statics. -/
theorem umeminit_below_header (os : OS) (st : State) (c : Nat) (algo : Int) (hc : c < 24) :
    umeminit os st c algo = Res.ok (reset_globals st, -1) := by
  have hc' : c < BLOCK_SIZE := by rw [BLOCK_SIZE_eq]; exact hc
  unfold umeminit
  exact if_pos hc'

/-- With `heap_list == NULL` every `umalloc` returns `NULL` and changes nothing. -/
theorem umalloc_uninitialized (fuel : Nat) (st : State) (n : Nat) (h0 : st.heap_list = 0) :
    umalloc fuel st n = Res.ok (st, 0) := by
  rw [umalloc_eq, if_pos (Or.inl h0)]

/-- With `heap_list == NULL` the dump prints nothing. -/
theorem umemdump_uninitialized (fuel : Nat) (st : State) (h0 : st.heap_list = 0) :
    umemdump (fuel + 1) st = Res.ok [] := by
  unfold umemdump umemdump_loop
  rw [if_pos h0]

/-- C18 (counterexample): after `umeminit(4096, FIRST_FIT)` succeeds, the call
`umeminit(8, FIRST_FIT)` returns -1 and the directory that the dump showed
before it (one free block of 4072 bytes) is gone: the dump is empty,
`heap_list` is `NULL`, the initialized flag is 0 and `umalloc(8)` returns
`NULL`. -/
theorem failed_umeminit_discards_directory :
    (do
      let (st, r0) ← umeminit host State.start 4096 FIRST_FIT
      let before ← umemdump run_fuel st
      let (st, r1) ← umeminit host st 8 FIRST_FIT
      let after ← umemdump run_fuel st
      let (st, p) ← umalloc run_fuel st 8
      pure ([r0, r1], rebase 4096000 before, after, p, st.heap_list,
        st.allocator_initialized))
    = Res.ok ([0, -1], [{ addr := 0, size := 4072, free := 1 }], [], 0, 0, 0) := by
  decide

/-- C18 (amended): whatever the state before, a `umeminit` call that returns
either returns 0, and then the instance is initialized (flag 1, `heap_list`
the mapped arena) and stays so through every sequence of `umalloc` and
`ufree` calls, which never change the flag or `heap_list`; or it returns -1,
and then the instance is uninitialized whatever it was before: `heap_list` is
`NULL`, the flag is 0, the dump prints nothing and every `umalloc` returns
`NULL`. -/
theorem umeminit_outcome_decides_initialized (os : OS) (st : State) (c : Nat) (algo : Int)
    (st1 : State) (r : Int) (hinit : umeminit os st c algo = Res.ok (st1, r)) :
    (r = 0 ∧ (mmap os st (page_round os.getpagesize c)).2 = some st1.heap_list ∧
      st1.allocator_initialized = 1 ∧
      ∀ st2, Steps st1 st2 → st2.allocator_initialized = 1 ∧ st2.heap_list = st1.heap_list) ∨
    (r = -1 ∧ st1.heap_list = 0 ∧ st1.allocator_initialized = 0 ∧
      (∀ fuel, umemdump (fuel + 1) st1 = Res.ok []) ∧
      ∀ fuel n, umalloc fuel st1 n = Res.ok (st1, 0)) := by
  rcases umeminit_cases hinit with ⟨hr, hh, hi, -⟩ | ⟨hr, -, hi, hm⟩
  · right
    exact ⟨hr, hh, hi, fun fuel => umemdump_uninitialized fuel st1 hh,
      fun fuel n => umalloc_uninitialized fuel st1 n hh⟩
  · left
    refine ⟨hr, hm, hi, ?_⟩
    intro st2 hsteps
    have hf := steps_frame hsteps
    exact ⟨hf.2.1.trans hi, hf.1⟩

/-- C18 (amended) at a concrete input: the initialized instance after
`umeminit(4096, FIRST_FIT)` and the failing call `umeminit(8, FIRST_FIT)`. -/
theorem umeminit_outcome_decides_initialized_witness :
    (initialized_4096.allocator_initialized = 1 ∧ initialized_4096.heap_list = 4096000) ∧
    umeminit host initialized_4096 8 FIRST_FIT = Res.ok (reset_globals initialized_4096, -1) ∧
    (((-1 : Int) = 0 ∧
      (mmap host initialized_4096 (page_round host.getpagesize 8)).2
        = some (reset_globals initialized_4096).heap_list ∧
      (reset_globals initialized_4096).allocator_initialized = 1 ∧
      ∀ st2, Steps (reset_globals initialized_4096) st2 →
        st2.allocator_initialized = 1 ∧
        st2.heap_list = (reset_globals initialized_4096).heap_list) ∨
     ((-1 : Int) = -1 ∧ (reset_globals initialized_4096).heap_list = 0 ∧
      (reset_globals initialized_4096).allocator_initialized = 0 ∧
      (∀ fuel, umemdump (fuel + 1) (reset_globals initialized_4096) = Res.ok []) ∧
      ∀ fuel n, umalloc fuel (reset_globals initialized_4096) n
        = Res.ok (reset_globals initialized_4096, 0))) :=
  ⟨by decide, umeminit_below_header host initialized_4096 8 FIRST_FIT (by decide),
    umeminit_outcome_decides_initialized host initialized_4096 8 FIRST_FIT
      (reset_globals initialized_4096) (-1)
      (umeminit_below_header host initialized_4096 8 FIRST_FIT (by decide))⟩

/-- C19: if `umeminit` returned 0 with a strategy value that is none of
`BEST_FIT`, `WORST_FIT`, `FIRST_FIT`, `NEXT_FIT`, then for every request size
(and every fuel) `umalloc` returns `NULL` and leaves the whole state, the
block directory included, unchanged. -/
theorem umalloc_unknown_strategy_returns_null (os : OS) (st : State) (c : Nat) (algo : Int)
    (st1 : State) (hinit : umeminit os st c algo = Res.ok (st1, 0))
    (hb : algo ≠ BEST_FIT) (hw : algo ≠ WORST_FIT) (hf : algo ≠ FIRST_FIT)
    (hn : algo ≠ NEXT_FIT) (fuel n : Nat) :
    umalloc fuel st1 n = Res.ok (st1, 0) := by
  rcases umeminit_cases hinit with ⟨hr, -⟩ | ⟨-, halg, -, -⟩
  · exact absurd hr (by decide)
  · have hsearch : umalloc_search fuel st1 (ALIGN n) = none := by
      unfold umalloc_search
      rw [halg, if_neg hb, if_neg hw, if_neg hf, if_neg hn]
    rw [umalloc_eq, hsearch]
    by_cases hg : st1.heap_list = 0 ∨ n = 0
    · rw [if_pos hg]
    · rw [if_neg hg]

/-- C19 at a concrete input: `umeminit(4096, 7)` on `host`, then any request. -/
theorem umalloc_unknown_strategy_returns_null_witness :
    ∃ st1, umeminit host State.start 4096 7 = Res.ok (st1, 0) ∧
      ∀ fuel n, umalloc fuel st1 n = Res.ok (st1, 0) := by
  obtain ⟨st1, hinit, -⟩ :=
    umeminit_fresh host State.start 4096 7 4096 4096000 (by decide) (by decide)
      (by decide) (by decide) (by decide) (by decide)
  exact ⟨st1, hinit, fun fuel n =>
    umalloc_unknown_strategy_returns_null host State.start 4096 7 st1 hinit
      (by decide) (by decide) (by decide) (by decide) fuel n⟩
/-! ## Support lemmas: the stores of `split_block` and `umalloc` -/

theorem rd_size_ok (st : State) (b : Nat) (h : st.valid b = true) :
    rd_size st b = Res.ok (st.mem b) := load64_ok st b h

theorem rd_next_ok (st : State) (b : Nat) (h : st.valid (b + 8) = true) :
    rd_next st b = Res.ok (st.mem (b + 8)) := load64_ok st (b + 8) h

theorem rd_free_ok (st : State) (b : Nat) (h : st.valid (b + 16) = true) :
    rd_free st b = Res.ok (st.mem (b + 16) % 2 ^ 32) := by
  unfold rd_free
  rw [load64_ok st _ h]
  rfl

theorem wr_size_ok (st : State) (b v : Nat) (h : st.valid b = true) :
    wr_size st b v = Res.ok (st.write b v) := store64_ok st b v h

theorem wr_next_ok (st : State) (b v : Nat) (h : st.valid (b + 8) = true) :
    wr_next st b v = Res.ok (st.write (b + 8) v) := store64_ok st (b + 8) v h

theorem wr_free_ok (st : State) (b v : Nat) (h : st.valid (b + 16) = true) :
    wr_free st b v = Res.ok (st.set_free b v) := by
  unfold wr_free
  rw [load64_ok st _ h, Res.ok_bind, store64_ok st _ _ h]
  rfl

@[simp] theorem set_free_valid (st : State) (b v x : Nat) :
    (st.set_free b v).valid x = st.valid x := rfl

theorem set_free_mem_other (st : State) (b v x : Nat) (h : x ≠ b + 16) :
    (st.set_free b v).mem x = st.mem x := write_mem_other st _ _ x h

theorem set_free_mem_flag (st : State) (b v : Nat) (hv : v < 2 ^ 32) :
    (st.set_free b v).mem (b + 16) % 2 ^ 32 = v := by
  unfold State.set_free
  rw [write_mem_same]
  unfold SIZE_MOD
  omega

theorem set_free_frame (st : State) (b v : Nat) : Frame st (st.set_free b v) :=
  ⟨rfl, rfl, rfl, rfl, rfl, rfl⟩

theorem write_frame (st : State) (a v : Nat) : Frame st (st.write a v) :=
  ⟨rfl, rfl, rfl, rfl, rfl, rfl⟩

@[simp] theorem split_stores_valid (st : State) (b r nb rem x : Nat) :
    (split_stores st b r nb rem).valid x = st.valid x := rfl

/-- When the remainder exceeds one header, `split_block` performs its stores. -/
theorem split_block_eq (st : State) (b r S : Nat)
    (hv0 : st.valid b = true) (hv8 : st.valid (b + 8) = true)
    (hv16 : st.valid (b + 16) = true) (hn0 : st.valid (b + 24 + r) = true)
    (hn8 : st.valid (b + 24 + r + 8) = true) (hn16 : st.valid (b + 24 + r + 16) = true)
    (hS : st.mem b = S) (hgt : r + 48 < S) (h64 : b + 24 + S ≤ 2 ^ 64) :
    split_block st b r = Res.ok (split_stores st b r (b + 24 + r) (S - r - 24)) := by
  have e1 : sub64 (sub64 S r) sizeof_BlockHeader = S - r - 24 := by
    unfold sub64 sizeof_BlockHeader SIZE_MOD
    omega
  have e2 : add64 (add64 b sizeof_BlockHeader) r = b + 24 + r := by
    unfold add64 sizeof_BlockHeader SIZE_MOD
    omega
  have hc : S - r - 24 > sizeof_BlockHeader := by
    unfold sizeof_BlockHeader
    omega
  unfold split_block
  rw [rd_size_ok st b hv0, Res.ok_bind, hS]
  simp only [e1, e2, hc, if_true]
  simp only [wr_size_ok, wr_next_ok, wr_free_ok, rd_next_ok, hv0, hv8, hv16, hn0, hn8, hn16,
    write_valid, set_free_valid, Res.ok_bind]
  rfl
/-- The six header words after the stores of `split_block`, and every other
word of memory. -/
theorem split_stores_mem (st : State) (b r rem : Nat) (hr : r < 2 ^ 64)
    (hrem : rem < 2 ^ 64) (hnb : b + 24 + r < 2 ^ 64) (hnx : st.mem (b + 8) < 2 ^ 64) :
    (split_stores st b r (b + 24 + r) rem).mem b = r ∧
    (split_stores st b r (b + 24 + r) rem).mem (b + 8) = b + 24 + r ∧
    (split_stores st b r (b + 24 + r) rem).mem (b + 16) % 2 ^ 32 = 0 ∧
    (split_stores st b r (b + 24 + r) rem).mem (b + 24 + r) = rem ∧
    (split_stores st b r (b + 24 + r) rem).mem (b + 24 + r + 8) = st.mem (b + 8) ∧
    (split_stores st b r (b + 24 + r) rem).mem (b + 24 + r + 16) % 2 ^ 32 = 1 ∧
    ∀ x, x ≠ b → x ≠ b + 8 → x ≠ b + 16 → x ≠ b + 24 + r → x ≠ b + 24 + r + 8 →
      x ≠ b + 24 + r + 16 → (split_stores st b r (b + 24 + r) rem).mem x = st.mem x := by
  have m1 : r % SIZE_MOD = r := Nat.mod_eq_of_lt hr
  have m2 : rem % SIZE_MOD = rem := Nat.mod_eq_of_lt hrem
  have m3 : (b + 24 + r) % SIZE_MOD = b + 24 + r := Nat.mod_eq_of_lt hnb
  have m4 : st.mem (b + 8) % SIZE_MOD = st.mem (b + 8) := Nat.mod_eq_of_lt hnx
  have f0 : ∀ w : Nat, (w / 2 ^ 32 * 2 ^ 32 + 0 % 2 ^ 32) % SIZE_MOD % 2 ^ 32 = 0 := by
    intro w
    unfold SIZE_MOD
    omega
  have f1 : ∀ w : Nat, (w / 2 ^ 32 * 2 ^ 32 + 1 % 2 ^ 32) % SIZE_MOD % 2 ^ 32 = 1 := by
    intro w
    unfold SIZE_MOD
    omega
  refine ⟨?_, ?_, ?_, ?_, ?_, ?_, ?_⟩
  · simp (disch := omega) only [split_stores, State.set_free, write_mem_same, write_mem_other]
    exact m1
  · simp (disch := omega) only [split_stores, State.set_free, write_mem_same, write_mem_other]
    exact m3
  · simp (disch := omega) only [split_stores, State.set_free, write_mem_same, write_mem_other]
    exact f0 _
  · simp (disch := omega) only [split_stores, State.set_free, write_mem_same, write_mem_other]
    exact m2
  · simp (disch := omega) only [split_stores, State.set_free, write_mem_same, write_mem_other]
    exact m4
  · simp (disch := omega) only [split_stores, State.set_free, write_mem_same, write_mem_other]
    exact f1 _
  · intro x h1 h2 h3 h4 h5 h6
    simp (disch := omega) only [split_stores, State.set_free, write_mem_other]
/-- Placement in a block whose remainder exceeds one header: the block is
split and its first part handed out. -/
theorem umalloc_place_split (st : State) (b r S base len : Nat)
    (hb0 : b ≠ 0) (hb8 : b % 8 = 0) (hr8 : r % 8 = 0)
    (hm : (base, len) ∈ st.mapped) (hlo : base ≤ b) (hhi : b + 24 + S ≤ base + len)
    (h64 : base + len < 2 ^ 64) (hS : rd_size st b = Res.ok S) (hgt : r + 48 < S) :
    umalloc_place st b r
      = Res.ok ((split_stores st b r (b + 24 + r) (S - r - 24)).set_free b 0, b + 24) := by
  have hv0 : st.valid b = true := valid_of_region st base len b hm hb8 hlo (by omega)
  have hv8 : st.valid (b + 8) = true :=
    valid_of_region st base len (b + 8) hm (by omega) (by omega) (by omega)
  have hv16 : st.valid (b + 16) = true :=
    valid_of_region st base len (b + 16) hm (by omega) (by omega) (by omega)
  have hn0 : st.valid (b + 24 + r) = true :=
    valid_of_region st base len (b + 24 + r) hm (by omega) (by omega) (by omega)
  have hn8 : st.valid (b + 24 + r + 8) = true :=
    valid_of_region st base len (b + 24 + r + 8) hm (by omega) (by omega) (by omega)
  have hn16 : st.valid (b + 24 + r + 16) = true :=
    valid_of_region st base len (b + 24 + r + 16) hm (by omega) (by omega) (by omega)
  have hmem : st.mem b = S := by
    rw [rd_size_ok st b hv0] at hS
    injection hS
  have e1 : add64 r BLOCK_SIZE = r + 24 := by
    rw [BLOCK_SIZE_eq]
    unfold add64 SIZE_MOD
    omega
  have e2 : add64 b BLOCK_SIZE = b + 24 := by
    rw [BLOCK_SIZE_eq]
    unfold add64 SIZE_MOD
    omega
  have hge : S ≥ r + 24 := by omega
  unfold umalloc_place
  rw [if_neg hb0, e1, e2, hS, Res.ok_bind, if_pos hge,
    split_block_eq st b r S hv0 hv8 hv16 hn0 hn8 hn16 hmem hgt (by omega), Res.ok_bind]
  show (wr_free _ b 0 >>= _) = _
  rw [wr_free_ok (split_stores st b r (b + 24 + r) (S - r - 24)) b 0 hv16, Res.ok_bind]
  rfl

/-- Placement in a block whose remainder does not exceed one header: the
whole block is handed out and only its flag is stored. -/
theorem umalloc_place_whole (st : State) (b r S base len : Nat)
    (hb0 : b ≠ 0) (hb8 : b % 8 = 0)
    (hm : (base, len) ∈ st.mapped) (hlo : base ≤ b) (hhi : b + 24 + S ≤ base + len)
    (h64 : base + len < 2 ^ 64) (hS : rd_size st b = Res.ok S) (hfit : r ≤ S)
    (hle : S ≤ r + 48) :
    umalloc_place st b r = Res.ok (st.set_free b 0, b + 24) := by
  have hv0 : st.valid b = true := valid_of_region st base len b hm hb8 hlo (by omega)
  have hv16 : st.valid (b + 16) = true :=
    valid_of_region st base len (b + 16) hm (by omega) (by omega) (by omega)
  have e1 : add64 r BLOCK_SIZE = r + 24 := by
    rw [BLOCK_SIZE_eq]
    unfold add64 SIZE_MOD
    omega
  have e2 : add64 b BLOCK_SIZE = b + 24 := by
    rw [BLOCK_SIZE_eq]
    unfold add64 SIZE_MOD
    omega
  unfold umalloc_place
  rw [if_neg hb0, e1, e2, hS, Res.ok_bind]
  by_cases hge : S ≥ r + 24
  · have e3 : sub64 (sub64 S r) sizeof_BlockHeader = S - r - 24 := by
      unfold sub64 sizeof_BlockHeader SIZE_MOD
      omega
    have hc : ¬ S - r - 24 > sizeof_BlockHeader := by
      unfold sizeof_BlockHeader
      omega
    have hsplit : split_block st b r = Res.ok st := by
      unfold split_block
      rw [hS, Res.ok_bind]
      simp only [e3, hc, if_false]
      rfl
    rw [if_pos hge, hsplit, Res.ok_bind]
    show (wr_free _ b 0 >>= _) = _
    rw [wr_free_ok _ b 0 hv16, Res.ok_bind]
    rfl
  · rw [if_neg hge]
    show (wr_free _ b 0 >>= _) = _
    rw [wr_free_ok _ b 0 hv16, Res.ok_bind]
    rfl
/-- C20 (counterexample): after `umeminit(4096, FIRST_FIT)` the only block has
size S = 4072; `umalloc(4024)` has r = 4024, so S = r + 48 > r + 24, yet the
block is not split: the pointer returned is the payload of the head block and
the dump still shows one block of size 4072, now allocated. -/
theorem umalloc_keeps_block_whole_at_two_headers :
    (do
      let (st, r0) ← umeminit host State.start 4096 FIRST_FIT
      let before ← umemdump run_fuel st
      let (st, p) ← umalloc run_fuel st 4024
      let after ← umemdump run_fuel st
      pure (r0, rebase 4096000 before, p, rebase 4096000 after))
    = Res.ok (0, [{ addr := 0, size := 4072, free := 1 }], 4096024,
        [{ addr := 0, size := 4072, free := 0 }]) := by
  decide

/-- C21 (counterexample): after `umeminit(4096, NEXT_FIT)` and three
allocations of 8 bytes, the last search returned the block X at offset 64.
The first block (Y, offset 0) and then X are released; the directory is
(0, 8, free), (32, 8, used), (64, 4008, free), so X is the tail and its
successor in cyclic order is the head Y, and both qualify for 8 bytes.
The next `umalloc(8)` returns the payload of X (offset 88), not that of Y
(offset 24): the search starts at X itself. -/
theorem nextfit_search_starts_at_last_returned_block :
    (do
      let (st, r0) ← umeminit host State.start 4096 NEXT_FIT
      let (st, y) ← umalloc run_fuel st 8
      let (st, _) ← umalloc run_fuel st 8
      let (st, x) ← umalloc run_fuel st 8
      let (st, r1) ← ufree run_fuel st y
      let (st, r2) ← ufree run_fuel st x
      let before ← umemdump run_fuel st
      let (st, p) ← umalloc run_fuel st 8
      pure ([r0, r1, r2], [y, x, p].map (fun q => q - st.heap_list),
        rebase st.heap_list before))
    = Res.ok ([0, 0, 0], [24, 88, 88],
        [{ addr := 0, size := 8, free := 1 },
         { addr := 32, size := 8, free := 0 },
         { addr := 64, size := 4008, free := 1 }]) := by
  decide

/-- C22 (fails): after `umeminit(4096, NEXT_FIT)` and `umalloc(8)`, a second
`umeminit(4096, NEXT_FIT)` returns 0 and maps a new arena at another address,
with `next_fit_ptr` at its head; the first `umalloc(8)` after it returns
offset 56 of the old arena, not the payload of the new head block, and the
directory of the new arena is still one free block of 4072 bytes. -/
theorem reinit_leaves_nextfit_cursor_in_old_arena :
    (do
      let (st, r0) ← umeminit host State.start 4096 NEXT_FIT
      let old := st.heap_list
      let (st, a) ← umalloc run_fuel st 8
      let (st, r1) ← umeminit host st 4096 NEXT_FIT
      let (st, p) ← umalloc run_fuel st 8
      let after ← umemdump run_fuel st
      pure ([r0, r1], [old, st.heap_list, st.next_fit_ptr, a, p],
        rebase st.heap_list after))
    = Res.ok ([0, 0], [4096000, 272531456, 272531456, 4096024, 4096056],
        [{ addr := 0, size := 4072, free := 1 }]) := by
  decide

/-- C24 (fails beyond 1 MiB): after `umeminit(2097152, FIRST_FIT)` and
`umalloc(1048576)` the directory is (0, 1048576, used), (1048600, 1048528,
free); `p = umalloc(8)` succeeds at offset 1048624, `ufree(p)` returns -1, and
the directory is then (0, 1048576, used), (1048600, 8, used),
(1048632, 1048496, free): it is not restored. -/
theorem firstfit_allocate_release_does_not_restore_directory :
    (do
      let (st, r0) ← umeminit host State.start 2097152 FIRST_FIT
      let (st, _) ← umalloc run_fuel st 1048576
      let before ← umemdump run_fuel st
      let (st, p) ← umalloc run_fuel st 8
      let (st, r1) ← ufree run_fuel st p
      let after ← umemdump run_fuel st
      pure ([r0, r1], p - st.heap_list, rebase st.heap_list before,
        rebase st.heap_list after))
    = Res.ok ([0, -1], 1048624,
        [{ addr := 0, size := 1048576, free := 0 },
         { addr := 1048600, size := 1048528, free := 1 }],
        [{ addr := 0, size := 1048576, free := 0 },
         { addr := 1048600, size := 8, free := 0 },
         { addr := 1048632, size := 1048496, free := 1 }]) := by
  decide

/-! ## Support lemmas: the block a search returns passed the test -/

/-- A passed test: the flag read is non-zero and the size read is enough. -/
theorem fits_true {st : State} {b s : Nat} (h : fits st b s = Res.ok true) :
    ∃ f S, rd_free st b = Res.ok f ∧ f ≠ 0 ∧ rd_size st b = Res.ok S ∧ s ≤ S := by
  unfold fits at h
  obtain ⟨f, hf, h⟩ := Res.bind_eq_ok h
  by_cases h0 : f = 0
  · rw [if_pos h0] at h
    injection h with h
    exact Bool.noConfusion h
  · rw [if_neg h0] at h
    obtain ⟨S, hS, h⟩ := Res.bind_eq_ok h
    injection h with h
    exact ⟨f, S, hf, h0, hS, of_decide_eq_true h⟩

theorem first_fit_fits : ∀ (fuel : Nat) (st : State) (s cur b : Nat),
    find_first_fit_loop fuel st s cur = Res.ok b → b ≠ 0 → fits st b s = Res.ok true := by
  intro fuel
  induction fuel with
  | zero =>
    intro st s cur b h
    exact Res.noConfusion h
  | succ n ih =>
    intro st s cur b h hb
    unfold find_first_fit_loop at h
    by_cases hc : cur = 0
    · rw [if_pos hc] at h
      injection h with h
      exact absurd h.symm hb
    · rw [if_neg hc] at h
      obtain ⟨ok, hfit, h⟩ := Res.bind_eq_ok h
      cases ok with
      | true =>
        rw [if_pos rfl] at h
        injection h with h
        rw [← h]
        exact hfit
      | false =>
        rw [if_neg Bool.false_ne_true] at h
        obtain ⟨nx, -, h⟩ := Res.bind_eq_ok h
        exact ih st s nx b h hb

theorem best_fit_fits : ∀ (fuel : Nat) (st : State) (s cur best b : Nat),
    find_best_fit_loop fuel st s cur best = Res.ok b →
    (best ≠ 0 → fits st best s = Res.ok true) → b ≠ 0 → fits st b s = Res.ok true := by
  intro fuel
  induction fuel with
  | zero =>
    intro st s cur best b h
    exact Res.noConfusion h
  | succ n ih =>
    intro st s cur best b h hbest hb
    unfold find_best_fit_loop at h
    by_cases hc : cur = 0
    · rw [if_pos hc] at h
      injection h with h
      rw [← h]
      exact hbest (by rw [h]; exact hb)
    · rw [if_neg hc] at h
      obtain ⟨ok, hfit, h⟩ := Res.bind_eq_ok h
      cases ok with
      | true =>
        rw [if_pos rfl] at h
        by_cases hb0 : best = 0
        · rw [if_pos hb0] at h
          obtain ⟨nx, -, h⟩ := Res.bind_eq_ok h
          exact ih st s nx cur b h (fun _ => hfit) hb
        · rw [if_neg hb0] at h
          obtain ⟨cs, -, h⟩ := Res.bind_eq_ok h
          obtain ⟨bs, -, h⟩ := Res.bind_eq_ok h
          obtain ⟨nx, -, h⟩ := Res.bind_eq_ok h
          refine ih st s nx _ b h ?_ hb
          intro _
          by_cases hlt : cs < bs
          · rw [if_pos hlt]
            exact hfit
          · rw [if_neg hlt]
            exact hbest hb0
      | false =>
        rw [if_neg Bool.false_ne_true] at h
        obtain ⟨nx, -, h⟩ := Res.bind_eq_ok h
        exact ih st s nx best b h hbest hb

theorem worst_fit_fits : ∀ (fuel : Nat) (st : State) (s cur worst b : Nat),
    find_worst_fit_loop fuel st s cur worst = Res.ok b →
    (worst ≠ 0 → fits st worst s = Res.ok true) → b ≠ 0 → fits st b s = Res.ok true := by
  intro fuel
  induction fuel with
  | zero =>
    intro st s cur worst b h
    exact Res.noConfusion h
  | succ n ih =>
    intro st s cur worst b h hworst hb
    unfold find_worst_fit_loop at h
    by_cases hc : cur = 0
    · rw [if_pos hc] at h
      injection h with h
      rw [← h]
      exact hworst (by rw [h]; exact hb)
    · rw [if_neg hc] at h
      obtain ⟨ok, hfit, h⟩ := Res.bind_eq_ok h
      cases ok with
      | true =>
        rw [if_pos rfl] at h
        by_cases hb0 : worst = 0
        · rw [if_pos hb0] at h
          obtain ⟨nx, -, h⟩ := Res.bind_eq_ok h
          exact ih st s nx cur b h (fun _ => hfit) hb
        · rw [if_neg hb0] at h
          obtain ⟨cs, -, h⟩ := Res.bind_eq_ok h
          obtain ⟨ws, -, h⟩ := Res.bind_eq_ok h
          obtain ⟨nx, -, h⟩ := Res.bind_eq_ok h
          refine ih st s nx _ b h ?_ hb
          intro _
          by_cases hlt : cs > ws
          · rw [if_pos hlt]
            exact hfit
          · rw [if_neg hlt]
            exact hworst hb0
      | false =>
        rw [if_neg Bool.false_ne_true] at h
        obtain ⟨nx, -, h⟩ := Res.bind_eq_ok h
        exact ih st s nx worst b h hworst hb

theorem next_fit_fits : ∀ (fuel : Nat) (st : State) (s start next b nx : Nat),
    find_next_fit_loop fuel st s start next = Res.ok (b, nx) → b ≠ 0 →
    fits st b s = Res.ok true := by
  intro fuel
  induction fuel with
  | zero =>
    intro st s start next b nx h
    exact Res.noConfusion h
  | succ n ih =>
    intro st s start next b nx h hb
    unfold find_next_fit_loop at h
    by_cases hc : next = 0
    · rw [if_pos hc] at h
      injection h with h
      injection h with h1 h2
      exact absurd h1.symm hb
    · rw [if_neg hc] at h
      obtain ⟨ok, hfit, h⟩ := Res.bind_eq_ok h
      cases ok with
      | true =>
        rw [if_pos rfl] at h
        injection h with h
        injection h with h1 h2
        rw [← h1]
        exact hfit
      | false =>
        rw [if_neg Bool.false_ne_true] at h
        obtain ⟨x, -, h⟩ := Res.bind_eq_ok h
        obtain ⟨y, hy⟩ : ∃ y, (if x = 0 then st.heap_list else x) = y := ⟨_, rfl⟩
        dsimp only at h
        rw [hy] at h
        by_cases hys : y = start
        · rw [if_pos hys] at h
          injection h with h
          injection h with h1 h2
          exact absurd h1.symm hb
        · rw [if_neg hys] at h
          exact ih st s start y b nx h hb

/-- Whatever the strategy, the search changes at most the cursor, and a block
it returns passed the test `free && size >= s`. -/
theorem umalloc_search_fits {fuel : Nat} {st st1 : State} {s b : Nat}
    (h : umalloc_search fuel st s = some (Res.ok (st1, b))) :
    (∃ c, st1 = { st with next := c }) ∧ (b ≠ 0 → fits st b s = Res.ok true) := by
  unfold umalloc_search at h
  split at h
  · injection h with h
    obtain ⟨x, hx, h⟩ := Res.bind_eq_ok h
    injection h with h
    injection h with h1 h2
    rw [← h1, ← h2]
    exact ⟨⟨st.next, rfl⟩, fun hb =>
      best_fit_fits fuel st s st.heap_list 0 x hx (fun h0 => absurd rfl h0) hb⟩
  · split at h
    · injection h with h
      obtain ⟨x, hx, h⟩ := Res.bind_eq_ok h
      injection h with h
      injection h with h1 h2
      rw [← h1, ← h2]
      exact ⟨⟨st.next, rfl⟩, fun hb =>
        worst_fit_fits fuel st s st.heap_list 0 x hx (fun h0 => absurd rfl h0) hb⟩
    · split at h
      · injection h with h
        obtain ⟨x, hx, h⟩ := Res.bind_eq_ok h
        injection h with h
        injection h with h1 h2
        rw [← h1, ← h2]
        exact ⟨⟨st.next, rfl⟩, fun hb => first_fit_fits fuel st s st.heap_list x hx hb⟩
      · split at h
        · injection h with h
          unfold find_next_fit at h
          obtain ⟨x, hx, h⟩ := Res.bind_eq_ok h
          obtain ⟨x1, x2⟩ := x
          injection h with h
          injection h with h1 h2
          rw [← h1, ← h2]
          exact ⟨⟨x2, rfl⟩, fun hb => next_fit_fits fuel st s _ _ x1 x2 hx hb⟩
        · exact Option.noConfusion h

/-- The size and flag words of both headers after the stores of `split_block`,
whatever the successor word held. -/
theorem split_stores_sizes (st : State) (b r rem : Nat) (hr : r < 2 ^ 64)
    (hrem : rem < 2 ^ 64) (hnb : b + 24 + r < 2 ^ 64) :
    (split_stores st b r (b + 24 + r) rem).mem b = r ∧
    (split_stores st b r (b + 24 + r) rem).mem (b + 8) = b + 24 + r ∧
    (split_stores st b r (b + 24 + r) rem).mem (b + 24 + r) = rem ∧
    (split_stores st b r (b + 24 + r) rem).mem (b + 24 + r + 16) % 2 ^ 32 = 1 := by
  have m1 : r % SIZE_MOD = r := Nat.mod_eq_of_lt hr
  have m2 : rem % SIZE_MOD = rem := Nat.mod_eq_of_lt hrem
  have m3 : (b + 24 + r) % SIZE_MOD = b + 24 + r := Nat.mod_eq_of_lt hnb
  have f1 : ∀ w : Nat, (w / 2 ^ 32 * 2 ^ 32 + 1 % 2 ^ 32) % SIZE_MOD % 2 ^ 32 = 1 := by
    intro w
    unfold SIZE_MOD
    omega
  refine ⟨?_, ?_, ?_, ?_⟩
  · simp (disch := omega) only [split_stores, State.set_free, write_mem_same, write_mem_other]
    exact m1
  · simp (disch := omega) only [split_stores, State.set_free, write_mem_same, write_mem_other]
    exact m3
  · simp (disch := omega) only [split_stores, State.set_free, write_mem_same, write_mem_other]
    exact m2
  · simp (disch := omega) only [split_stores, State.set_free, write_mem_same, write_mem_other]
    exact f1 _

/-- The successor word of the new header after the stores of `split_block`:
the successor word of the block, as a 64-bit value. -/
theorem split_stores_next (st : State) (b r rem : Nat) :
    (split_stores st b r (b + 24 + r) rem).mem (b + 24 + r + 8) = st.mem (b + 8) % 2 ^ 64 := by
  simp (disch := omega) only [split_stores, State.set_free, write_mem_same, write_mem_other]
  rfl

/-! ## Support lemmas: what a placement that returned did -/

theorem wr_free_eq_ok {st st' : State} {b v : Nat} (h : wr_free st b v = Res.ok st') :
    st.valid (b + 16) = true ∧ st' = st.set_free b v := by
  unfold wr_free at h
  obtain ⟨w, hw, h⟩ := Res.bind_eq_ok h
  obtain ⟨hv, hwm⟩ := load64_eq_ok hw
  obtain ⟨-, hst⟩ := store64_eq_ok h
  rw [hwm] at hst
  exact ⟨hv, hst⟩

/-- A `split_block` call that returned, on a block whose remainder exceeds one
header and whose end does not wrap: it performed its stores, and the words of
the new header are served. -/
theorem split_block_inv {st s2 : State} {b r S : Nat}
    (hS : rd_size st b = Res.ok S) (hgt : r + 48 < S) (h64 : b + 24 + S < 2 ^ 64)
    (h : split_block st b r = Res.ok s2) :
    s2 = split_stores st b r (b + 24 + r) (S - r - 24) ∧ st.valid (b + 8) = true ∧
    st.valid (b + 24 + r) = true ∧ st.valid (b + 24 + r + 16) = true ∧
    st.valid (b + 24 + r + 8) = true := by
  have e1 : sub64 (sub64 S r) sizeof_BlockHeader = S - r - 24 := by
    unfold sub64 sizeof_BlockHeader SIZE_MOD
    omega
  have e2 : add64 (add64 b sizeof_BlockHeader) r = b + 24 + r := by
    unfold add64 sizeof_BlockHeader SIZE_MOD
    omega
  have hc : S - r - 24 > sizeof_BlockHeader := by
    unfold sizeof_BlockHeader
    omega
  unfold split_block at h
  rw [hS, Res.ok_bind] at h
  simp only [e1, e2, hc, if_true] at h
  obtain ⟨t1, h1, h⟩ := Res.bind_eq_ok h
  obtain ⟨t2, h2, h⟩ := Res.bind_eq_ok h
  obtain ⟨n1, h3, h⟩ := Res.bind_eq_ok h
  obtain ⟨t3, h4, h⟩ := Res.bind_eq_ok h
  obtain ⟨t4, h5, h⟩ := Res.bind_eq_ok h
  obtain ⟨t5, h6, h⟩ := Res.bind_eq_ok h
  obtain ⟨n2, h7, h⟩ := Res.bind_eq_ok h
  obtain ⟨t6, h8, h⟩ := Res.bind_eq_ok h
  obtain ⟨v1, e1'⟩ := store64_eq_ok h1
  obtain ⟨v2, e2'⟩ := wr_free_eq_ok h2
  obtain ⟨v3, e3'⟩ := load64_eq_ok h3
  obtain ⟨v4, e4'⟩ := store64_eq_ok h4
  obtain ⟨-, e5'⟩ := store64_eq_ok h5
  obtain ⟨-, e6'⟩ := wr_free_eq_ok h6
  obtain ⟨-, e7'⟩ := load64_eq_ok h7
  obtain ⟨-, e8'⟩ := store64_eq_ok h8
  obtain ⟨-, e9'⟩ := store64_eq_ok h
  subst e1' e2' e3' e4' e5' e6' e7' e8'
  exact ⟨e9', v3, v1, v2, v4⟩

/-- A placement that returned, in a block that is large enough and whose end
does not wrap: it split the block when the remainder exceeds one header, and
granted it whole otherwise. -/
theorem umalloc_place_inv {st st' : State} {b r S p : Nat} (hb0 : b ≠ 0)
    (hS : rd_size st b = Res.ok S) (hfit : r ≤ S) (h64 : b + 24 + S < 2 ^ 64)
    (hok : umalloc_place st b r = Res.ok (st', p)) :
    p = b + 24 ∧ st.valid b = true ∧ st.valid (b + 16) = true ∧
    ((r + 48 < S ∧ st' = (split_stores st b r (b + 24 + r) (S - r - 24)).set_free b 0 ∧
        st.valid (b + 8) = true ∧ st.valid (b + 24 + r) = true ∧
        st.valid (b + 24 + r + 16) = true ∧ st.valid (b + 24 + r + 8) = true) ∨
     (S ≤ r + 48 ∧ st' = st.set_free b 0)) := by
  have hv0 : st.valid b = true := (load64_eq_ok hS).1
  have e1 : add64 r BLOCK_SIZE = r + 24 := by
    rw [BLOCK_SIZE_eq]
    unfold add64 SIZE_MOD
    omega
  have e2 : add64 b BLOCK_SIZE = b + 24 := by
    rw [BLOCK_SIZE_eq]
    unfold add64 SIZE_MOD
    omega
  unfold umalloc_place at hok
  rw [if_neg hb0, e1, e2, hS, Res.ok_bind] at hok
  dsimp only at hok
  have key : ∀ s2 : State, (wr_free s2 b 0 >>= fun s3 =>
      (pure (s3, b + 24) : Res (State × Nat))) = Res.ok (st', p) →
      p = b + 24 ∧ s2.valid (b + 16) = true ∧ st' = s2.set_free b 0 := by
    intro s2 h
    obtain ⟨s3, hfree, h⟩ := Res.bind_eq_ok h
    obtain ⟨hv16', hs3⟩ := wr_free_eq_ok hfree
    exact ⟨(congrArg Prod.snd (Res.ok.inj h)).symm, hv16',
      (congrArg Prod.fst (Res.ok.inj h)).symm.trans hs3⟩
  by_cases hge : S ≥ r + 24
  · rw [if_pos hge] at hok
    obtain ⟨s2, hsplit, hok⟩ := Res.bind_eq_ok hok
    obtain ⟨hp, hv16', hst'⟩ := key s2 hok
    by_cases hgt : r + 48 < S
    · obtain ⟨hs2, v8, vn0, vn16, vn8⟩ := split_block_inv hS hgt h64 hsplit
      rw [hs2] at hst' hv16'
      exact ⟨hp, hv0, hv16', Or.inl ⟨hgt, hst', v8, vn0, vn16, vn8⟩⟩
    · have e3 : sub64 (sub64 S r) sizeof_BlockHeader = S - r - 24 := by
        unfold sub64 sizeof_BlockHeader SIZE_MOD
        omega
      have hc : ¬ S - r - 24 > sizeof_BlockHeader := by
        unfold sizeof_BlockHeader
        omega
      have hsb : split_block st b r = Res.ok st := by
        unfold split_block
        rw [hS, Res.ok_bind]
        simp only [e3, hc, if_false]
        rfl
      rw [hsb] at hsplit
      have hs2 : s2 = st := (Res.ok.inj hsplit).symm
      rw [hs2] at hst' hv16'
      exact ⟨hp, hv0, hv16', Or.inr ⟨by omega, hst'⟩⟩
  · rw [if_neg hge] at hok
    obtain ⟨s2, hpure, hok⟩ := Res.bind_eq_ok hok
    obtain ⟨hp, hv16', hst'⟩ := key s2 hok
    have hs2 : s2 = st := (Res.ok.inj hpure).symm
    rw [hs2] at hst' hv16'
    exact ⟨hp, hv0, hv16', Or.inr ⟨by omega, hst'⟩⟩

/-- Granted sizes: let `umalloc(n)` with `0 < n ≤ 2^64 - 8` return a non-null
pointer `p`, where the search of the active strategy (any of the four)
selected the block `b` of size `S` (with `b + 24 + S` below `2^64`), and let
`r` be `n` rounded up to a multiple of 8.  Then `S ≥ r`, `p = b + 24`, the
block is marked allocated, and for its size `G` after the call: if
`S - r - 24 > 24` the block was split (`G = r`, followed by a new free block
of size `S - r - 24` at `b + 24 + r`); otherwise it was granted whole
(`G = S`, successor unchanged); in both cases `r ≤ G ≤ r + 48`.  Only for `S`
a multiple of 8 is the split condition the same as `S ≥ r + 56`. -/
theorem umalloc_grants_at_most_two_headers_more (fuel : Nat) (st st1 st' : State)
    (n b S p : Nat)
    (hn0 : 0 < n) (hn : n ≤ 2 ^ 64 - 8)
    (hsearch : umalloc_search fuel st (ALIGN n) = some (Res.ok (st1, b)))
    (hok : umalloc fuel st n = Res.ok (st', p)) (hp : p ≠ 0)
    (hS : rd_size st1 b = Res.ok S) (h64 : b + 24 + S < 2 ^ 64) :
    (n + 7) / 8 * 8 ≤ S ∧ p = b + 24 ∧ rd_free st' b = Res.ok 0 ∧
    ∃ G, rd_size st' b = Res.ok G ∧
      (24 < S - (n + 7) / 8 * 8 - 24 →
        G = (n + 7) / 8 * 8 ∧ rd_next st' b = Res.ok (b + 24 + (n + 7) / 8 * 8) ∧
        rd_size st' (b + 24 + (n + 7) / 8 * 8) = Res.ok (S - (n + 7) / 8 * 8 - 24) ∧
        rd_free st' (b + 24 + (n + 7) / 8 * 8) = Res.ok 1) ∧
      (¬ 24 < S - (n + 7) / 8 * 8 - 24 → G = S ∧ rd_next st' b = rd_next st1 b) ∧
      (n + 7) / 8 * 8 ≤ G ∧ G ≤ (n + 7) / 8 * 8 + 48 ∧
      (S % 8 = 0 → (24 < S - (n + 7) / 8 * 8 - 24 ↔ (n + 7) / 8 * 8 + 56 ≤ S)) := by
  have hA : ALIGN n = (n + 7) / 8 * 8 := by
    rw [ALIGN_eq, Nat.mod_eq_of_lt (by omega)]
  obtain ⟨r, hr⟩ : ∃ r, (n + 7) / 8 * 8 = r := ⟨_, rfl⟩
  rw [hr] at hA
  rw [hr]
  rw [hA] at hsearch
  have hr8 : r % 8 = 0 := by omega
  have hguard : ¬ (st.heap_list = 0 ∨ n = 0) := by
    rintro (h | h)
    · rw [umalloc_eq, if_pos (Or.inl h)] at hok
      exact hp (congrArg Prod.snd (Res.ok.inj hok)).symm
    · omega
  have hum : umalloc fuel st n = umalloc_place st1 b r := by
    rw [umalloc_eq, if_neg hguard, hA, hsearch]
    rfl
  rw [hum] at hok
  have hb0 : b ≠ 0 := by
    intro h0
    unfold umalloc_place at hok
    rw [if_pos h0] at hok
    exact hp (congrArg Prod.snd (Res.ok.inj hok)).symm
  obtain ⟨⟨c, hst1⟩, hfits⟩ := umalloc_search_fits hsearch
  obtain ⟨f, S0, -, -, hS0, hfit0⟩ := fits_true (hfits hb0)
  have hSS : S0 = S := by
    have hS' : rd_size st b = Res.ok S := by
      rw [hst1] at hS
      exact hS
    rw [hS0] at hS'
    exact Res.ok.inj hS'
  rw [hSS] at hfit0
  have hmemS : st1.mem b = S := (load64_eq_ok hS).2.symm
  obtain ⟨hpb, hv0, hv16, hcase⟩ := umalloc_place_inv hb0 hS hfit0 h64 hok
  rcases hcase with ⟨hgt, hst', hv8, hn0v, hn16v, -⟩ | ⟨hle, hst'⟩
  · obtain ⟨m0, m8, mn0, mn16⟩ :=
      split_stores_sizes st1 b r (S - r - 24) (by omega) (by omega) (by omega)
    have hval : ∀ x, ((split_stores st1 b r (b + 24 + r) (S - r - 24)).set_free b 0).valid x
        = st1.valid x := fun _ => rfl
    rw [hst']
    refine ⟨hfit0, hpb, ?_, r, ?_, fun _ => ⟨rfl, ?_, ?_, ?_⟩, fun h => absurd (by omega) h,
      le_refl _, by omega, fun _ => by omega⟩
    · rw [rd_free_ok _ b ((hval _).trans hv16), set_free_mem_flag _ _ _ (by decide)]
    · rw [rd_size_ok _ b ((hval _).trans hv0), set_free_mem_other _ _ _ _ (by omega), m0]
    · rw [rd_next_ok _ b ((hval _).trans hv8), set_free_mem_other _ _ _ _ (by omega), m8]
    · rw [rd_size_ok _ (b + 24 + r) ((hval _).trans hn0v),
        set_free_mem_other _ _ _ _ (by omega), mn0]
    · rw [rd_free_ok _ (b + 24 + r) ((hval _).trans hn16v),
        set_free_mem_other _ _ _ _ (by omega), mn16]
  · have hval : ∀ x, (st1.set_free b 0).valid x = st1.valid x := fun _ => rfl
    rw [hst']
    refine ⟨hfit0, hpb, ?_, S, ?_, fun h => absurd h (by omega), fun _ => ⟨rfl, ?_⟩,
      hfit0, by omega, fun _ => by omega⟩
    · rw [rd_free_ok _ b ((hval _).trans hv16), set_free_mem_flag _ _ _ (by decide)]
    · rw [rd_size_ok _ b ((hval _).trans hv0), set_free_mem_other _ _ _ _ (by omega), hmemS]
    · unfold rd_next load64
      rw [hval, set_free_mem_other _ _ _ _ (by omega)]

/-- Granted sizes at a concrete input: `umalloc(8)` on the one free block of
size 4072 left by `umeminit(4096, FIRST_FIT)`; the block is split and 8 bytes
are granted. -/
theorem umalloc_grants_at_most_two_headers_more_witness :
    (umalloc_search run_fuel initialized_4096 (ALIGN 8)
        = some (Res.ok (initialized_4096, 4096000)) ∧
      umalloc run_fuel initialized_4096 8 = Res.ok (allocated_8, 4096024) ∧
      rd_size initialized_4096 4096000 = Res.ok 4072) ∧
    ((8 + 7) / 8 * 8 ≤ 4072 ∧ 4096024 = 4096000 + 24 ∧
      rd_free allocated_8 4096000 = Res.ok 0 ∧
      ∃ G, rd_size allocated_8 4096000 = Res.ok G ∧
        (24 < 4072 - (8 + 7) / 8 * 8 - 24 →
          G = (8 + 7) / 8 * 8 ∧
          rd_next allocated_8 4096000 = Res.ok (4096000 + 24 + (8 + 7) / 8 * 8) ∧
          rd_size allocated_8 (4096000 + 24 + (8 + 7) / 8 * 8)
            = Res.ok (4072 - (8 + 7) / 8 * 8 - 24) ∧
          rd_free allocated_8 (4096000 + 24 + (8 + 7) / 8 * 8) = Res.ok 1) ∧
        (¬ 24 < 4072 - (8 + 7) / 8 * 8 - 24 →
          G = 4072 ∧ rd_next allocated_8 4096000 = rd_next initialized_4096 4096000) ∧
        (8 + 7) / 8 * 8 ≤ G ∧ G ≤ (8 + 7) / 8 * 8 + 48 ∧
        (4072 % 8 = 0 → (24 < 4072 - (8 + 7) / 8 * 8 - 24 ↔ (8 + 7) / 8 * 8 + 56 ≤ 4072))) :=
  ⟨⟨rfl, rfl, by decide⟩,
    umalloc_grants_at_most_two_headers_more run_fuel initialized_4096 initialized_4096
      allocated_8 8 4096000 4072 4096024 (by decide) (by decide) rfl rfl
      (by decide) (by decide) (by decide)⟩

/-- C20 (amended): let `umalloc(n)`, with `0 < n ≤ 2^64 - 8` and `heap_list`
not `NULL`, select the block `b` (not `NULL`) of size `S` with successor
`nx`, where `b + 24 + S` is below `2^64`, and let `r` be `n` rounded up to a
multiple of 8.  Then `S ≥ r`.  Whenever the call returns, it returns `b + 24`
and: if `S > r + 48` (the remainder `S - r - 24` exceeds one header) the block
was split, its size is `r`, it is marked allocated, its successor is a new
free block at `b + 24 + r` of size `S - r - 24` whose successor is the word
`nx`; if `S ≤ r + 48` the block keeps size `S` and successor `nx` and is
marked allocated.  The call does return when the block lies wholly inside a
mapped region below `2^64`, at a multiple of 8. -/
theorem umalloc_splits_iff_remainder_exceeds_header (fuel : Nat) (st st1 : State)
    (n b S nx : Nat)
    (hinit : st.heap_list ≠ 0) (hn0 : n ≠ 0) (hn : n + 7 < 2 ^ 64)
    (hsearch : umalloc_search fuel st (ALIGN n) = some (Res.ok (st1, b)))
    (hb0 : b ≠ 0)
    (hS : rd_size st1 b = Res.ok S) (hnx : rd_next st1 b = Res.ok nx)
    (h64 : b + 24 + S < 2 ^ 64) :
    (n + 7) / 8 * 8 ≤ S ∧
    (∀ st' p, umalloc fuel st n = Res.ok (st', p) →
      p = b + 24 ∧
      ((n + 7) / 8 * 8 + 48 < S →
        rd_size st' b = Res.ok ((n + 7) / 8 * 8) ∧ rd_free st' b = Res.ok 0 ∧
        rd_next st' b = Res.ok (b + 24 + (n + 7) / 8 * 8) ∧
        rd_size st' (b + 24 + (n + 7) / 8 * 8) = Res.ok (S - (n + 7) / 8 * 8 - 24) ∧
        rd_free st' (b + 24 + (n + 7) / 8 * 8) = Res.ok 1 ∧
        rd_next st' (b + 24 + (n + 7) / 8 * 8) = Res.ok (nx % 2 ^ 64)) ∧
      (S ≤ (n + 7) / 8 * 8 + 48 →
        rd_size st' b = Res.ok S ∧ rd_free st' b = Res.ok 0 ∧
        rd_next st' b = Res.ok nx)) ∧
    (∀ base len, (base, len) ∈ st1.mapped → base + len < 2 ^ 64 → b % 8 = 0 → base ≤ b →
      b + 24 + S ≤ base + len → ∃ st', umalloc fuel st n = Res.ok (st', b + 24)) := by
  have hA : ALIGN n = (n + 7) / 8 * 8 := by rw [ALIGN_eq, Nat.mod_eq_of_lt hn]
  obtain ⟨r, hr⟩ : ∃ r, (n + 7) / 8 * 8 = r := ⟨_, rfl⟩
  rw [hr] at hA
  rw [hr]
  rw [hA] at hsearch
  have hr8 : r % 8 = 0 := by omega
  have hguard : ¬ (st.heap_list = 0 ∨ n = 0) := by
    rintro (h | h)
    · exact hinit h
    · exact hn0 h
  have hum : umalloc fuel st n = umalloc_place st1 b r := by
    rw [umalloc_eq, if_neg hguard, hA, hsearch]
    rfl
  obtain ⟨⟨c, hst1⟩, hfits⟩ := umalloc_search_fits hsearch
  obtain ⟨f, S0, -, -, hS0, hfit0⟩ := fits_true (hfits hb0)
  have hSS : S0 = S := by
    have hS' : rd_size st b = Res.ok S := by
      rw [hst1] at hS
      exact hS
    rw [hS0] at hS'
    exact Res.ok.inj hS'
  rw [hSS] at hfit0
  have hmemS : st1.mem b = S := (load64_eq_ok hS).2.symm
  obtain ⟨hv8, hmemnx⟩ := load64_eq_ok hnx
  refine ⟨hfit0, ?_, ?_⟩
  · intro st' p hok
    rw [hum] at hok
    obtain ⟨hpb, hv0, hv16, hcase⟩ := umalloc_place_inv hb0 hS hfit0 h64 hok
    rcases hcase with ⟨hgt, hst', -, hn0v, hn16v, hn8v⟩ | ⟨hle, hst'⟩
    · obtain ⟨m0, m8, mn0, mn16⟩ :=
        split_stores_sizes st1 b r (S - r - 24) (by omega) (by omega) (by omega)
      have mn8 := split_stores_next st1 b r (S - r - 24)
      have hval : ∀ x, ((split_stores st1 b r (b + 24 + r) (S - r - 24)).set_free b 0).valid x
          = st1.valid x := fun _ => rfl
      rw [hst']
      refine ⟨hpb, fun _ => ⟨?_, ?_, ?_, ?_, ?_, ?_⟩, fun hle => absurd hgt (by omega)⟩
      · rw [rd_size_ok _ b ((hval _).trans hv0), set_free_mem_other _ _ _ _ (by omega), m0]
      · rw [rd_free_ok _ b ((hval _).trans hv16), set_free_mem_flag _ _ _ (by decide)]
      · rw [rd_next_ok _ b ((hval _).trans hv8), set_free_mem_other _ _ _ _ (by omega), m8]
      · rw [rd_size_ok _ (b + 24 + r) ((hval _).trans hn0v),
          set_free_mem_other _ _ _ _ (by omega), mn0]
      · rw [rd_free_ok _ (b + 24 + r) ((hval _).trans hn16v),
          set_free_mem_other _ _ _ _ (by omega), mn16]
      · rw [rd_next_ok _ (b + 24 + r) ((hval _).trans hn8v),
          set_free_mem_other _ _ _ _ (by omega), mn8, hmemnx]
    · have hval : ∀ x, (st1.set_free b 0).valid x = st1.valid x := fun _ => rfl
      rw [hst']
      refine ⟨hpb, fun h => absurd h (by omega), fun _ => ⟨?_, ?_, ?_⟩⟩
      · rw [rd_size_ok _ b ((hval _).trans hv0), set_free_mem_other _ _ _ _ (by omega), hmemS]
      · rw [rd_free_ok _ b ((hval _).trans hv16), set_free_mem_flag _ _ _ (by decide)]
      · rw [rd_next_ok _ b ((hval _).trans hv8), set_free_mem_other _ _ _ _ (by omega),
          hmemnx]
  · intro base len hm hbl hb8 hlo hhi
    by_cases hgt : r + 48 < S
    · exact ⟨_, hum.trans
        (umalloc_place_split st1 b r S base len hb0 hb8 hr8 hm hlo hhi hbl hS hgt)⟩
    · exact ⟨_, hum.trans
        (umalloc_place_whole st1 b r S base len hb0 hb8 hm hlo hhi hbl hS hfit0 (by omega))⟩

/-- C20 (amended) at a concrete input: `umalloc(8)` on the one free block of
size 4072 left by `umeminit(4096, FIRST_FIT)`, which is split. -/
theorem umalloc_splits_iff_remainder_exceeds_header_witness :
    (initialized_4096.heap_list ≠ 0 ∧
      umalloc_search run_fuel initialized_4096 (ALIGN 8)
        = some (Res.ok (initialized_4096, 4096000)) ∧
      rd_size initialized_4096 4096000 = Res.ok 4072 ∧
      rd_next initialized_4096 4096000 = Res.ok 0) ∧
    ((8 + 7) / 8 * 8 ≤ 4072 ∧
    (∀ st' p, umalloc run_fuel initialized_4096 8 = Res.ok (st', p) →
      p = 4096000 + 24 ∧
      ((8 + 7) / 8 * 8 + 48 < 4072 →
        rd_size st' 4096000 = Res.ok ((8 + 7) / 8 * 8) ∧ rd_free st' 4096000 = Res.ok 0 ∧
        rd_next st' 4096000 = Res.ok (4096000 + 24 + (8 + 7) / 8 * 8) ∧
        rd_size st' (4096000 + 24 + (8 + 7) / 8 * 8) = Res.ok (4072 - (8 + 7) / 8 * 8 - 24) ∧
        rd_free st' (4096000 + 24 + (8 + 7) / 8 * 8) = Res.ok 1 ∧
        rd_next st' (4096000 + 24 + (8 + 7) / 8 * 8) = Res.ok (0 % 2 ^ 64)) ∧
      (4072 ≤ (8 + 7) / 8 * 8 + 48 →
        rd_size st' 4096000 = Res.ok 4072 ∧ rd_free st' 4096000 = Res.ok 0 ∧
        rd_next st' 4096000 = Res.ok 0)) ∧
    (∀ base len, (base, len) ∈ initialized_4096.mapped → base + len < 2 ^ 64 →
      4096000 % 8 = 0 → base ≤ 4096000 → 4096000 + 24 + 4072 ≤ base + len →
      ∃ st', umalloc run_fuel initialized_4096 8 = Res.ok (st', 4096000 + 24))) :=
  ⟨⟨by decide, rfl, by decide, by decide⟩,
    umalloc_splits_iff_remainder_exceeds_header run_fuel initialized_4096 initialized_4096
      8 4096000 4072 0 (by decide) (by decide) (by decide) rfl (by decide) (by decide)
      (by decide) (by decide)⟩

/-- C25 (fails under NextFit): after `umeminit(4096, NEXT_FIT)`, allocations a, b
of 8 bytes, release of a and b, allocations of 8, 4000 and 24 bytes and release
of the 4000-byte one (the run of C4), the directory holds a free block at
offset 48 of size S = 4049.  `umalloc(4000)` has r = 4000 and selects it:
`S - r - 24 = 25 > 24` holds, `S ≥ r + 56` does not, and the block is split
(4000 bytes granted, a new free block of 25 bytes at offset 4072). -/
theorem nextfit_unaligned_block_split_below_threshold :
    (do
      let (st, r0) ← umeminit host State.start 4096 NEXT_FIT
      let (st, a) ← umalloc run_fuel st 8
      let (st, b) ← umalloc run_fuel st 8
      let (st, r1) ← ufree run_fuel st a
      let (st, r2) ← ufree run_fuel st b
      let (st, _) ← umalloc run_fuel st 8
      let (st, e) ← umalloc run_fuel st 4000
      let (st, _) ← umalloc run_fuel st 24
      let (st, r3) ← ufree run_fuel st e
      let before ← umemdump run_fuel st
      let (st2, p) ← umalloc run_fuel st 4000
      let S ← rd_size st (p - 24)
      let granted ← rd_size st2 (p - 24)
      let after ← umemdump run_fuel st2
      pure ([r0, r1, r2, r3], [p - st.heap_list, S, ALIGN 4000, granted],
        [rebase st.heap_list before, rebase st.heap_list after],
        [decide (S - ALIGN 4000 - 24 > 24), decide (S ≥ ALIGN 4000 + 56)]))
    = Res.ok ([0, 0, 0, 0], [72, 4049, 4000, 4000],
        [[{ addr := 0, size := 24, free := 0 }, { addr := 48, size := 4049, free := 1 }],
         [{ addr := 0, size := 24, free := 0 }, { addr := 48, size := 4000, free := 0 },
          { addr := 4072, size := 25, free := 1 }]],
        [true, false]) := by
  decide

/-! ## Support lemmas: segments of the directory -/

theorem chain_iff_seg (st : State) : ∀ (L : List Line) (b : Nat),
    Chain st b L ↔ ChainSeg st b L 0 := by
  intro L
  induction L with
  | nil => intro b; exact Iff.rfl
  | cons l rest ih =>
    intro b
    constructor
    · rintro ⟨h0, h1, h2, h3, n, h4, h5⟩
      exact ⟨h0, h1, h2, h3, n, h4, (ih n).mp h5⟩
    · rintro ⟨h0, h1, h2, h3, n, h4, h5⟩
      exact ⟨h0, h1, h2, h3, n, h4, (ih n).mpr h5⟩

theorem seg_append (st : State) : ∀ (A B : List Line) (b t : Nat),
    ChainSeg st b (A ++ B) t ↔ ∃ m, ChainSeg st b A m ∧ ChainSeg st m B t := by
  intro A
  induction A with
  | nil =>
    intro B b t
    constructor
    · intro h
      exact ⟨b, rfl, h⟩
    · rintro ⟨m, hm, h⟩
      have hbm : b = m := hm
      rw [hbm]
      exact h
  | cons l rest ih =>
    intro B b t
    constructor
    · rintro ⟨h0, h1, h2, h3, n, h4, h5⟩
      obtain ⟨m, hm, h⟩ := (ih B n t).mp h5
      exact ⟨m, ⟨h0, h1, h2, h3, n, h4, hm⟩, h⟩
    · rintro ⟨m, ⟨h0, h1, h2, h3, n, h4, hm⟩, h⟩
      exact ⟨h0, h1, h2, h3, n, h4, (ih B n t).mpr ⟨m, hm, h⟩⟩

/-- From one address, memory holds at most one directory. -/
theorem seg_functional (st : State) : ∀ (L1 L2 : List Line) (b : Nat),
    ChainSeg st b L1 0 → ChainSeg st b L2 0 → L1 = L2 := by
  intro L1
  induction L1 with
  | nil =>
    intro L2 b h1 h2
    have hb : b = 0 := h1
    cases L2 with
    | nil => rfl
    | cons l rest => exact absurd hb h2.1
  | cons l rest ih =>
    intro L2 b h1 h2
    obtain ⟨h0, ha, hs, hf, n, hn, hrest⟩ := h1
    cases L2 with
    | nil =>
      have hb : b = 0 := h2
      exact absurd hb h0
    | cons l2 rest2 =>
      obtain ⟨-, ha2, hs2, hf2, n2, hn2, hrest2⟩ := h2
      rw [hs] at hs2
      rw [hf] at hf2
      rw [hn] at hn2
      injection hs2 with hs2
      injection hf2 with hf2
      injection hn2 with hn2
      rw [← hn2] at hrest2
      have hl : l = l2 := by
        cases l
        cases l2
        simp only [Line.mk.injEq]
        exact ⟨ha.trans ha2.symm, hs2, hf2⟩
      rw [hl, ih rest2 n hrest hrest2]

/-- The first block of a non-empty segment is at its start address. -/
theorem seg_head {st : State} {l : Line} {rest : List Line} {b t : Nat}
    (h : ChainSeg st b (l :: rest) t) : l.addr = b ∧ b ≠ 0 := ⟨h.2.1, h.1⟩

/-- No two blocks of a directory have the same address. -/
theorem chain_addr_distinct {st : State} {b : Nat} {pre post : List Line} {X : Line}
    (h : ChainSeg st b (pre ++ X :: post) 0) :
    ∀ y, y ∈ pre ++ post → y.addr ≠ X.addr := by
  obtain ⟨m, hpre, hX⟩ := (seg_append st pre (X :: post) b 0).mp h
  have hXm : X.addr = m := (seg_head hX).1
  intro y hy heq
  rcases List.mem_append.mp hy with hy | hy
  · obtain ⟨p1, p2, hp⟩ := List.append_of_mem hy
    rw [hp, List.append_assoc] at h
    obtain ⟨m2, -, hY⟩ := (seg_append st p1 ((y :: p2) ++ X :: post) b 0).mp h
    have hYm : y.addr = m2 := (seg_head hY).1
    have hmm : m2 = m := by rw [← hYm, ← hXm, heq]
    rw [hmm] at hY
    have := seg_functional st _ _ m hY hX
    have hlen := congrArg List.length this
    simp at hlen
    omega
  · obtain ⟨p1, p2, hp⟩ := List.append_of_mem hy
    rw [hp] at hX
    obtain ⟨-, -, -, -, n, -, hrest⟩ := hX
    obtain ⟨m2, -, hY⟩ := (seg_append st p1 (y :: p2) n 0).mp hrest
    have hYm : y.addr = m2 := (seg_head hY).1
    have hmm : m2 = m := by rw [← hYm, ← hXm, heq]
    rw [hmm] at hY
    have hX' := (seg_append st pre (X :: post) b 0).mp h
    obtain ⟨m3, -, hX3⟩ := hX'
    have hm3 : X.addr = m3 := (seg_head hX3).1
    rw [← hm3, hXm] at hX3
    have := seg_functional st _ _ m hY hX3
    have hlen := congrArg List.length this
    rw [hp] at hlen
    simp at hlen
    omega

/-! ## Support lemmas: the scan of `find_next_fit` -/

/-- NextFit over a segment of the directory none of whose later blocks is the
start block: the loop returns the first block of the segment that satisfies
the request, or, when none does, goes on from the successor of the segment
(the head, if the segment ends the directory) unless that is the start
block. -/
theorem next_fit_seg (st : State) (s start : Nat) : ∀ (M : List Line) (cur fuel t : Nat),
    ChainSeg st cur M t → M ≠ [] → (∀ y ∈ M.tail, y.addr ≠ start) → M.length ≤ fuel →
    (∃ a l b, M = a ++ l :: b ∧ l.satisfies s ∧ (∀ x ∈ a, ¬ x.satisfies s) ∧
        find_next_fit_loop fuel st s start cur = Res.ok (l.addr, l.addr)) ∨
    ((∀ x ∈ M, ¬ x.satisfies s) ∧
      find_next_fit_loop fuel st s start cur =
        if (if t = 0 then st.heap_list else t) = start then
          Res.ok (0, if t = 0 then st.heap_list else t)
        else find_next_fit_loop (fuel - M.length) st s start
          (if t = 0 then st.heap_list else t)) := by
  intro M
  induction M with
  | nil =>
    intro cur fuel t _ hne
    exact absurd rfl hne
  | cons l rest ih =>
    intro cur fuel t hch _ htail hlen
    obtain ⟨n, rfl⟩ : ∃ n, fuel = n + 1 := ⟨fuel - 1, by simp at hlen; omega⟩
    obtain ⟨hc, hl, hs, hf, nx, hn, hrest⟩ := hch
    have hlen' : rest.length ≤ n := by simp at hlen; omega
    have hfit := fits_of_fields st cur s l.size l.free hs hf
    rw [find_next_fit_loop, if_neg hc, hfit, Res.ok_bind]
    by_cases hsat : l.free ≠ 0 ∧ s ≤ l.size
    · left
      refine ⟨[], l, rest, rfl, hsat, fun x hx => absurd hx (List.not_mem_nil x), ?_⟩
      rw [decide_eq_true hsat, if_pos rfl, hl]
      rfl
    · rw [decide_eq_false hsat, hn]
      simp only [Res.ok_bind, Bool.false_eq_true, if_false]
      cases rest with
      | nil =>
        have hnt : nx = t := hrest
        right
        refine ⟨?_, ?_⟩
        · intro x hx
          rcases List.mem_cons.mp hx with rfl | hx
          · exact hsat
          · exact absurd hx (List.not_mem_nil x)
        · rw [hnt]
          simp only [List.length_singleton, Nat.add_sub_cancel]
          rfl
      | cons l2 rest2 =>
        have hnx0 : nx ≠ 0 := hrest.1
        have hl2 : l2.addr = nx := hrest.2.1
        have hns : nx ≠ start := by
          rw [← hl2]
          exact htail l2 (List.mem_cons_self _ _)
        rw [if_neg hnx0, if_neg hns]
        have htail' : ∀ y ∈ (l2 :: rest2).tail, y.addr ≠ start := by
          intro y hy
          exact htail y (List.mem_cons_of_mem _ hy)
        rcases ih nx n t hrest (List.cons_ne_nil _ _) htail' hlen' with
          ⟨a, l', b, hM, hsat', hpre, hres⟩ | ⟨hnone, hres⟩
        · left
          refine ⟨l :: a, l', b, by rw [hM]; rfl, hsat', ?_, hres⟩
          intro x hx
          rcases List.mem_cons.mp hx with rfl | hx
          · exact hsat
          · exact hpre x hx
        · right
          refine ⟨?_, ?_⟩
          · intro x hx
            rcases List.mem_cons.mp hx with rfl | hx
            · exact hsat
            · exact hnone x hx
          · rw [hres]
            have e : n + 1 - (l :: l2 :: rest2).length = n - (l2 :: rest2).length := by
              simp only [List.length_cons]
              omega
            rw [e]

/-- C21 (amended): let the dump of the state be the directory `L = pre ++ X ::
post` and let the cursor of `find_next_fit` be at the block `X` (as it is after
a search that returned `X`).  Then the next search examines the blocks in the
cyclic order `X, post, pre` (from `X` itself to the tail, then from the head
to the predecessor of `X`) and returns the first of them that is free with
size at least `s`, leaving the cursor there; when no block of the directory
qualifies it returns `NULL` and leaves the cursor at `X`. -/
theorem find_next_fit_scans_from_cursor_block (st : State) (fuel : Nat)
    (L pre post : List Line) (X : Line) (s : Nat)
    (hdump : umemdump fuel st = Res.ok L) (hL : L = pre ++ X :: post)
    (hcur : st.next = X.addr) (fuel' : Nat) (hfuel : fuel ≤ fuel') :
    (∃ a l b, X :: post ++ pre = a ++ l :: b ∧ l.satisfies s ∧ (∀ x ∈ a, ¬ x.satisfies s) ∧
        find_next_fit fuel' st s = Res.ok ({ st with next := l.addr }, l.addr)) ∨
    ((∀ x ∈ L, ¬ x.satisfies s) ∧ find_next_fit fuel' st s = Res.ok (st, 0)) := by
  obtain ⟨hch, hlen⟩ := chain_of_dump fuel st st.heap_list L hdump
  have hseg := (chain_iff_seg st L st.heap_list).mp hch
  subst hL
  obtain ⟨m, hpre, hX⟩ := (seg_append st pre (X :: post) st.heap_list 0).mp hseg
  obtain ⟨hXm, hm0⟩ := seg_head hX
  have hdist := chain_addr_distinct hseg
  have hnext : st.next = m := hcur.trans hXm
  have hlen2 : pre.length + (post.length + 1) < fuel := by
    simpa using hlen
  have hloop : find_next_fit fuel' st s =
      (find_next_fit_loop fuel' st s m m >>= fun r =>
        (pure ({ st with next := r.2 }, r.1) : Res (State × Nat))) := by
    unfold find_next_fit
    simp only [hnext, if_neg hm0]
  have hself : ({ st with next := m } : State) = st := by
    rw [← hnext]
  have htail1 : ∀ y ∈ (X :: post).tail, y.addr ≠ m := by
    intro y hy
    rw [← hXm]
    exact hdist y (List.mem_append_right _ hy)
  rcases next_fit_seg st s m (X :: post) m fuel' 0 hX (List.cons_ne_nil _ _) htail1
      (by simp only [List.length_cons]; omega) with
    ⟨a, l, b, hM, hsat, hnone, hres⟩ | ⟨hnone1, hres⟩
  · left
    refine ⟨a, l, b ++ pre, ?_, hsat, hnone, ?_⟩
    · rw [hM]
      simp
    · rw [hloop, hres]
      rfl
  · rw [if_pos rfl] at hres
    cases pre with
    | nil =>
      have hh : st.heap_list = m := hpre
      rw [if_pos hh, hh] at hres
      right
      refine ⟨fun x hx => hnone1 x (by simpa using hx), ?_⟩
      rw [hloop, hres]
      show Res.ok (({ st with next := m } : State), 0) = Res.ok (st, 0)
      rw [hself]
    | cons p ps =>
      obtain ⟨hpa, -⟩ := seg_head hpre
      have hhm : st.heap_list ≠ m := by
        rw [← hpa, ← hXm]
        exact hdist p (List.mem_append_left _ (List.mem_cons_self _ _))
      rw [if_neg hhm] at hres
      have htail2 : ∀ y ∈ (p :: ps).tail, y.addr ≠ m := by
        intro y hy
        rw [← hXm]
        exact hdist y (List.mem_append_left _ (List.mem_cons_of_mem _ hy))
      rcases next_fit_seg st s m (p :: ps) st.heap_list (fuel' - (X :: post).length) m hpre
          (List.cons_ne_nil _ _) htail2
          (by simp only [List.length_cons] at hlen2 ⊢; omega) with
        ⟨a, l, b, hM, hsat, hnone, hres2⟩ | ⟨hnone2, hres2⟩
      · left
        refine ⟨X :: post ++ a, l, b, ?_, hsat, ?_, ?_⟩
        · rw [hM]
          simp
        · intro x hx
          rcases List.mem_append.mp hx with hx | hx
          · exact hnone1 x hx
          · exact hnone x hx
        · rw [hloop, hres, hres2]
          rfl
      · rw [if_neg hm0, if_pos rfl] at hres2
        right
        refine ⟨?_, ?_⟩
        · intro x hx
          rcases List.mem_append.mp hx with hx | hx
          · exact hnone2 x hx
          · exact hnone1 x hx
        · rw [hloop, hres, hres2]
          show Res.ok (({ st with next := m } : State), 0) = Res.ok (st, 0)
          rw [hself]

/-- C21 (amended) at a concrete input: in `cursor_at_tail` the cursor is at the
third block, which is free again, and the first block is free too; a search
for 8 bytes returns the third block. -/
theorem find_next_fit_scans_from_cursor_block_witness :
    (umemdump run_fuel cursor_at_tail
        = Res.ok [{ addr := 4096000, size := 8, free := 1 },
                  { addr := 4096032, size := 8, free := 0 },
                  { addr := 4096064, size := 4008, free := 1 }] ∧
      cursor_at_tail.next = 4096064) ∧
    ((∃ a l b,
        ({ addr := 4096064, size := 4008, free := 1 } : Line) ::
          [] ++ [{ addr := 4096000, size := 8, free := 1 },
                 { addr := 4096032, size := 8, free := 0 }] = a ++ l :: b ∧
        l.satisfies 8 ∧ (∀ x ∈ a, ¬ x.satisfies 8) ∧
        find_next_fit run_fuel cursor_at_tail 8
          = Res.ok ({ cursor_at_tail with next := l.addr }, l.addr)) ∨
     ((∀ x ∈ [{ addr := 4096000, size := 8, free := 1 },
              { addr := 4096032, size := 8, free := 0 },
              ({ addr := 4096064, size := 4008, free := 1 } : Line)], ¬ x.satisfies 8) ∧
       find_next_fit run_fuel cursor_at_tail 8 = Res.ok (cursor_at_tail, 0))) :=
  ⟨⟨by decide, by decide⟩,
    find_next_fit_scans_from_cursor_block cursor_at_tail run_fuel _
      [{ addr := 4096000, size := 8, free := 1 }, { addr := 4096032, size := 8, free := 0 }]
      [] { addr := 4096064, size := 4008, free := 1 } 8 (by decide) rfl (by decide)
      run_fuel (le_refl _)⟩

/-! ## Support lemmas: `coalesce` in two halves -/

theorem Res.bind_assoc {α β γ : Type} (x : Res α) (f : α → Res β) (g : β → Res γ) :
    ((x >>= f) >>= g) = (x >>= fun a => f a >>= g) := by
  cases x <;> rfl

theorem Res.ite_bind {α β : Type} (c : Prop) [Decidable c] (x y : Res α) (f : α → Res β) :
    ((if c then x else y) >>= f) = if c then x >>= f else y >>= f := by
  by_cases h : c
  · rw [if_pos h, if_pos h]
  · rw [if_neg h, if_neg h]

/-- The function `coalesce` is the merge with the successor, then the merge
with the predecessor. -/
theorem coalesce_eq (fuel : Nat) (st : State) (block : Nat) :
    coalesce fuel st block =
      (coalesce_next st block >>= fun st2 => coalesce_prev fuel st2 block) := by
  unfold coalesce coalesce_next coalesce_prev
  simp only [Res.bind_assoc, Res.ite_bind, Res.ok_bind, Res.pure_eq]

/-! ## Support lemmas: tilings -/

theorem tiles_append : ∀ (A B : List Line) (a e : Nat),
    Tiles a (A ++ B) e ↔ ∃ m, Tiles a A m ∧ Tiles m B e := by
  intro A
  induction A with
  | nil =>
    intro B a e
    constructor
    · intro h
      exact ⟨a, rfl, h⟩
    · rintro ⟨m, hm, h⟩
      have ham : a = m := hm
      rw [ham]
      exact h
  | cons l rest ih =>
    intro B a e
    constructor
    · rintro ⟨h1, h2, h3⟩
      obtain ⟨m, hm, h⟩ := (ih B _ e).mp h3
      exact ⟨m, ⟨h1, h2, hm⟩, h⟩
    · rintro ⟨m, ⟨h1, h2, hm⟩, h⟩
      exact ⟨h1, h2, (ih B _ e).mpr ⟨m, hm, h⟩⟩

/-- Every block of a tiling lies between its ends. -/
theorem tiles_bounds : ∀ (L : List Line) (a e : Nat), Tiles a L e →
    a ≤ e ∧ ∀ x ∈ L, a ≤ x.addr ∧ x.addr + 24 + x.size ≤ e ∧ x.addr % 8 = 0 := by
  intro L
  induction L with
  | nil =>
    intro a e h
    have hae : a = e := h
    exact ⟨le_of_eq hae, fun x hx => absurd hx (List.not_mem_nil x)⟩
  | cons l rest ih =>
    intro a e h
    obtain ⟨h1, h2, h3⟩ := h
    obtain ⟨hle, hall⟩ := ih _ e h3
    refine ⟨by omega, ?_⟩
    intro x hx
    rcases List.mem_cons.mp hx with rfl | hx
    · exact ⟨by omega, by omega, by omega⟩
    · obtain ⟨ha, hb, hc⟩ := hall x hx
      exact ⟨by omega, hb, hc⟩

/-- A tiling starts at the address of its first block. -/
theorem tiles_head : ∀ (L : List Line) (a e t : Nat), Tiles a L e → L ≠ [] →
    headAddr L t = a := by
  intro L a e t h hne
  cases L with
  | nil => exact absurd rfl hne
  | cons l rest => exact h.1

/-- In a tiling split around a block, the blocks before it end at or before
its header and the blocks after it start at or after the end of its payload. -/
theorem tiles_split {pre post : List Line} {l : Line} {a e : Nat}
    (h : Tiles a (pre ++ l :: post) e) :
    Tiles a pre l.addr ∧ l.addr % 8 = 0 ∧ Tiles (l.addr + 24 + l.size) post e ∧
    a ≤ l.addr ∧ l.addr + 24 + l.size ≤ e ∧
    (∀ x ∈ pre, a ≤ x.addr ∧ x.addr + 24 + x.size ≤ l.addr ∧ x.addr % 8 = 0) ∧
    (∀ x ∈ post, l.addr + 24 + l.size ≤ x.addr ∧ x.addr + 24 + x.size ≤ e ∧
      x.addr % 8 = 0) := by
  obtain ⟨m, hpre, h1, h2, h3⟩ := (tiles_append pre (l :: post) a e).mp h
  rw [← h1] at hpre h3 h2
  obtain ⟨hle1, hall1⟩ := tiles_bounds pre a l.addr hpre
  obtain ⟨hle2, hall2⟩ := tiles_bounds post _ e h3
  exact ⟨hpre, h2, h3, hle1, hle2, hall1, hall2⟩

/-! ## Support lemmas: header words -/

theorem fields_append (st : State) : ∀ (A B : List Line) (t : Nat),
    Fields st (A ++ B) t ↔ Fields st A (headAddr B t) ∧ Fields st B t := by
  intro A
  induction A with
  | nil =>
    intro B t
    exact ⟨fun h => ⟨trivial, h⟩, fun h => h.2⟩
  | cons l rest ih =>
    intro B t
    have hh : headAddr (rest ++ B) t = headAddr rest (headAddr B t) := by
      cases rest <;> rfl
    constructor
    · rintro ⟨h1, h2, h3, h4⟩
      obtain ⟨h5, h6⟩ := (ih B t).mp h4
      exact ⟨⟨h1, h2.trans hh, h3, h5⟩, h6⟩
    · rintro ⟨⟨h1, h2, h3, h5⟩, h6⟩
      exact ⟨h1, h2.trans hh.symm, h3, (ih B t).mpr ⟨h5, h6⟩⟩

/-- Header words that no store touched still describe the same blocks. -/
theorem fields_frame (st st' : State) : ∀ (A : List Line) (t : Nat), Fields st A t →
    (∀ x ∈ A, st'.mem x.addr = st.mem x.addr ∧ st'.mem (x.addr + 8) = st.mem (x.addr + 8) ∧
      st'.mem (x.addr + 16) = st.mem (x.addr + 16)) → Fields st' A t := by
  intro A
  induction A with
  | nil =>
    intro t _ _
    trivial
  | cons l rest ih =>
    intro t h hsame
    obtain ⟨h1, h2, h3, h4⟩ := h
    obtain ⟨e0, e8, e16⟩ := hsame l (List.mem_cons_self _ _)
    refine ⟨by rw [e0]; exact h1, by rw [e8]; exact h2, by rw [e16]; exact h3, ?_⟩
    exact ih t h4 (fun x hx => hsame x (List.mem_cons_of_mem _ hx))

/-- The header words of a block of the directory. -/
theorem fields_at {st : State} {pre post : List Line} {l : Line} {t : Nat}
    (h : Fields st (pre ++ l :: post) t) :
    Fields st pre l.addr ∧ st.mem l.addr = l.size ∧ st.mem (l.addr + 8) = headAddr post t ∧
      st.mem (l.addr + 16) % 2 ^ 32 = l.free ∧ Fields st post t := by
  obtain ⟨h1, h2, h3, h4, h5⟩ := (fields_append st pre (l :: post) t).mp h
  exact ⟨h1, h2, h3, h4, h5⟩

theorem fields_build {st : State} {pre post : List Line} {l : Line} {t : Nat}
    (h1 : Fields st pre l.addr) (h2 : st.mem l.addr = l.size)
    (h3 : st.mem (l.addr + 8) = headAddr post t) (h4 : st.mem (l.addr + 16) % 2 ^ 32 = l.free)
    (h5 : Fields st post t) : Fields st (pre ++ l :: post) t :=
  (fields_append st pre (l :: post) t).mpr ⟨h1, h2, h3, h4, h5⟩

/-! ## Support lemmas: reading the directory of an arena -/

/-- The three header words of a block inside a mapped region are served. -/
theorem header_valid {st : State} {base R a e : Nat} (hm : (base, R) ∈ st.mapped)
    (h8 : a % 8 = 0) (hlo : base ≤ a) (hhi : a + 24 ≤ e) (he : e ≤ base + R) :
    st.valid a = true ∧ st.valid (a + 8) = true ∧ st.valid (a + 16) = true :=
  ⟨valid_of_region st base R a hm h8 hlo (by omega),
    valid_of_region st base R (a + 8) hm (by omega) (by omega) (by omega),
    valid_of_region st base R (a + 16) hm (by omega) (by omega) (by omega)⟩

theorem arena_valid {st : State} {base R : Nat} {L : List Line} (h : Arena st base R L)
    {x : Line} (hx : x ∈ L) :
    st.valid x.addr = true ∧ st.valid (x.addr + 8) = true ∧ st.valid (x.addr + 16) = true := by
  obtain ⟨h1, h2, h3⟩ := (tiles_bounds L base (base + R) h.tiles).2 x hx
  exact header_valid h.region h3 h1 (by omega) (le_refl _)

/-- Header words inside a mapped region that describe a tiling are a linked
segment. -/
theorem seg_of_fields (st : State) (base R : Nat) (hm : (base, R) ∈ st.mapped)
    (hb : base ≠ 0) : ∀ (L : List Line) (a e t : Nat), base ≤ a → e ≤ base + R →
    Tiles a L e → Fields st L t → ChainSeg st (headAddr L t) L t := by
  intro L
  induction L with
  | nil =>
    intro a e t _ _ _ _
    exact rfl
  | cons l rest ih =>
    intro a e t hlo hhi ht hf
    obtain ⟨h1, h2, h3⟩ := ht
    obtain ⟨f1, f2, f3, f4⟩ := hf
    obtain ⟨hle, -⟩ := tiles_bounds rest _ e h3
    obtain ⟨v0, v8, v16⟩ := header_valid hm (by rw [h1]; exact h2 : l.addr % 8 = 0)
      (by omega : base ≤ l.addr) (by omega : l.addr + 24 ≤ e) hhi
    refine ⟨by show l.addr ≠ 0; omega, rfl, ?_, ?_, headAddr rest t, ?_, ?_⟩
    · show rd_size st l.addr = Res.ok l.size
      rw [rd_size_ok st _ v0, f1]
    · show rd_free st l.addr = Res.ok l.free
      rw [rd_free_ok st _ v16, f3]
    · show rd_next st l.addr = Res.ok (headAddr rest t)
      rw [rd_next_ok st _ v8, f2]
    · exact ih (a + 24 + l.size) e t (by omega) hhi h3 f4

/-- The directory of an arena is a chain from its head. -/
theorem arena_seg {st : State} {base R : Nat} {L : List Line} (h : Arena st base R L) :
    ChainSeg st base L 0 := by
  have := seg_of_fields st base R h.region h.base_ne L base (base + R) 0 (le_refl _)
    (le_refl _) h.tiles h.fields
  rw [tiles_head L base (base + R) 0 h.tiles h.nonempty] at this
  exact this

/-- The fields of a block of an arena, as the program reads them. -/
theorem arena_reads {st : State} {base R : Nat} {pre post : List Line} {l : Line}
    (h : Arena st base R (pre ++ l :: post)) :
    rd_size st l.addr = Res.ok l.size ∧ rd_next st l.addr = Res.ok (headAddr post 0) ∧
      rd_free st l.addr = Res.ok l.free := by
  obtain ⟨v0, v8, v16⟩ := arena_valid h (List.mem_append_right _ (List.mem_cons_self _ _))
  obtain ⟨-, f1, f2, f3, -⟩ := fields_at h.fields
  exact ⟨by rw [rd_size_ok st _ v0, f1], by rw [rd_next_ok st _ v8, f2],
    by rw [rd_free_ok st _ v16, f3]⟩

/-! ## Support lemmas: the searches return blocks of the directory -/

theorem first_fit_mem (st : State) (s : Nat) : ∀ (L : List Line) (cur fuel b : Nat),
    ChainSeg st cur L 0 → find_first_fit_loop fuel st s cur = Res.ok b →
    b = 0 ∨ ∃ l ∈ L, l.addr = b := by
  intro L
  induction L with
  | nil =>
    intro cur fuel b hch h
    have hc : cur = 0 := hch
    cases fuel with
    | zero => exact Res.noConfusion h
    | succ n =>
      rw [find_first_fit_loop, if_pos hc] at h
      injection h with h
      exact Or.inl h.symm
  | cons l rest ih =>
    intro cur fuel b hch h
    obtain ⟨hc, hl, -, -, nx, hn, hrest⟩ := hch
    cases fuel with
    | zero => exact Res.noConfusion h
    | succ n =>
      rw [find_first_fit_loop, if_neg hc] at h
      obtain ⟨ok, -, h⟩ := Res.bind_eq_ok h
      cases ok with
      | true =>
        rw [if_pos rfl] at h
        injection h with h
        exact Or.inr ⟨l, List.mem_cons_self _ _, hl.trans h⟩
      | false =>
        rw [if_neg Bool.false_ne_true, hn, Res.ok_bind] at h
        rcases ih nx n b hrest h with h0 | ⟨x, hx, hxb⟩
        · exact Or.inl h0
        · exact Or.inr ⟨x, List.mem_cons_of_mem _ hx, hxb⟩

theorem best_fit_mem (st : State) (s : Nat) : ∀ (L : List Line) (cur fuel best b : Nat),
    ChainSeg st cur L 0 → find_best_fit_loop fuel st s cur best = Res.ok b →
    b = best ∨ ∃ l ∈ L, l.addr = b := by
  intro L
  induction L with
  | nil =>
    intro cur fuel best b hch h
    have hc : cur = 0 := hch
    cases fuel with
    | zero => exact Res.noConfusion h
    | succ n =>
      rw [find_best_fit_loop, if_pos hc] at h
      injection h with h
      exact Or.inl h.symm
  | cons l rest ih =>
    intro cur fuel best b hch h
    obtain ⟨hc, hl, -, -, nx, hn, hrest⟩ := hch
    have lift : ∀ c : Nat, (c = cur ∨ c = best) → (b = c ∨ ∃ x ∈ rest, x.addr = b) →
        b = best ∨ ∃ x ∈ l :: rest, x.addr = b := by
      intro c hcc hres
      rcases hres with hbc | ⟨x, hx, hxb⟩
      · rcases hcc with h1 | h1
        · exact Or.inr ⟨l, List.mem_cons_self _ _, by rw [hl, hbc, h1]⟩
        · exact Or.inl (hbc.trans h1)
      · exact Or.inr ⟨x, List.mem_cons_of_mem _ hx, hxb⟩
    cases fuel with
    | zero => exact Res.noConfusion h
    | succ n =>
      rw [find_best_fit_loop, if_neg hc] at h
      obtain ⟨ok, -, h⟩ := Res.bind_eq_ok h
      cases ok with
      | true =>
        rw [if_pos rfl] at h
        by_cases hb0 : best = 0
        · rw [if_pos hb0, hn, Res.ok_bind] at h
          exact lift cur (Or.inl rfl) (ih nx n cur b hrest h)
        · rw [if_neg hb0] at h
          obtain ⟨cs, -, h⟩ := Res.bind_eq_ok h
          obtain ⟨bs, -, h⟩ := Res.bind_eq_ok h
          rw [hn, Res.ok_bind] at h
          by_cases hlt : cs < bs
          · rw [if_pos hlt] at h
            exact lift cur (Or.inl rfl) (ih nx n cur b hrest h)
          · rw [if_neg hlt] at h
            exact lift best (Or.inr rfl) (ih nx n best b hrest h)
      | false =>
        rw [if_neg Bool.false_ne_true, hn, Res.ok_bind] at h
        exact lift best (Or.inr rfl) (ih nx n best b hrest h)

theorem worst_fit_mem (st : State) (s : Nat) : ∀ (L : List Line) (cur fuel worst b : Nat),
    ChainSeg st cur L 0 → find_worst_fit_loop fuel st s cur worst = Res.ok b →
    b = worst ∨ ∃ l ∈ L, l.addr = b := by
  intro L
  induction L with
  | nil =>
    intro cur fuel worst b hch h
    have hc : cur = 0 := hch
    cases fuel with
    | zero => exact Res.noConfusion h
    | succ n =>
      rw [find_worst_fit_loop, if_pos hc] at h
      injection h with h
      exact Or.inl h.symm
  | cons l rest ih =>
    intro cur fuel worst b hch h
    obtain ⟨hc, hl, -, -, nx, hn, hrest⟩ := hch
    have lift : ∀ c : Nat, (c = cur ∨ c = worst) → (b = c ∨ ∃ x ∈ rest, x.addr = b) →
        b = worst ∨ ∃ x ∈ l :: rest, x.addr = b := by
      intro c hcc hres
      rcases hres with hbc | ⟨x, hx, hxb⟩
      · rcases hcc with h1 | h1
        · exact Or.inr ⟨l, List.mem_cons_self _ _, by rw [hl, hbc, h1]⟩
        · exact Or.inl (hbc.trans h1)
      · exact Or.inr ⟨x, List.mem_cons_of_mem _ hx, hxb⟩
    cases fuel with
    | zero => exact Res.noConfusion h
    | succ n =>
      rw [find_worst_fit_loop, if_neg hc] at h
      obtain ⟨ok, -, h⟩ := Res.bind_eq_ok h
      cases ok with
      | true =>
        rw [if_pos rfl] at h
        by_cases hb0 : worst = 0
        · rw [if_pos hb0, hn, Res.ok_bind] at h
          exact lift cur (Or.inl rfl) (ih nx n cur b hrest h)
        · rw [if_neg hb0] at h
          obtain ⟨cs, -, h⟩ := Res.bind_eq_ok h
          obtain ⟨ws, -, h⟩ := Res.bind_eq_ok h
          rw [hn, Res.ok_bind] at h
          by_cases hlt : cs > ws
          · rw [if_pos hlt] at h
            exact lift cur (Or.inl rfl) (ih nx n cur b hrest h)
          · rw [if_neg hlt] at h
            exact lift worst (Or.inr rfl) (ih nx n worst b hrest h)
      | false =>
        rw [if_neg Bool.false_ne_true, hn, Res.ok_bind] at h
        exact lift worst (Or.inr rfl) (ih nx n worst b hrest h)

/-- Under FirstFit, BestFit and WorstFit the search leaves the state alone and
returns `NULL` or a free block of the directory that is large enough. -/
theorem search_in_arena {st st1 : State} {base R : Nat} {L : List Line} {fuel s b : Nat}
    (hA : Arena st base R L)
    (halg : st.allocation_algorithm = FIRST_FIT ∨ st.allocation_algorithm = BEST_FIT ∨
      st.allocation_algorithm = WORST_FIT)
    (h : umalloc_search fuel st s = some (Res.ok (st1, b))) :
    st1 = st ∧ (b = 0 ∨ ∃ pre l post, L = pre ++ l :: post ∧ l.addr = b ∧ l.free ≠ 0 ∧
      s ≤ l.size) := by
  have hfits := (umalloc_search_fits h).2
  have hseg := arena_seg hA
  have hhead := hA.head
  have key : st1 = st ∧ (b = 0 ∨ ∃ l ∈ L, l.addr = b) := by
    unfold umalloc_search at h
    split at h
    · injection h with h
      obtain ⟨x, hx, h⟩ := Res.bind_eq_ok h
      injection h with h
      injection h with h1 h2
      refine ⟨h1.symm, ?_⟩
      rw [← h2]
      unfold find_best_fit at hx
      rw [hhead] at hx
      exact best_fit_mem st s L base fuel 0 x hseg hx
    · split at h
      · injection h with h
        obtain ⟨x, hx, h⟩ := Res.bind_eq_ok h
        injection h with h
        injection h with h1 h2
        refine ⟨h1.symm, ?_⟩
        rw [← h2]
        unfold find_worst_fit at hx
        rw [hhead] at hx
        exact worst_fit_mem st s L base fuel 0 x hseg hx
      · split at h
        · injection h with h
          obtain ⟨x, hx, h⟩ := Res.bind_eq_ok h
          injection h with h
          injection h with h1 h2
          refine ⟨h1.symm, ?_⟩
          rw [← h2]
          unfold find_first_fit at hx
          rw [hhead] at hx
          exact first_fit_mem st s L base fuel x hseg hx
        · rename_i hb hw hf
          rcases halg with h1 | h1 | h1
          · exact absurd h1 hf
          · exact absurd h1 hb
          · exact absurd h1 hw
  refine ⟨key.1, ?_⟩
  rcases key.2 with h0 | ⟨l, hl, hlb⟩
  · exact Or.inl h0
  · by_cases hb0 : b = 0
    · exact Or.inl hb0
    · right
      obtain ⟨pre, post, hL⟩ := List.append_of_mem hl
      obtain ⟨f, S, hf, hf0, hS, hsS⟩ := fits_true (hfits hb0)
      rw [hL] at hA
      obtain ⟨r1, -, r3⟩ := arena_reads hA
      rw [hlb] at r1 r3
      rw [hf] at r3
      rw [hS] at r1
      injection r1 with r1
      injection r3 with r3
      exact ⟨pre, l, post, hL, hlb, by rw [← r3]; exact hf0, by rw [← r1]; exact hsS⟩

/-! ## Support lemmas: allocated blocks, replacing part of the directory -/

/-- The address of a block identifies it in a tiling. -/
theorem tiles_unique {pre post : List Line} {l : Line} {a e : Nat}
    (h : Tiles a (pre ++ l :: post) e) :
    ∀ x ∈ pre ++ l :: post, x.addr = l.addr → x = l := by
  obtain ⟨-, -, -, -, -, hpre, hpost⟩ := tiles_split h
  intro x hx hxa
  rcases List.mem_append.mp hx with hx | hx
  · have := (hpre x hx).2.1
    omega
  · rcases List.mem_cons.mp hx with hx | hx
    · exact hx
    · have := (hpost x hx).1
      omega

theorem isAlloc_append (A B : List Line) (q : Nat) :
    IsAlloc (A ++ B) q ↔ IsAlloc A q ∨ IsAlloc B q := by
  constructor
  · rintro ⟨x, hx, h⟩
    rcases List.mem_append.mp hx with hx | hx
    · exact Or.inl ⟨x, hx, h⟩
    · exact Or.inr ⟨x, hx, h⟩
  · rintro (⟨x, hx, h⟩ | ⟨x, hx, h⟩)
    · exact ⟨x, List.mem_append_left _ hx, h⟩
    · exact ⟨x, List.mem_append_right _ hx, h⟩

theorem isAlloc_cons (l : Line) (B : List Line) (q : Nat) :
    IsAlloc (l :: B) q ↔ (l.free = 0 ∧ q = l.addr + 24) ∨ IsAlloc B q := by
  constructor
  · rintro ⟨x, hx, h⟩
    rcases List.mem_cons.mp hx with rfl | hx
    · exact Or.inl h
    · exact Or.inr ⟨x, hx, h⟩
  · rintro (h | ⟨x, hx, h⟩)
    · exact ⟨l, List.mem_cons_self _ _, h⟩
    · exact ⟨x, List.mem_cons_of_mem _ hx, h⟩

theorem isAlloc_nil (q : Nat) : ¬ IsAlloc [] q := by
  rintro ⟨x, hx, -⟩
  exact absurd hx (List.not_mem_nil x)

/-- Stores confined to the bytes from `a` to `e` that leave there the headers
of a tiling `mid` of these bytes give an arena again, with the blocks before
`a` and after `e` as they were. -/
theorem arena_replace {st st' : State} {base R a e : Nat} {L pre mid post : List Line}
    (hA : Arena st base R L) (hmapped : st'.mapped = st.mapped)
    (hhead : st'.heap_list = st.heap_list)
    (hpre : Tiles base pre a) (hmid : Tiles a mid e) (hpost : Tiles e post (base + R))
    (hne : mid ≠ []) (hfpre : Fields st pre a) (hfpost : Fields st post 0)
    (hfmid : Fields st' mid (headAddr post 0))
    (hsame : ∀ y, y + 8 ≤ a ∨ e ≤ y → st'.mem y = st.mem y) :
    Arena st' base R (pre ++ mid ++ post) := by
  have hbp := (tiles_bounds pre base a hpre).2
  have hbq := (tiles_bounds post e (base + R) hpost).2
  have hma : headAddr (mid ++ post) 0 = a := by
    cases mid with
    | nil => exact absurd rfl hne
    | cons m rest => exact hmid.1
  refine ⟨by rw [hmapped]; exact hA.region, hA.base_ne, hA.below,
    by rw [hhead]; exact hA.head, ?_, ?_, ?_⟩
  · intro h
    have := congrArg List.length h
    cases mid with
    | nil => exact absurd rfl hne
    | cons m rest => simp at this
  · rw [List.append_assoc]
    exact (tiles_append pre (mid ++ post) base (base + R)).mpr
      ⟨a, hpre, (tiles_append mid post a (base + R)).mpr ⟨e, hmid, hpost⟩⟩
  · rw [List.append_assoc]
    refine (fields_append st' pre (mid ++ post) 0).mpr ⟨?_, ?_⟩
    · rw [hma]
      refine fields_frame st st' pre a hfpre ?_
      intro x hx
      obtain ⟨-, h2, -⟩ := hbp x hx
      exact ⟨hsame _ (Or.inl (by omega)), hsame _ (Or.inl (by omega)),
        hsame _ (Or.inl (by omega))⟩
    · refine (fields_append st' mid post 0).mpr ⟨hfmid, ?_⟩
      refine fields_frame st st' post 0 hfpost ?_
      intro x hx
      obtain ⟨h1, -, -⟩ := hbq x hx
      exact ⟨hsame _ (Or.inr (by omega)), hsame _ (Or.inr (by omega)),
        hsame _ (Or.inr (by omega))⟩

theorem isAlloc_replace (pre mid post : List Line) (q : Nat) :
    IsAlloc (pre ++ mid ++ post) q ↔ IsAlloc pre q ∨ IsAlloc mid q ∨ IsAlloc post q := by
  rw [isAlloc_append, isAlloc_append]
  tauto

theorem isAlloc_replace_one (pre post : List Line) (l : Line) (q : Nat) :
    IsAlloc (pre ++ l :: post) q ↔
      IsAlloc pre q ∨ (l.free = 0 ∧ q = l.addr + 24) ∨ IsAlloc post q := by
  rw [isAlloc_append, isAlloc_cons]

/-- A free block of the directory is not the block of an allocated pointer. -/
theorem not_isAlloc_of_free {pre post : List Line} {l : Line} {a e : Nat}
    (h : Tiles a (pre ++ l :: post) e) (hfree : l.free ≠ 0) :
    ¬ IsAlloc (pre ++ l :: post) (l.addr + 24) := by
  rintro ⟨x, hx, hx0, hxa⟩
  have hxl : x = l := tiles_unique h x hx (by omega)
  rw [hxl] at hx0
  exact hfree hx0

/-! ## Support lemmas: `umalloc` on an arena -/

/-- Placement in a free block of an arena that is large enough: the call
returns its payload and the directory is a tiling again, with exactly this one
more allocated block. -/
theorem place_arena {st : State} {base R r : Nat} {pre post : List Line} {l : Line}
    (hA : Arena st base R (pre ++ l :: post)) (hfree : l.free ≠ 0) (hfit : r ≤ l.size)
    (hr8 : r % 8 = 0) :
    ∃ st' L', umalloc_place st l.addr r = Res.ok (st', l.addr + 24) ∧ Arena st' base R L' ∧
      ∀ q, IsAlloc L' q ↔ (q = l.addr + 24 ∨ IsAlloc (pre ++ l :: post) q) := by
  obtain ⟨hpre, h8, hpost, hlo, hhi, -, -⟩ := tiles_split hA.tiles
  obtain ⟨hS, hnx, -⟩ := arena_reads hA
  obtain ⟨fpre, f0, f8, f16, fpost⟩ := fields_at hA.fields
  have hbase := hA.base_ne
  have hbelow := hA.below
  have hb0 : l.addr ≠ 0 := by omega
  have hnx64 : headAddr post 0 < 2 ^ 64 := by
    cases post with
    | nil => exact Nat.pos_pow_of_pos 64 (by decide)
    | cons p ps =>
      have := (tiles_bounds _ _ _ hpost).2 p (List.mem_cons_self _ _)
      show p.addr < 2 ^ 64
      omega
  have hold : ∀ q, IsAlloc (pre ++ l :: post) q ↔ IsAlloc pre q ∨ IsAlloc post q := by
    intro q
    rw [isAlloc_replace_one]
    constructor
    · rintro (h | ⟨h, -⟩ | h)
      · exact Or.inl h
      · exact absurd h hfree
      · exact Or.inr h
    · rintro (h | h)
      · exact Or.inl h
      · exact Or.inr (Or.inr h)
  by_cases hgt : r + 48 < l.size
  · obtain ⟨m0, m8, -, mn0, mn8, mn16, mother⟩ :=
      split_stores_mem st l.addr r (l.size - r - 24) (by omega) (by omega) (by omega)
        (by rw [f8]; exact hnx64)
    refine ⟨_, pre ++ [{ addr := l.addr, size := r, free := 0 },
        { addr := l.addr + 24 + r, size := l.size - r - 24, free := 1 }] ++ post,
      umalloc_place_split st l.addr r l.size base R hb0 h8 hr8 hA.region hlo hhi hbelow hS hgt,
      ?_, ?_⟩
    · refine arena_replace hA rfl rfl hpre ?_ hpost (List.cons_ne_nil _ _) fpre fpost ?_ ?_
      · refine ⟨rfl, h8, rfl, ?_, ?_⟩
        · show (l.addr + 24 + r) % 8 = 0
          omega
        · show l.addr + 24 + r + 24 + (l.size - r - 24) = l.addr + 24 + l.size
          omega
      · refine ⟨?_, ?_, ?_, ?_, ?_, ?_, trivial⟩
        · show (State.set_free _ l.addr 0).mem l.addr = r
          rw [set_free_mem_other _ _ _ _ (by omega), m0]
        · show (State.set_free _ l.addr 0).mem (l.addr + 8) = l.addr + 24 + r
          rw [set_free_mem_other _ _ _ _ (by omega), m8]
        · show (State.set_free _ l.addr 0).mem (l.addr + 16) % 2 ^ 32 = 0
          rw [set_free_mem_flag _ _ _ (by decide)]
        · show (State.set_free _ l.addr 0).mem (l.addr + 24 + r) = l.size - r - 24
          rw [set_free_mem_other _ _ _ _ (by omega), mn0]
        · show (State.set_free _ l.addr 0).mem (l.addr + 24 + r + 8) = headAddr post 0
          rw [set_free_mem_other _ _ _ _ (by omega), mn8, f8]
        · show (State.set_free _ l.addr 0).mem (l.addr + 24 + r + 16) % 2 ^ 32 = 1
          rw [set_free_mem_other _ _ _ _ (by omega), mn16]
      · intro y hy
        rw [set_free_mem_other _ _ _ _ (by omega)]
        exact mother y (by omega) (by omega) (by omega) (by omega) (by omega) (by omega)
    · intro q
      rw [isAlloc_replace, hold, isAlloc_cons, isAlloc_cons]
      constructor
      · rintro (h | (⟨-, h⟩ | ⟨h, -⟩ | h) | h)
        · exact Or.inr (Or.inl h)
        · exact Or.inl h
        · exact absurd h (Nat.succ_ne_zero 0)
        · exact absurd h (isAlloc_nil q)
        · exact Or.inr (Or.inr h)
      · rintro (h | h | h)
        · exact Or.inr (Or.inl (Or.inl ⟨rfl, h⟩))
        · exact Or.inl h
        · exact Or.inr (Or.inr h)
  · refine ⟨_, pre ++ [{ addr := l.addr, size := l.size, free := 0 }] ++ post,
      umalloc_place_whole st l.addr r l.size base R hb0 h8 hA.region hlo hhi hbelow hS hfit
        (by omega), ?_, ?_⟩
    · refine arena_replace hA rfl rfl hpre ?_ hpost (List.cons_ne_nil _ _) fpre fpost ?_ ?_
      · exact ⟨rfl, h8, rfl⟩
      · refine ⟨?_, ?_, ?_, trivial⟩
        · show (State.set_free _ l.addr 0).mem l.addr = l.size
          rw [set_free_mem_other _ _ _ _ (by omega), f0]
        · show (State.set_free _ l.addr 0).mem (l.addr + 8) = headAddr post 0
          rw [set_free_mem_other _ _ _ _ (by omega), f8]
        · show (State.set_free _ l.addr 0).mem (l.addr + 16) % 2 ^ 32 = 0
          rw [set_free_mem_flag _ _ _ (by decide)]
      · intro y hy
        rw [set_free_mem_other _ _ _ _ (by omega)]
    · intro q
      rw [isAlloc_replace, hold, isAlloc_cons]
      constructor
      · rintro (h | (⟨-, h⟩ | h) | h)
        · exact Or.inr (Or.inl h)
        · exact Or.inl h
        · exact absurd h (isAlloc_nil q)
        · exact Or.inr (Or.inr h)
      · rintro (h | h | h)
        · exact Or.inr (Or.inl (Or.inl ⟨rfl, h⟩))
        · exact Or.inl h
        · exact Or.inr (Or.inr h)

/-- The call `umalloc(n)` on an arena under FirstFit, BestFit or WorstFit either
returns `NULL` and changes nothing, or returns the payload of a block that was
free, and the directory is a tiling again with exactly this one more
allocated block. -/
theorem umalloc_arena {st st' : State} {base R fuel n p : Nat} {L : List Line}
    (hA : Arena st base R L)
    (halg : st.allocation_algorithm = FIRST_FIT ∨ st.allocation_algorithm = BEST_FIT ∨
      st.allocation_algorithm = WORST_FIT)
    (hok : umalloc fuel st n = Res.ok (st', p)) :
    (p = 0 ∧ st' = st) ∨
    (p ≠ 0 ∧ ¬ IsAlloc L p ∧ ∃ L', Arena st' base R L' ∧
      ∀ q, IsAlloc L' q ↔ (q = p ∨ IsAlloc L q)) := by
  have hA8 : ALIGN n % 8 = 0 := by
    rw [ALIGN_eq]
    omega
  rw [umalloc_eq] at hok
  split at hok
  · injection hok with hok
    injection hok with h1 h2
    exact Or.inl ⟨h2.symm, h1.symm⟩
  · split at hok
    · injection hok with hok
      injection hok with h1 h2
      exact Or.inl ⟨h2.symm, h1.symm⟩
    · rename_i search hsearch
      obtain ⟨x, hx, hok⟩ := Res.bind_eq_ok hok
      obtain ⟨st1, b⟩ := x
      rw [hx] at hsearch
      obtain ⟨hst1, hb⟩ := search_in_arena hA halg hsearch
      have hok' : umalloc_place st b (ALIGN n) = Res.ok (st', p) := by
        rw [← hst1]
        exact hok
      rcases hb with hb0 | ⟨pre, l, post, hL, hlb, hfree, hfit⟩
      · unfold umalloc_place at hok'
        rw [if_pos hb0] at hok'
        injection hok' with hok'
        injection hok' with h1 h2
        exact Or.inl ⟨h2.symm, h1.symm⟩
      · rw [hL] at hA
        obtain ⟨st2, L', hplace, hA', hiff⟩ := place_arena hA hfree hfit hA8
        rw [hlb, hok'] at hplace
        injection hplace with hplace
        injection hplace with h1 h2
        obtain ⟨-, -, -, hlo, -, -, -⟩ := tiles_split hA.tiles
        right
        refine ⟨by rw [h2]; omega, ?_, L', by rw [h1]; exact hA', ?_⟩
        · rw [hL, h2, ← hlb]
          exact not_isAlloc_of_free hA.tiles hfree
        · intro q
          rw [hL, h2, ← hlb]
          exact hiff q

/-! ## Support lemmas: `ufree` on an arena -/

/-- The predecessor scan of `coalesce` over the blocks before `block`: it
returns the last of them, or the initial `prev` when there is none. -/
theorem scan_seg (st : State) (block : Nat) : ∀ (A : List Line) (cur fuel prev r : Nat),
    ChainSeg st cur A block → (∀ x ∈ A, x.addr ≠ block) →
    coalesce_scan fuel st block prev cur = Res.ok r →
    (A = [] ∧ r = prev) ∨ ∃ A' lp, A = A' ++ [lp] ∧ r = lp.addr := by
  intro A
  induction A with
  | nil =>
    intro cur fuel prev r hch _ h
    have hc : cur = block := hch
    cases fuel with
    | zero => exact Res.noConfusion h
    | succ n =>
      rw [coalesce_scan, if_neg (fun hh => hh.2 hc)] at h
      injection h with h
      exact Or.inl ⟨rfl, h.symm⟩
  | cons l rest ih =>
    intro cur fuel prev r hch hne h
    obtain ⟨hc, hl, -, -, nx, hn, hrest⟩ := hch
    have hcb : cur ≠ block := by
      rw [← hl]
      exact hne l (List.mem_cons_self _ _)
    cases fuel with
    | zero => exact Res.noConfusion h
    | succ n =>
      rw [coalesce_scan, if_pos ⟨hc, hcb⟩, hn, Res.ok_bind] at h
      right
      rcases ih nx n cur r hrest (fun x hx => hne x (List.mem_cons_of_mem _ hx)) h with
        ⟨h1, h2⟩ | ⟨A', lp, h1, h2⟩
      · exact ⟨[], l, by rw [h1]; rfl, by rw [h2, hl]⟩
      · exact ⟨l :: A', lp, by rw [h1]; rfl, h2⟩

/-- The merge with the successor, on a block of an arena: the directory is a
tiling again, the block keeps its address and flag, and the blocks after it
that are allocated are the same. -/
theorem coalesce_next_arena {st : State} {base R : Nat} {pre post : List Line} {m : Line}
    (hA : Arena st base R (pre ++ m :: post)) :
    ∃ st2 m' post', coalesce_next st m.addr = Res.ok st2 ∧
      Arena st2 base R (pre ++ m' :: post') ∧ m'.addr = m.addr ∧ m'.free = m.free ∧
      ∀ q, IsAlloc post' q ↔ IsAlloc post q := by
  obtain ⟨hpre, h8, hpost, hlo, hhi, -, -⟩ := tiles_split hA.tiles
  obtain ⟨hS, hnx, -⟩ := arena_reads hA
  obtain ⟨fpre, f0, f8, f16, fpost⟩ := fields_at hA.fields
  obtain ⟨v0, v8, v16⟩ := arena_valid hA (List.mem_append_right _ (List.mem_cons_self _ _))
  have hbase := hA.base_ne
  have hbelow := hA.below
  cases post with
  | nil =>
    refine ⟨st, m, [], ?_, hA, rfl, rfl, fun q => Iff.rfl⟩
    have hnx0 : rd_next st m.addr = Res.ok 0 := hnx
    unfold coalesce_next
    simp only [hnx0, Res.ok_bind, ne_eq, not_true_eq_false, if_false, false_and, Res.pure_eq]
  | cons l2 post2 =>
    have hA2 : Arena st base R ((pre ++ [m]) ++ l2 :: post2) := by
      rw [List.append_assoc]
      exact hA
    obtain ⟨hS2, hnx2, hfr2⟩ := arena_reads hA2
    obtain ⟨h2a, h28, hpost2⟩ := hpost
    obtain ⟨hle2, -⟩ := tiles_bounds post2 _ _ hpost2
    have hl20 : l2.addr ≠ 0 := by omega
    have hnx' : rd_next st m.addr = Res.ok l2.addr := hnx
    by_cases hf2 : l2.free = 0
    · refine ⟨st, m, l2 :: post2, ?_, hA, rfl, rfl, fun q => Iff.rfl⟩
      unfold coalesce_next
      simp only [hnx', Res.ok_bind, ne_eq, hl20, not_false_eq_true, if_true, hfr2, hf2,
        not_true_eq_false, and_false, if_false, Res.pure_eq]
    · obtain ⟨-, f20, f28, f216, fpost2⟩ := fields_at hA2.fields
      have e1 : add64 m.size (add64 sizeof_BlockHeader l2.size) = m.size + 24 + l2.size := by
        unfold add64 sizeof_BlockHeader SIZE_MOD
        omega
      have hnx64 : headAddr post2 0 < 2 ^ 64 := by
        cases post2 with
        | nil => exact Nat.pos_pow_of_pos 64 (by decide)
        | cons p ps =>
          have := (tiles_bounds _ _ _ hpost2).2 p (List.mem_cons_self _ _)
          show p.addr < 2 ^ 64
          omega
      have hv2 : st.valid (l2.addr + 8) = true :=
        (arena_valid hA2 (List.mem_append_right _ (List.mem_cons_self _ _))).2.1
      refine ⟨(st.write m.addr (m.size + 24 + l2.size)).write (m.addr + 8) (headAddr post2 0),
        { addr := m.addr, size := m.size + 24 + l2.size, free := m.free }, post2, ?_, ?_,
        rfl, rfl, ?_⟩
      · unfold coalesce_next
        simp only [hnx', Res.ok_bind, ne_eq, hl20, not_false_eq_true, if_true, hfr2, hf2,
          and_self, hS, hS2, e1, wr_size_ok _ _ _ v0]
        rw [rd_next_ok (st.write m.addr (m.size + 24 + l2.size)) l2.addr hv2, Res.ok_bind,
          write_mem_other _ _ _ _ (by omega), f28]
        exact wr_next_ok (st.write m.addr (m.size + 24 + l2.size)) _ _ v8
      · have := @arena_replace st
          ((st.write m.addr (m.size + 24 + l2.size)).write (m.addr + 8) (headAddr post2 0))
          base R m.addr (m.addr + 24 + (m.size + 24 + l2.size)) _ pre
          [{ addr := m.addr, size := m.size + 24 + l2.size, free := m.free }] post2
          hA rfl rfl hpre ⟨rfl, h8, rfl⟩
          (by
            have e2 : m.addr + 24 + (m.size + 24 + l2.size)
                = m.addr + 24 + m.size + 24 + l2.size := by omega
            rw [e2]
            exact hpost2)
          (List.cons_ne_nil _ _) fpre fpost2
          (by
            refine ⟨?_, ?_, ?_, trivial⟩
            · show ((st.write m.addr (m.size + 24 + l2.size)).write (m.addr + 8)
                (headAddr post2 0)).mem m.addr = m.size + 24 + l2.size
              rw [write_mem_other _ _ _ _ (by omega), write_mem_same]
              unfold SIZE_MOD
              omega
            · show ((st.write m.addr (m.size + 24 + l2.size)).write (m.addr + 8)
                (headAddr post2 0)).mem (m.addr + 8) = headAddr post2 0
              rw [write_mem_same]
              unfold SIZE_MOD
              omega
            · show ((st.write m.addr (m.size + 24 + l2.size)).write (m.addr + 8)
                (headAddr post2 0)).mem (m.addr + 16) % 2 ^ 32 = m.free
              rw [write_mem_other _ _ _ _ (by omega), write_mem_other _ _ _ _ (by omega)]
              exact f16)
          (by
            intro y hy
            rw [write_mem_other _ _ _ _ (by omega), write_mem_other _ _ _ _ (by omega)])
        simpa using this
      · intro q
        rw [isAlloc_cons]
        constructor
        · intro h
          exact Or.inr h
        · rintro (⟨h, -⟩ | h)
          · exact absurd h hf2
          · exact h

/-- The scan for the predecessor and the merge with it, on a free block of an
arena: the directory is a tiling again with the same allocated blocks. -/
theorem coalesce_prev_arena {st st' : State} {base R fuel x : Nat} {pre post : List Line}
    {m : Line} (hA : Arena st base R (pre ++ m :: post)) (hmfree : m.free ≠ 0)
    (hok : coalesce_prev fuel st m.addr = Res.ok (st', x)) :
    ∃ L', Arena st' base R L' ∧ ∀ q, IsAlloc L' q ↔ IsAlloc (pre ++ m :: post) q := by
  obtain ⟨hpre, h8, hpost, hlo, hhi, hbpre, -⟩ := tiles_split hA.tiles
  obtain ⟨hS, hnx, -⟩ := arena_reads hA
  obtain ⟨mseg, hsegpre, hsegm⟩ := (seg_append st pre (m :: post) base 0).mp (arena_seg hA)
  obtain ⟨hma, -⟩ := seg_head hsegm
  rw [← hma] at hsegpre
  have hne : ∀ y ∈ pre, y.addr ≠ m.addr := by
    intro y hy
    have := (hbpre y hy).2.1
    omega
  unfold coalesce_prev at hok
  obtain ⟨prev, hscan, hok⟩ := Res.bind_eq_ok hok
  rw [hA.head] at hscan
  rcases scan_seg st m.addr pre base fuel 0 prev hsegpre hne hscan with
    ⟨-, hp0⟩ | ⟨A', lp, hpreq, hplp⟩
  · rw [hp0] at hok
    simp only [ne_eq, not_true_eq_false, if_false, false_and, Res.pure_eq,
      Res.ok_bind] at hok
    injection hok with hok
    injection hok with h1 h2
    rw [← h1]
    exact ⟨_, hA, fun q => Iff.rfl⟩
  · have hA2 : Arena st base R (A' ++ lp :: (m :: post)) := by
      rw [hpreq, List.append_assoc] at hA
      exact hA
    obtain ⟨hpre2, hl8, hmid2, hlo2, hhi2, -, -⟩ := tiles_split hA2.tiles
    obtain ⟨hSp, -, hfp⟩ := arena_reads hA2
    obtain ⟨fA, fp0, fp8, fp16, fm0, fm8, fm16, fpost⟩ := fields_at hA2.fields
    obtain ⟨vp0, vp8, vp16⟩ :=
      arena_valid hA2 (List.mem_append_right _ (List.mem_cons_self _ _))
    obtain ⟨vm0, vm8, vm16⟩ :=
      arena_valid hA (List.mem_append_right _ (List.mem_cons_self _ _))
    obtain ⟨hm2a, -, hpost2⟩ := hmid2
    have hbase := hA.base_ne
    have hbelow := hA.below
    have hlp0 : lp.addr ≠ 0 := by omega
    rw [hplp] at hok
    by_cases hf : lp.free = 0
    · simp only [ne_eq, hlp0, not_false_eq_true, if_true, hfp, Res.ok_bind, hf,
        not_true_eq_false, and_false, if_false, Res.pure_eq] at hok
      injection hok with hok
      injection hok with h1 h2
      rw [← h1]
      exact ⟨_, hA, fun q => Iff.rfl⟩
    · have e1 : add64 lp.size (add64 sizeof_BlockHeader m.size) = lp.size + 24 + m.size := by
        unfold add64 sizeof_BlockHeader SIZE_MOD
        omega
      have hnx64 : headAddr post 0 < 2 ^ 64 := by
        cases post with
        | nil => exact Nat.pos_pow_of_pos 64 (by decide)
        | cons p ps =>
          have := (tiles_bounds _ _ _ hpost).2 p (List.mem_cons_self _ _)
          show p.addr < 2 ^ 64
          omega
      have hrn : rd_next (st.write lp.addr (lp.size + 24 + m.size)) m.addr
          = Res.ok (headAddr post 0) := by
        rw [rd_next_ok (st.write lp.addr (lp.size + 24 + m.size)) m.addr vm8,
          write_mem_other _ _ _ _ (by omega), fm8]
      simp only [ne_eq, hlp0, not_false_eq_true, if_true, hfp, Res.ok_bind, hf, and_self,
        hSp, hS, e1, wr_size_ok st _ _ vp0, hrn,
        wr_next_ok (st.write lp.addr (lp.size + 24 + m.size)) _ _ vp8, Res.pure_eq] at hok
      injection hok with hok
      injection hok with h1 h2
      rw [← h1]
      refine ⟨A' ++ [{ addr := lp.addr, size := lp.size + 24 + m.size, free := lp.free }]
        ++ post, ?_, ?_⟩
      · refine arena_replace (a := lp.addr) (e := lp.addr + 24 + (lp.size + 24 + m.size))
          hA rfl rfl hpre2 ⟨rfl, hl8, rfl⟩ ?_ (List.cons_ne_nil _ _) fA fpost ?_ ?_
        · have e2 : lp.addr + 24 + (lp.size + 24 + m.size) = m.addr + 24 + m.size := by omega
          rw [e2]
          exact hpost
        · refine ⟨?_, ?_, ?_, trivial⟩
          · show ((st.write lp.addr (lp.size + 24 + m.size)).write (lp.addr + 8)
              (headAddr post 0)).mem lp.addr = lp.size + 24 + m.size
            rw [write_mem_other _ _ _ _ (by omega), write_mem_same]
            unfold SIZE_MOD
            omega
          · show ((st.write lp.addr (lp.size + 24 + m.size)).write (lp.addr + 8)
              (headAddr post 0)).mem (lp.addr + 8) = headAddr post 0
            rw [write_mem_same]
            unfold SIZE_MOD
            omega
          · show ((st.write lp.addr (lp.size + 24 + m.size)).write (lp.addr + 8)
              (headAddr post 0)).mem (lp.addr + 16) % 2 ^ 32 = lp.free
            rw [write_mem_other _ _ _ _ (by omega), write_mem_other _ _ _ _ (by omega)]
            exact fp16
        · intro y hy
          rw [write_mem_other _ _ _ _ (by omega), write_mem_other _ _ _ _ (by omega)]
      · intro q
        rw [isAlloc_replace, hpreq, isAlloc_append, isAlloc_append, isAlloc_cons,
          isAlloc_cons, isAlloc_cons]
        constructor
        · rintro (h | (⟨h, -⟩ | h) | h)
          · exact Or.inl (Or.inl h)
          · exact absurd h hf
          · exact absurd h (isAlloc_nil q)
          · exact Or.inr (Or.inr h)
        · rintro ((h | (⟨h, -⟩ | h)) | ⟨h, -⟩ | h)
          · exact Or.inl h
          · exact absurd h hf
          · exact absurd h (isAlloc_nil q)
          · exact absurd h hmfree
          · exact Or.inr (Or.inr h)

/-- The call `ufree(p)` on the payload of a block of an arena either
returns -1 and changes nothing, or returns 0, and then the directory is a
tiling again whose allocated blocks are the former ones without this block. -/
theorem ufree_arena {st st' : State} {base R fuel : Nat} {pre post : List Line} {l : Line}
    {r : Int} (hA : Arena st base R (pre ++ l :: post))
    (hok : ufree fuel st (l.addr + 24) = Res.ok (st', r)) :
    (r = -1 ∧ st' = st) ∨
    (r = 0 ∧ ∃ L', Arena st' base R L' ∧
      ∀ q, IsAlloc L' q ↔ (IsAlloc (pre ++ l :: post) q ∧ q ≠ l.addr + 24)) := by
  obtain ⟨hpre, h8, hpost, hlo, hhi, hbpre, hbpost⟩ := tiles_split hA.tiles
  obtain ⟨fpre, f0, f8, f16, fpost⟩ := fields_at hA.fields
  obtain ⟨v0, v8, v16⟩ := arena_valid hA (List.mem_append_right _ (List.mem_cons_self _ _))
  have hbase := hA.base_ne
  have hbelow := hA.below
  have e : sub64 (l.addr + 24) BLOCK_SIZE = l.addr := by
    rw [BLOCK_SIZE_eq]
    unfold sub64 SIZE_MOD
    omega
  unfold ufree at hok
  split at hok
  · injection hok with hok
    injection hok with h1 h2
    exact Or.inl ⟨h2.symm, h1.symm⟩
  · obtain ⟨s1, h1, hok⟩ := Res.bind_eq_ok hok
    obtain ⟨x, hx, hok⟩ := Res.bind_eq_ok hok
    injection hok with hok
    injection hok with h2 h3
    rw [e] at h1 hx
    rw [wr_free_ok st l.addr 1 v16] at h1
    injection h1 with h1
    rw [← h1, coalesce_eq] at hx
    obtain ⟨st2, hn, hp⟩ := Res.bind_eq_ok hx
    have hA1 : Arena (st.set_free l.addr 1) base R
        (pre ++ { addr := l.addr, size := l.size, free := 1 } :: post) := by
      have := @arena_replace st (st.set_free l.addr 1) base R l.addr (l.addr + 24 + l.size) _
        pre [{ addr := l.addr, size := l.size, free := 1 }] post
        hA rfl rfl hpre ⟨rfl, h8, rfl⟩ hpost (List.cons_ne_nil _ _) fpre fpost
        (by
          refine ⟨?_, ?_, ?_, trivial⟩
          · show (st.set_free l.addr 1).mem l.addr = l.size
            rw [set_free_mem_other _ _ _ _ (by omega), f0]
          · show (st.set_free l.addr 1).mem (l.addr + 8) = headAddr post 0
            rw [set_free_mem_other _ _ _ _ (by omega), f8]
          · show (st.set_free l.addr 1).mem (l.addr + 16) % 2 ^ 32 = 1
            rw [set_free_mem_flag _ _ _ (by decide)])
        (by
          intro y hy
          rw [set_free_mem_other _ _ _ _ (by omega)])
      simpa using this
    obtain ⟨st2', m', post', hn', hA2, hma, hmf, hiff⟩ := coalesce_next_arena hA1
    have hma' : m'.addr = l.addr := hma
    have hmf' : m'.free = 1 := hmf
    have hst2 : st2' = st2 := by
      have hn'' : coalesce_next (st.set_free l.addr 1) l.addr = Res.ok st2' := hn'
      exact (Res.ok.inj (hn.symm.trans hn'')).symm
    rw [hst2] at hA2
    obtain ⟨x1, x2⟩ := x
    rw [← hma'] at hp
    obtain ⟨L', hA3, hiff3⟩ :=
      coalesce_prev_arena hA2 (by rw [hmf']; exact Nat.succ_ne_zero 0) hp
    right
    refine ⟨h3.symm, L', ?_, ?_⟩
    · rw [← h2]
      exact hA3
    · intro q
      rw [hiff3, isAlloc_replace_one, hiff, isAlloc_replace_one]
      constructor
      · rintro (h | ⟨h, -⟩ | h)
        · refine ⟨Or.inl h, ?_⟩
          obtain ⟨y, hy, -, hq⟩ := h
          have := (hbpre y hy).2.1
          omega
        · rw [hmf'] at h
          exact absurd h (Nat.succ_ne_zero 0)
        · refine ⟨Or.inr (Or.inr h), ?_⟩
          obtain ⟨y, hy, -, hq⟩ := h
          have := (hbpost y hy).1
          omega
      · rintro ⟨h | ⟨-, h⟩ | h, hq⟩
        · exact Or.inl h
        · exact absurd h hq
        · exact Or.inr (Or.inr h)

/-! ## Support lemmas: the invariant of FirstFit, BestFit and WorstFit -/

/-- Two blocks of a tiling at different addresses do not overlap. -/
theorem tiles_disjoint {L : List Line} {a e : Nat} (h : Tiles a L e) {x y : Line}
    (hx : x ∈ L) (hy : y ∈ L) (hne : x.addr ≠ y.addr) :
    x.addr + 24 + x.size ≤ y.addr ∨ y.addr + 24 + y.size ≤ x.addr := by
  obtain ⟨pre, post, hL⟩ := List.append_of_mem hx
  rw [hL] at h hy
  obtain ⟨-, -, -, -, -, hpre, hpost⟩ := tiles_split h
  rcases List.mem_append.mp hy with hy | hy
  · exact Or.inr (hpre y hy).2.1
  · rcases List.mem_cons.mp hy with hy | hy
    · rw [hy] at hne
      exact absurd rfl hne
    · exact Or.inl (hpost y hy).1

/-- The dump of a chain is its list of blocks. -/
theorem dump_of_chain (st : State) : ∀ (L : List Line) (cur fuel : Nat),
    ChainSeg st cur L 0 → L.length < fuel → umemdump_loop fuel st cur = Res.ok L := by
  intro L
  induction L with
  | nil =>
    intro cur fuel hch hlen
    have hc : cur = 0 := hch
    obtain ⟨n, rfl⟩ : ∃ n, fuel = n + 1 := ⟨fuel - 1, by simp at hlen; omega⟩
    rw [umemdump_loop, if_pos hc]
  | cons l rest ih =>
    intro cur fuel hch hlen
    obtain ⟨n, rfl⟩ : ∃ n, fuel = n + 1 := ⟨fuel - 1, by simp at hlen; omega⟩
    obtain ⟨hc, hl, hs, hf, nx, hn, hrest⟩ := hch
    have hlen' : rest.length < n := by simp at hlen; omega
    rw [umemdump_loop, if_neg hc, hs, Res.ok_bind, hf, Res.ok_bind, hn, Res.ok_bind,
      ih nx n hrest hlen', Res.ok_bind, ← hl]
    rfl

/-- What a successful `umeminit` leaves on a host with pages of `2^k` bytes: an
arena of one free block. -/
theorem umeminit_arena {os : OS} {st st0 : State} {c k : Nat} {algo : Int}
    (hk3 : 3 ≤ k) (hk : k < 64) (hp : os.getpagesize = 2 ^ k) (hc64 : c < 2 ^ 64)
    (hinit : umeminit os st c algo = Res.ok (st0, 0))
    (hnz : st0.heap_list ≠ 0) (hal : st0.heap_list % os.getpagesize = 0)
    (hend : st0.heap_list + st0.size_of_region < 2 ^ 64) :
    Arena st0 st0.heap_list st0.size_of_region
      [{ addr := st0.heap_list, size := st0.size_of_region - 24, free := 1 }] ∧
    st0.allocation_algorithm = algo := by
  have hc : 24 ≤ c := by
    by_contra hlt
    rw [umeminit_below_header os st c algo (by omega)] at hinit
    injection hinit with hinit
    injection hinit with h1 h2
    exact absurd h2 (by decide)
  rcases umeminit_cases hinit with ⟨hr, -⟩ | ⟨-, -, -, hmap⟩
  · exact absurd hr (by decide)
  · have hpos : 0 < 2 ^ k := Nat.pow_pos (by decide)
    obtain ⟨hlen, hans⟩ := mmap_answer_of_success os st _ st0.heap_list hmap
    rw [hp] at hlen hans hal
    have hpr := page_round_eq k c hk hc64
    by_cases hfit : c + (2 ^ k - 1) < 2 ^ 64
    · rw [if_pos hfit] at hpr
      obtain ⟨h1, h2, h3⟩ := round_up_least (2 ^ k) c hpos
      have hle : (c + (2 ^ k - 1)) / 2 ^ k * 2 ^ k ≤ c + (2 ^ k - 1) := Nat.div_mul_le_self _ _
      have hal8 : st0.heap_list % 8 = 0 := by
        have h8 : (8 : Nat) ∣ 2 ^ k := by
          have : (2 : Nat) ^ 3 ∣ 2 ^ k := Nat.pow_dvd_pow 2 hk3
          simpa using this
        exact Nat.mod_eq_zero_of_dvd (dvd_trans h8 (Nat.dvd_of_mod_eq_zero hal))
      rw [hpr] at hans
      obtain ⟨st', hinit', hheap, -, halg, -, hsz, -, hmapd, -, hm0, hm8, hm16⟩ :=
        umeminit_fresh os st c algo _ st0.heap_list hc (by rw [hp]; exact hpr) (by omega)
          (by omega) hans hal8
      have hst : st' = st0 := by
        have := hinit'.symm.trans hinit
        exact congrArg Prod.fst (Res.ok.inj this)
      rw [hst] at hheap halg hsz hmapd hm0 hm8 hm16
      obtain ⟨R, hR⟩ : ∃ R, (c + (2 ^ k - 1)) / 2 ^ k * 2 ^ k = R := ⟨_, rfl⟩
      rw [hR] at hsz hmapd hm0 h2
      rw [hsz] at hend ⊢
      refine ⟨⟨by rw [hmapd]; exact List.mem_cons_self _ _, hnz, hend, rfl,
        List.cons_ne_nil _ _, ⟨rfl, hal8, ?_⟩, ⟨hm0, hm8, ?_, trivial⟩⟩, halg⟩
      · show st0.heap_list + 24 + (R - 24) = st0.heap_list + R
        omega
      · show st0.mem (st0.heap_list + 16) % 2 ^ 32 = 1
        rw [hm16]
        decide
    · rw [if_neg hfit] at hpr
      exact absurd hpr hlen

/-- Under FirstFit, BestFit and WorstFit, every state reached from an arena
without allocated blocks is an arena again, and its live pointers are exactly
the payloads of its allocated blocks, each listed once. -/
theorem reach_arena {st0 st : State} {base R : Nat} {L0 : List Line} {live : List Nat}
    (hA0 : Arena st0 base R L0) (h0 : ∀ q, ¬ IsAlloc L0 q)
    (halg : st0.allocation_algorithm = FIRST_FIT ∨ st0.allocation_algorithm = BEST_FIT ∨
      st0.allocation_algorithm = WORST_FIT)
    (hreach : Reach st0 st live) :
    st.allocation_algorithm = st0.allocation_algorithm ∧ live.Nodup ∧
    ∃ L, Arena st base R L ∧ ∀ q, q ∈ live ↔ IsAlloc L q := by
  induction hreach with
  | start =>
    exact ⟨rfl, List.nodup_nil, L0, hA0, fun q =>
      ⟨fun h => absurd h (List.not_mem_nil q), fun h => absurd h (h0 q)⟩⟩
  | alloc fuel n p _ hcall ih =>
    obtain ⟨ha, hnd, L, hA, hiff⟩ := ih
    have halg' := (umalloc_frame hcall).2.2.1
    rcases umalloc_arena hA (by rw [ha]; exact halg) hcall with
      ⟨hp0, hst⟩ | ⟨hp0, hnot, L', hA', hiff'⟩
    · rw [if_pos hp0, hst]
      exact ⟨ha, hnd, L, hA, hiff⟩
    · rw [if_neg hp0]
      refine ⟨halg'.trans ha, List.nodup_cons.mpr ⟨fun h => hnot ((hiff p).mp h), hnd⟩, L',
        hA', ?_⟩
      intro q
      rw [List.mem_cons, hiff', hiff]
  | release fuel p r _ hmem hcall ih =>
    obtain ⟨ha, hnd, L, hA, hiff⟩ := ih
    have halg' := (ufree_frame hcall).2.2.1
    obtain ⟨x, hx, -, hpx⟩ := (hiff p).mp hmem
    obtain ⟨pre, post, hL⟩ := List.append_of_mem hx
    rw [hL] at hA
    rw [hpx] at hcall
    rcases ufree_arena hA hcall with ⟨hr, hst⟩ | ⟨hr, L', hA', hiff'⟩
    · rw [if_neg (by rw [hr]; decide), hst]
      rw [← hL] at hA
      exact ⟨ha, hnd, L, hA, hiff⟩
    · rw [if_pos hr]
      refine ⟨halg'.trans ha, hnd.erase p, L', hA', ?_⟩
      intro q
      rw [hnd.mem_erase_iff, hiff', ← hL, ← hiff, hpx, and_comm]

/-- The size field of a block of an arena, as the program reads it. -/
theorem arena_rd_size {st : State} {base R : Nat} {L : List Line} (h : Arena st base R L)
    {x : Line} (hx : x ∈ L) : rd_size st x.addr = Res.ok x.size := by
  obtain ⟨pre, post, hL⟩ := List.append_of_mem hx
  rw [hL] at h
  exact (arena_reads h).1

/-- C23: on a host with pages of `2^k` bytes (`3 ≤ k < 64`), let `umeminit`
succeed with FirstFit, BestFit or WorstFit, the arena being mapped at a
non-null page-aligned address and ending below `2^64`.  In every state reached
from there by `umalloc` calls (of any size) and `ufree` calls on live
pointers, no pointer is live twice, the dump returns the directory `L`, and
for every live pointer `p`, with `S` the size field of its block: the payload
`[p, p + S)` lies inside the arena, is disjoint from the payload of every
other live pointer, and overlaps no header `[l.addr, l.addr + 24)` of the
directory. -/
theorem live_payloads_disjoint_inside_arena (os : OS) (st st0 st1 : State) (c k : Nat)
    (algo : Int) (live : List Nat)
    (hk3 : 3 ≤ k) (hk : k < 64) (hp : os.getpagesize = 2 ^ k) (hc64 : c < 2 ^ 64)
    (halg : algo = FIRST_FIT ∨ algo = BEST_FIT ∨ algo = WORST_FIT)
    (hinit : umeminit os st c algo = Res.ok (st0, 0))
    (hnz : st0.heap_list ≠ 0) (hal : st0.heap_list % os.getpagesize = 0)
    (hend : st0.heap_list + st0.size_of_region < 2 ^ 64)
    (hreach : Reach st0 st1 live) :
    live.Nodup ∧
    ∃ L, (∀ fuel, L.length < fuel → umemdump fuel st1 = Res.ok L) ∧
      ∀ p ∈ live, ∃ S, rd_size st1 (p - 24) = Res.ok S ∧
        st0.heap_list + 24 ≤ p ∧ p + S ≤ st0.heap_list + st0.size_of_region ∧
        (∀ q ∈ live, q ≠ p → ∀ T, rd_size st1 (q - 24) = Res.ok T →
          p + S ≤ q ∨ q + T ≤ p) ∧
        (∀ l ∈ L, l.addr + 24 ≤ p ∨ p + S ≤ l.addr) := by
  obtain ⟨hA0, halg0⟩ := umeminit_arena hk3 hk hp hc64 hinit hnz hal hend
  have h0 : ∀ q, ¬ IsAlloc
      [{ addr := st0.heap_list, size := st0.size_of_region - 24, free := 1 }] q := by
    rintro q ⟨x, hx, hx0, -⟩
    rw [List.mem_singleton.mp hx] at hx0
    exact absurd hx0 (Nat.succ_ne_zero 0)
  obtain ⟨-, hnd, L, hA, hiff⟩ := reach_arena hA0 h0 (by rw [halg0]; exact halg) hreach
  refine ⟨hnd, L, ?_, ?_⟩
  · intro fuel hf
    unfold umemdump
    rw [hA.head]
    exact dump_of_chain st1 L _ fuel (arena_seg hA) hf
  · intro p hpl
    obtain ⟨x, hx, -, hpx⟩ := (hiff p).mp hpl
    obtain ⟨hx1, hx2, -⟩ := (tiles_bounds L _ _ hA.tiles).2 x hx
    refine ⟨x.size, ?_, by omega, by omega, ?_, ?_⟩
    · rw [hpx, Nat.add_sub_cancel]
      exact arena_rd_size hA hx
    · intro q hql hqp T hT
      obtain ⟨y, hy, -, hqy⟩ := (hiff q).mp hql
      rw [hqy, Nat.add_sub_cancel, arena_rd_size hA hy] at hT
      have hTy : y.size = T := Res.ok.inj hT
      rcases tiles_disjoint hA.tiles hx hy (by omega) with h | h
      · left
        omega
      · right
        omega
    · intro l hl
      by_cases hla : l.addr = x.addr
      · left
        omega
      · rcases tiles_disjoint hA.tiles hx hl (fun h => hla h.symm) with h | h
        · right
          omega
        · left
          omega

/-- C23 at a concrete input: `umeminit(4096, FIRST_FIT)` on `host`, then
`umalloc(8)`, whose pointer is live. -/
theorem live_payloads_disjoint_inside_arena_witness :
    (host.getpagesize = 2 ^ 12 ∧
      umeminit host State.start 4096 FIRST_FIT = Res.ok (initialized_4096, 0) ∧
      initialized_4096.heap_list ≠ 0 ∧
      initialized_4096.heap_list % host.getpagesize = 0 ∧
      initialized_4096.heap_list + initialized_4096.size_of_region < 2 ^ 64 ∧
      Reach initialized_4096 allocated_8 [4096024]) ∧
    ([4096024].Nodup ∧
      ∃ L, (∀ fuel, L.length < fuel → umemdump fuel allocated_8 = Res.ok L) ∧
        ∀ p ∈ [4096024], ∃ S, rd_size allocated_8 (p - 24) = Res.ok S ∧
          initialized_4096.heap_list + 24 ≤ p ∧
          p + S ≤ initialized_4096.heap_list + initialized_4096.size_of_region ∧
          (∀ q ∈ [4096024], q ≠ p → ∀ T, rd_size allocated_8 (q - 24) = Res.ok T →
            p + S ≤ q ∨ q + T ≤ p) ∧
          (∀ l ∈ L, l.addr + 24 ≤ p ∨ p + S ≤ l.addr)) :=
  ⟨⟨by decide, rfl, by decide, by decide, by decide,
      Reach.alloc run_fuel 8 4096024 Reach.start rfl⟩,
    live_payloads_disjoint_inside_arena host State.start initialized_4096 allocated_8 4096 12
      FIRST_FIT [4096024] (by decide) (by decide) (by decide) (by decide)
      (Or.inl rfl) rfl (by decide) (by decide) (by decide)
      (Reach.alloc run_fuel 8 4096024 Reach.start rfl)⟩

end Umem
